import Mathlib

/-!
Verification of the srte-ls repository (segment-routing traffic-engineering
local search). The Go sources are shallowly embedded: Go slices become Lean
lists, in-place mutation becomes explicit state passing, `int64` becomes `Int`,
and `float64` quantities (ratios, utilizations, wheel weights) are modelled as
exact rationals. Functions that can panic in Go (out-of-range indexing of
`PathVar[demand]`, unknown move kinds) are modelled with `Option`.
-/

/-- Reading a Go `[]int` / `[]int64` at an index, with the Go zero value as
default. In-range accesses coincide with the Go behaviour; all theorems that
depend on an access carry the corresponding bounds hypothesis. -/
def nth (l : List Nat) (i : Nat) : Nat := l.getD i 0

/-- Same as `nth` for integer slices. -/
def nthI (l : List Int) (i : Nat) : Int := l.getD i 0

theorem nth_set (l : List Nat) (i k v : Nat) :
    nth (l.set i v) k = if i = k ∧ i < l.length then v else nth l k := by
  unfold nth
  by_cases h : i = k ∧ i < l.length
  · obtain ⟨rfl, hlt⟩ := h
    simp [hlt]
  · rcases Decidable.not_and_iff_or_not.mp h with h' | h'
    · simp [List.getElem?_set_ne h', h]
    · have he : l.set i v = l := List.set_eq_of_length_le (by omega)
      simp [he, h]

theorem nthI_set (l : List Int) (i k : Nat) (v : Int) :
    nthI (l.set i v) k = if i = k ∧ i < l.length then v else nthI l k := by
  unfold nthI
  by_cases h : i = k ∧ i < l.length
  · obtain ⟨rfl, hlt⟩ := h
    simp [hlt]
  · rcases Decidable.not_and_iff_or_not.mp h with h' | h'
    · simp [List.getElem?_set_ne h', h]
    · have he : l.set i v = l := List.set_eq_of_length_le (by omega)
      simp [he, h]

theorem nth_replicate (n i v : Nat) :
    nth (List.replicate n v) i = if i < n then v else 0 := by
  unfold nth
  rw [List.getD_eq_getElem?_getD, List.getElem?_replicate]
  by_cases h : i < n <;> simp [h]

theorem nthI_eq_default (l : List Int) (i : Nat) (h : l.length ≤ i) : nthI l i = 0 := by
  unfold nthI
  exact List.getD_eq_default _ _ h

theorem nth_eq_default (l : List Nat) (i : Nat) (h : l.length ≤ i) : nth l i = 0 := by
  unfold nth
  exact List.getD_eq_default _ _ h

/-- Two lists of the same length with equal `getD` reads are equal. -/
theorem nthI_ext (l1 l2 : List Int) (hlen : l1.length = l2.length)
    (h : ∀ i, nthI l1 i = nthI l2 i) : l1 = l2 := by
  apply List.ext_getElem hlen
  intro i h1 h2
  have := h i
  unfold nthI at this
  rwa [List.getD_eq_getElem _ _ h1, List.getD_eq_getElem _ _ h2] at this

theorem nth_ext (l1 l2 : List Nat) (hlen : l1.length = l2.length)
    (h : ∀ i, nth l1 i = nth l2 i) : l1 = l2 := by
  apply List.ext_getElem hlen
  intro i h1 h2
  have := h i
  unfold nth at this
  rwa [List.getD_eq_getElem _ _ h1, List.getD_eq_getElem _ _ h2] at this

/-! ## PathVar (srte/paths/paths.go)

A `PathVar` owns a fixed-capacity backing buffer `path` (the Go slice created
with `make([]int, maxNodes)`) and a logical length. -/

namespace Paths

structure PathVar where
  path : List Nat
  length : Nat
  deriving Repr, DecidableEq

instance : Inhabited PathVar := ⟨⟨[], 0⟩⟩

/-- `New` (paths.go:27). Go writes `p.path[0] = from; p.path[1] = to` into a
fresh zeroed buffer of size `maxNodes` (and panics when `maxNodes < 2`; the
out-of-range `List.set` is a no-op, theorems carry `2 ≤ maxNodes`). -/
def New (a b : Nat) (maxNodes : Nat) : PathVar :=
  { path := ((List.replicate maxNodes 0).set 0 a).set 1 b, length := 2 }

def PathVar.Length (p : PathVar) : Nat := p.length

def PathVar.Node (p : PathVar) (pos : Nat) : Nat := nth p.path pos

def PathVar.Nodes (p : PathVar) : List Nat := p.path.take p.length

/-- `CanClear` (paths.go:57): `p.length > 2`. -/
def PathVar.CanClear (p : PathVar) : Bool := 2 < p.length

/-- `Clear` (paths.go:64): `p.path[1] = p.path[p.length-1]; p.length = 2`. -/
def PathVar.Clear (p : PathVar) : PathVar × Bool :=
  if !p.CanClear then (p, false)
  else ({ path := p.path.set 1 (nth p.path (p.length - 1)), length := 2 }, true)

/-- `CanRemove` (paths.go:75): `0 < pos && pos < p.length-1`. -/
def PathVar.CanRemove (p : PathVar) (pos : Nat) : Bool :=
  0 < pos && pos < p.length - 1

/-- One iteration per unit of fuel of the copy loop of `Remove` (paths.go:98):
`for i := pos; i < p.length; i++ 0x7b p.path[i] = p.path[i+offset] 0x7d`. -/
def copyLoopGo (off : Nat) : Nat → List Nat → Nat → List Nat
  | 0, buf, _ => buf
  | fuel + 1, buf, i => copyLoopGo off fuel (buf.set i (nth buf (i + off))) (i + 1)

/-- The copy loop of `Remove`, running from `i` while `i < stop` (the loop
executes exactly `stop - i` iterations). -/
def copyLoop (buf : List Nat) (i stop off : Nat) : List Nat :=
  copyLoopGo off (stop - i) buf i

/-- `Remove` (paths.go:87). When the neighbours of the removed node are equal,
the shift width is 2 (the consecutive-equal repair). -/
def PathVar.Remove (p : PathVar) (pos : Nat) : PathVar × Bool :=
  if !p.CanRemove pos then (p, false)
  else
    let off := if nth p.path (pos - 1) = nth p.path (pos + 1) then 2 else 1
    let newLen := p.length - off
    ({ path := copyLoop p.path pos newLen off, length := newLen }, true)

/-- `CanUpdate` (paths.go:106). Go's `pos <= 0` is `pos = 0` on `Nat`. -/
def PathVar.CanUpdate (p : PathVar) (pos node : Nat) : Bool :=
  if pos = 0 || p.length - 1 ≤ pos then false
  else if nth p.path (pos - 1) = node || nth p.path (pos + 1) = node then false
  else if nth p.path pos = node then false
  else true

/-- `Update` (paths.go:122). -/
def PathVar.Update (p : PathVar) (pos node : Nat) : PathVar × Bool :=
  if !p.CanUpdate pos node then (p, false)
  else ({ p with path := p.path.set pos node }, true)

/-- `CanInsert` (paths.go:132). -/
def PathVar.CanInsert (p : PathVar) (pos node : Nat) : Bool :=
  if p.length = p.path.length then false
  else if pos < 1 || p.length ≤ pos then false
  else if nth p.path (pos - 1) = node || nth p.path pos = node then false
  else true

/-- One iteration per unit of fuel of the right-shift loop of `Insert`
(paths.go:154): `for i := p.length; i > pos; i-- 0x7b p.path[i] = p.path[i-1] 0x7d`. -/
def copyLoopDownGo : Nat → List Nat → Nat → List Nat
  | 0, buf, _ => buf
  | fuel + 1, buf, i => copyLoopDownGo fuel (buf.set i (nth buf (i - 1))) (i - 1)

/-- The right-shift loop of `Insert`, running from `i` down while `i > pos`
(the loop executes exactly `i - pos` iterations). -/
def copyLoopDown (buf : List Nat) (i pos : Nat) : List Nat :=
  copyLoopDownGo (i - pos) buf i

/-- `Insert` (paths.go:150). -/
def PathVar.Insert (p : PathVar) (pos node : Nat) : PathVar × Bool :=
  if !p.CanInsert pos node then (p, false)
  else ({ path := (copyLoopDown p.path p.length pos).set pos node,
          length := p.length + 1 }, true)

theorem copyLoopGo_length (off : Nat) :
    ∀ (fuel : Nat) (buf : List Nat) (i : Nat),
      (copyLoopGo off fuel buf i).length = buf.length := by
  intro fuel
  induction fuel with
  | zero => intro buf i; rfl
  | succ n ih => intro buf i; rw [copyLoopGo, ih]; simp

theorem copyLoop_length (buf : List Nat) (i stop off : Nat) :
    (copyLoop buf i stop off).length = buf.length :=
  copyLoopGo_length off (stop - i) buf i

theorem copyLoopGo_nth (off : Nat) (hoff : 1 ≤ off) :
    ∀ (fuel : Nat) (buf : List Nat) (i k : Nat),
      nth (copyLoopGo off fuel buf i) k =
        if i ≤ k ∧ k < i + fuel then nth buf (k + off) else nth buf k := by
  intro fuel
  induction fuel with
  | zero =>
    intro buf i k
    rw [copyLoopGo]
    rw [if_neg (by omega)]
  | succ n ih =>
    intro buf i k
    rw [copyLoopGo, ih]
    by_cases hk : k = i
    · subst hk
      rw [if_neg (by omega), if_pos (by omega), nth_set]
      by_cases hlen : k < buf.length
      · rw [if_pos ⟨rfl, hlen⟩]
      · rw [if_neg (by omega), nth_eq_default _ _ (by omega),
          nth_eq_default _ _ (by omega)]
    · by_cases hrange : i + 1 ≤ k ∧ k < i + 1 + n
      · rw [if_pos hrange, if_pos (by omega), nth_set, if_neg (by omega)]
      · rw [if_neg hrange, if_neg (by omega), nth_set, if_neg (by omega)]

theorem copyLoop_nth (buf : List Nat) (i stop off : Nat) (hoff : 1 ≤ off) (k : Nat) :
    nth (copyLoop buf i stop off) k =
      if i ≤ k ∧ k < stop then nth buf (k + off) else nth buf k := by
  rw [copyLoop, copyLoopGo_nth off hoff]
  by_cases h : i ≤ k ∧ k < stop
  · rw [if_pos (by omega), if_pos h]
  · rw [if_neg (by omega), if_neg h]

theorem copyLoopDownGo_length :
    ∀ (fuel : Nat) (buf : List Nat) (i : Nat),
      (copyLoopDownGo fuel buf i).length = buf.length := by
  intro fuel
  induction fuel with
  | zero => intro buf i; rfl
  | succ n ih => intro buf i; rw [copyLoopDownGo, ih]; simp

theorem copyLoopDown_length (buf : List Nat) (i pos : Nat) :
    (copyLoopDown buf i pos).length = buf.length :=
  copyLoopDownGo_length (i - pos) buf i

theorem copyLoopDownGo_nth :
    ∀ (fuel : Nat) (buf : List Nat) (i k : Nat), fuel ≤ i → i < buf.length →
      nth (copyLoopDownGo fuel buf i) k =
        if i - fuel < k ∧ k ≤ i then nth buf (k - 1) else nth buf k := by
  intro fuel
  induction fuel with
  | zero =>
    intro buf i k _ _
    rw [copyLoopDownGo]
    rw [if_neg (by omega)]
  | succ n ih =>
    intro buf i k hfuel hlen
    rw [copyLoopDownGo,
      ih (buf.set i (nth buf (i - 1))) (i - 1) k (by omega) (by simp; omega)]
    by_cases hk : k = i
    · subst hk
      rw [if_neg (by omega), if_pos (by omega), nth_set, if_pos ⟨rfl, hlen⟩]
    · by_cases h1 : (i - 1) - n < k ∧ k ≤ i - 1
      · rw [if_pos h1, if_pos (by omega), nth_set, if_neg (by omega)]
      · rw [if_neg h1, if_neg (by omega), nth_set, if_neg (by omega)]

theorem copyLoopDown_nth (buf : List Nat) (i pos : Nat) (hlen : i < buf.length)
    (k : Nat) :
    nth (copyLoopDown buf i pos) k =
      if pos < k ∧ k ≤ i then nth buf (k - 1) else nth buf k := by
  rw [copyLoopDown, copyLoopDownGo_nth (i - pos) buf i k (by omega) hlen]
  by_cases h : pos < k ∧ k ≤ i
  · rw [if_pos (by omega), if_pos h]
  · rw [if_neg (by omega), if_neg h]

/-! ### The PathVar invariants (spec section 3, doc comment of PathVar)

`length ≥ 2`, fixed endpoints, no two consecutive nodes equal, and bounded
length. These are the invariants claimed to be preserved by every mutation. -/

/-- No two consecutive nodes of the logical path are equal. -/
def noConsec (p : PathVar) : Prop :=
  ∀ i < p.length - 1, nth p.path i ≠ nth p.path (i + 1)

instance (p : PathVar) : Decidable (noConsec p) := by
  unfold noConsec; infer_instance

/-- The documented PathVar invariant for a path from `a` to `b` whose backing
buffer has capacity `cap`. -/
def Invariant (a b cap : Nat) (p : PathVar) : Prop :=
  2 ≤ p.length ∧ p.length ≤ p.path.length ∧ p.path.length = cap ∧
  nth p.path 0 = a ∧ nth p.path (p.length - 1) = b ∧ noConsec p

instance (a b cap : Nat) (p : PathVar) : Decidable (Invariant a b cap p) := by
  unfold Invariant; infer_instance

theorem Invariant.new (a b cap : Nat) (hab : a ≠ b) (hcap : 2 ≤ cap) :
    Invariant a b cap (New a b cap) := by
  have h0 : nth (New a b cap).path 0 = a := by
    rw [New, nth_set, if_neg (by omega), nth_set,
      if_pos ⟨rfl, by simp; omega⟩]
  have h1 : nth (New a b cap).path 1 = b := by
    rw [New, nth_set, if_pos ⟨rfl, by simp; omega⟩]
  refine ⟨le_refl 2, by simp [New]; omega, by simp [New], h0, h1, ?_⟩
  intro i hi
  have : i = 0 := by simp [New] at hi ⊢; omega
  subst this
  rw [h0, h1]
  exact hab

/-- Unpacked success condition of `CanUpdate`. -/
theorem canUpdate_iff (p : PathVar) (pos node : Nat) :
    p.CanUpdate pos node = true ↔
      pos ≠ 0 ∧ pos < p.length - 1 ∧ nth p.path (pos - 1) ≠ node ∧
      nth p.path (pos + 1) ≠ node ∧ nth p.path pos ≠ node := by
  rw [PathVar.CanUpdate]
  by_cases c1 : pos = 0 ∨ p.length - 1 ≤ pos
  · rw [if_pos (by simpa using c1)]
    simp only [Bool.false_eq_true, false_iff]
    intro hcon
    rcases c1 with c | c
    · exact hcon.1 c
    · omega
  · rw [if_neg (by simpa using c1)]
    push_neg at c1
    by_cases c2 : nth p.path (pos - 1) = node ∨ nth p.path pos.succ = node
    · rw [if_pos (by simpa using c2)]
      simp only [Bool.false_eq_true, false_iff]
      intro hcon
      rcases c2 with c | c
      · exact hcon.2.2.1 c
      · exact hcon.2.2.2.1 c
    · rw [if_neg (by simpa using c2)]
      push_neg at c2
      by_cases c3 : nth p.path pos = node
      · rw [if_pos c3]
        simp only [Bool.false_eq_true, false_iff]
        exact fun hcon => hcon.2.2.2.2 c3
      · rw [if_neg c3]
        simp only [true_iff]
        exact ⟨c1.1, by omega, c2.1, c2.2, c3⟩

/-- Unpacked success condition of `CanRemove`. -/
theorem canRemove_iff (p : PathVar) (pos : Nat) :
    p.CanRemove pos = true ↔ 0 < pos ∧ pos < p.length - 1 := by
  rw [PathVar.CanRemove]
  simp

/-- Unpacked success condition of `CanInsert`. -/
theorem canInsert_iff (p : PathVar) (pos node : Nat) :
    p.CanInsert pos node = true ↔
      p.length ≠ p.path.length ∧ 1 ≤ pos ∧ pos < p.length ∧
      nth p.path (pos - 1) ≠ node ∧ nth p.path pos ≠ node := by
  rw [PathVar.CanInsert]
  by_cases c1 : p.length = p.path.length
  · rw [if_pos c1]
    simp only [Bool.false_eq_true, false_iff]
    exact fun hcon => hcon.1 c1
  · rw [if_neg c1]
    by_cases c2 : pos < 1 ∨ p.length ≤ pos
    · rw [if_pos (by simpa using c2)]
      simp only [Bool.false_eq_true, false_iff]
      intro hcon
      rcases c2 with c | c <;> omega
    · rw [if_neg (by simpa using c2)]
      push_neg at c2
      by_cases c3 : nth p.path (pos - 1) = node ∨ nth p.path pos = node
      · rw [if_pos (by simpa using c3)]
        simp only [Bool.false_eq_true, false_iff]
        intro hcon
        rcases c3 with c | c
        · exact hcon.2.2.2.1 c
        · exact hcon.2.2.2.2 c
      · rw [if_neg (by simpa using c3)]
        push_neg at c3
        simp only [true_iff]
        exact ⟨c1, by omega, by omega, c3.1, c3.2⟩

theorem Invariant.clear {a b cap : Nat} {p : PathVar} (hab : a ≠ b)
    (h : Invariant a b cap p) : Invariant a b cap (p.Clear).1 := by
  obtain ⟨h2, hle, hcap, h0, hlast, hnc⟩ := h
  cases hc : p.CanClear with
  | false =>
    rw [PathVar.Clear, hc]
    exact ⟨h2, hle, hcap, h0, hlast, hnc⟩
  | true =>
    have hlen : 2 < p.length := by
      simpa [PathVar.CanClear] using hc
    rw [PathVar.Clear, hc]
    simp only [Bool.not_true, Bool.false_eq_true, if_false]
    have hb1 : 1 < p.path.length := by omega
    refine ⟨le_refl 2, by simp; omega, by simpa using hcap, ?_, ?_, ?_⟩
    · rw [nth_set, if_neg (by omega)]
      exact h0
    · show nth (p.path.set 1 (nth p.path (p.length - 1))) (2 - 1) = b
      rw [nth_set, if_pos ⟨rfl, hb1⟩]
      exact hlast
    · intro i hi
      replace hi : i < 1 := by simpa using hi
      have : i = 0 := by omega
      subst this
      rw [nth_set, if_neg (by omega), nth_set, if_pos ⟨rfl, hb1⟩, h0, hlast]
      exact hab

theorem Invariant.update {a b cap : Nat} {p : PathVar} (pos node : Nat)
    (h : Invariant a b cap p) : Invariant a b cap (p.Update pos node).1 := by
  obtain ⟨h2, hle, hcap, h0, hlast, hnc⟩ := h
  cases hc : p.CanUpdate pos node with
  | false =>
    rw [PathVar.Update, hc]
    exact ⟨h2, hle, hcap, h0, hlast, hnc⟩
  | true =>
    obtain ⟨c0, clt, cm, cp, cc⟩ := (canUpdate_iff p pos node).mp hc
    rw [PathVar.Update, hc]
    simp only [Bool.not_true, Bool.false_eq_true, if_false]
    refine ⟨h2, by simpa using hle, by simpa using hcap, ?_, ?_, ?_⟩
    · rw [nth_set, if_neg (by omega)]
      exact h0
    · show nth (p.path.set pos node) (p.length - 1) = b
      rw [nth_set, if_neg (by omega)]
      exact hlast
    · intro i hi
      replace hi : i < p.length - 1 := by simpa using hi
      show nth (p.path.set pos node) i ≠ nth (p.path.set pos node) (i + 1)
      rw [nth_set, nth_set]
      by_cases hi1 : pos = i ∧ pos < p.path.length
      · rw [if_pos hi1, if_neg (by omega)]
        obtain ⟨rfl, _⟩ := hi1
        exact fun hx => cp (by simpa using hx.symm)
      · rw [if_neg hi1]
        by_cases hi2 : pos = i + 1 ∧ pos < p.path.length
        · rw [if_pos hi2]
          obtain ⟨hp, _⟩ := hi2
          intro hx
          exact cm (by rw [hp]; simpa using hx)
        · rw [if_neg hi2]
          exact hnc i hi

theorem Invariant.remove {a b cap : Nat} {p : PathVar} (pos : Nat) (hab : a ≠ b)
    (h : Invariant a b cap p) : Invariant a b cap (p.Remove pos).1 := by
  obtain ⟨h2, hle, hcap, h0, hlast, hnc⟩ := h
  cases hc : p.CanRemove pos with
  | false =>
    rw [PathVar.Remove, hc]
    exact ⟨h2, hle, hcap, h0, hlast, hnc⟩
  | true =>
    obtain ⟨cpos, clt⟩ := (canRemove_iff p pos).mp hc
    have hL3 : 3 ≤ p.length := by omega
    rw [PathVar.Remove, hc]
    simp only [Bool.not_true, Bool.false_eq_true, if_false]
    by_cases hrep : nth p.path (pos - 1) = nth p.path (pos + 1)
    · -- consecutive-equal repair: shift by 2
      have hL4 : 4 ≤ p.length := by
        rcases Nat.lt_or_ge p.length 4 with hl | hl
        · exfalso
          have h3 : p.length = 3 := by omega
          have hp1 : pos = 1 := by omega
          apply hab
          rw [← h0, ← hlast, h3]
          subst hp1
          simpa using hrep
        · exact hl
      simp only [hrep, if_pos]
      refine ⟨show 2 ≤ p.length - 2 by omega, ?_, ?_, ?_, ?_, ?_⟩
      · show p.length - 2 ≤ (copyLoop p.path pos (p.length - 2) 2).length
        rw [copyLoop_length]; omega
      · show (copyLoop p.path pos (p.length - 2) 2).length = cap
        rw [copyLoop_length]; exact hcap
      · show nth (copyLoop p.path pos (p.length - 2) 2) 0 = a
        rw [copyLoop_nth _ _ _ _ (by omega), if_neg (by omega)]
        exact h0
      · show nth (copyLoop p.path pos (p.length - 2) 2) (p.length - 2 - 1) = b
        rw [copyLoop_nth _ _ _ _ (by omega)]
        by_cases hp : pos ≤ p.length - 3
        · rw [if_pos (by omega)]
          have : p.length - 2 - 1 + 2 = p.length - 1 := by omega
          rw [this]; exact hlast
        · have hpe : pos = p.length - 2 := by omega
          rw [if_neg (by omega)]
          have h1 : p.length - 2 - 1 = pos - 1 := by omega
          have h2' : pos + 1 = p.length - 1 := by omega
          rw [h1, hrep, h2']; exact hlast
      · intro i hi
        replace hi : i < p.length - 2 - 1 := by simpa using hi
        show nth (copyLoop p.path pos (p.length - 2) 2) i ≠
          nth (copyLoop p.path pos (p.length - 2) 2) (i + 1)
        rw [copyLoop_nth _ _ _ _ (by omega), copyLoop_nth _ _ _ _ (by omega)]
        by_cases c1 : i + 1 < pos
        · rw [if_neg (by omega), if_neg (by omega)]
          exact hnc i (by omega)
        · by_cases c2 : i + 1 = pos
          · rw [if_neg (by omega), if_pos (by omega)]
            have e2 : i + 1 + 2 = pos + 2 := by omega
            have e1 : i = pos - 1 := by omega
            rw [e2, e1, hrep]
            exact hnc (pos + 1) (by omega)
          · -- i ≥ pos
            rw [if_pos (by omega), if_pos (by omega)]
            exact hnc (i + 2) (by omega)
    · -- no repair: shift by 1
      simp only [if_neg hrep]
      refine ⟨show 2 ≤ p.length - 1 by omega, ?_, ?_, ?_, ?_, ?_⟩
      · show p.length - 1 ≤ (copyLoop p.path pos (p.length - 1) 1).length
        rw [copyLoop_length]; omega
      · show (copyLoop p.path pos (p.length - 1) 1).length = cap
        rw [copyLoop_length]; exact hcap
      · show nth (copyLoop p.path pos (p.length - 1) 1) 0 = a
        rw [copyLoop_nth _ _ _ _ (by omega), if_neg (by omega)]
        exact h0
      · show nth (copyLoop p.path pos (p.length - 1) 1) (p.length - 1 - 1) = b
        rw [copyLoop_nth _ _ _ _ (by omega), if_pos (by omega)]
        have : p.length - 1 - 1 + 1 = p.length - 1 := by omega
        rw [this]; exact hlast
      · intro i hi
        replace hi : i < p.length - 1 - 1 := by simpa using hi
        show nth (copyLoop p.path pos (p.length - 1) 1) i ≠
          nth (copyLoop p.path pos (p.length - 1) 1) (i + 1)
        rw [copyLoop_nth _ _ _ _ (by omega), copyLoop_nth _ _ _ _ (by omega)]
        by_cases c1 : i + 1 < pos
        · rw [if_neg (by omega), if_neg (by omega)]
          exact hnc i (by omega)
        · by_cases c2 : i + 1 = pos
          · rw [if_neg (by omega), if_pos (by omega)]
            have hip : i + 1 + 1 = pos + 1 := by omega
            have hi' : i = pos - 1 := by omega
            rw [hip, hi']
            exact hrep
          · rw [if_pos (by omega), if_pos (by omega)]
            exact hnc (i + 1) (by omega)

theorem Invariant.insert {a b cap : Nat} {p : PathVar} (pos node : Nat)
    (h : Invariant a b cap p) : Invariant a b cap (p.Insert pos node).1 := by
  obtain ⟨h2, hle, hcap, h0, hlast, hnc⟩ := h
  cases hc : p.CanInsert pos node with
  | false =>
    rw [PathVar.Insert, hc]
    exact ⟨h2, hle, hcap, h0, hlast, hnc⟩
  | true =>
    obtain ⟨cne, c1, clt, cm, cc⟩ := (canInsert_iff p pos node).mp hc
    have hblen : p.length < p.path.length := by omega
    rw [PathVar.Insert, hc]
    simp only [Bool.not_true, Bool.false_eq_true, if_false]
    have hqn : ∀ k, nth (copyLoopDown p.path p.length pos) k =
        if pos < k ∧ k ≤ p.length then nth p.path (k - 1) else nth p.path k :=
      copyLoopDown_nth p.path p.length pos hblen
    have hql : (copyLoopDown p.path p.length pos).length = p.path.length :=
      copyLoopDown_length _ _ _
    refine ⟨show 2 ≤ p.length + 1 by omega, ?_, ?_, ?_, ?_, ?_⟩
    · show p.length + 1 ≤ ((copyLoopDown p.path p.length pos).set pos node).length
      simp only [List.length_set, hql]; omega
    · show ((copyLoopDown p.path p.length pos).set pos node).length = cap
      simp only [List.length_set, hql]; exact hcap
    · show nth ((copyLoopDown p.path p.length pos).set pos node) 0 = a
      rw [nth_set, if_neg (by omega), hqn, if_neg (by omega)]
      exact h0
    · show nth ((copyLoopDown p.path p.length pos).set pos node)
        (p.length + 1 - 1) = b
      have : p.length + 1 - 1 = p.length := by omega
      rw [this, nth_set, if_neg (by omega), hqn, if_pos (by omega)]
      exact hlast
    · intro i hi
      replace hi : i < p.length := by simpa using hi
      show nth ((copyLoopDown p.path p.length pos).set pos node) i ≠
        nth ((copyLoopDown p.path p.length pos).set pos node) (i + 1)
      rw [nth_set, nth_set]
      by_cases e1 : i + 1 < pos
      · rw [if_neg (by omega), if_neg (by omega), hqn, hqn,
          if_neg (by omega), if_neg (by omega)]
        exact hnc i (by omega)
      · by_cases e2 : i + 1 = pos
        · rw [if_neg (by omega), if_pos ⟨e2.symm, by omega⟩, hqn,
            if_neg (by omega)]
          have : i = pos - 1 := by omega
          rw [this]
          exact cm
        · by_cases e3 : i = pos
          · rw [if_pos ⟨e3.symm, by omega⟩, if_neg (by omega), hqn,
              if_pos (by omega)]
            have : i + 1 - 1 = pos := by omega
            rw [this]
            exact fun hx => cc hx.symm
          · -- pos < i
            rw [if_neg (by omega), if_neg (by omega), hqn, hqn,
              if_pos (by omega), if_pos (by omega)]
            have ei : i + 1 - 1 = i - 1 + 1 := by omega
            rw [ei]
            exact hnc (i - 1) (by omega)

/-- A rejected `Clear` leaves the path untouched. -/
theorem clear_fail (p : PathVar) (h : (p.Clear).2 = false) : (p.Clear).1 = p := by
  cases hc : p.CanClear with
  | false => rw [PathVar.Clear, hc]; rfl
  | true => rw [PathVar.Clear, hc] at h; simp at h

/-- A rejected `Remove` leaves the path untouched. -/
theorem remove_fail (p : PathVar) (pos : Nat) (h : (p.Remove pos).2 = false) :
    (p.Remove pos).1 = p := by
  cases hc : p.CanRemove pos with
  | false => rw [PathVar.Remove, hc]; rfl
  | true => rw [PathVar.Remove, hc] at h; simp at h

/-- A rejected `Update` leaves the path untouched. -/
theorem update_fail (p : PathVar) (pos node : Nat)
    (h : (p.Update pos node).2 = false) : (p.Update pos node).1 = p := by
  cases hc : p.CanUpdate pos node with
  | false => rw [PathVar.Update, hc]; rfl
  | true => rw [PathVar.Update, hc] at h; simp at h

/-- A rejected `Insert` leaves the path untouched. -/
theorem insert_fail (p : PathVar) (pos node : Nat)
    (h : (p.Insert pos node).2 = false) : (p.Insert pos node).1 = p := by
  cases hc : p.CanInsert pos node with
  | false => rw [PathVar.Insert, hc]; rfl
  | true => rw [PathVar.Insert, hc] at h; simp at h

/-- One of the four PathVar mutations, with its parameters. -/
inductive PathOp where
  | clear
  | remove (pos : Nat)
  | update (pos node : Nat)
  | insert (pos node : Nat)
  deriving Repr, DecidableEq

/-- Dispatch a mutation on a path. -/
def applyOp (p : PathVar) : PathOp → PathVar × Bool
  | .clear => p.Clear
  | .remove pos => p.Remove pos
  | .update pos node => p.Update pos node
  | .insert pos node => p.Insert pos node

/-- Run a sequence of mutations, keeping the resulting path of each. -/
def applyOps (p : PathVar) (ops : List PathOp) : PathVar :=
  ops.foldl (fun q op => (applyOp q op).1) p

theorem applyOp_invariant {a b cap : Nat} {p : PathVar} (hab : a ≠ b)
    (h : Invariant a b cap p) (op : PathOp) :
    Invariant a b cap (applyOp p op).1 := by
  cases op with
  | clear => exact Invariant.clear hab h
  | remove pos => exact Invariant.remove pos hab h
  | update pos node => exact Invariant.update pos node h
  | insert pos node => exact Invariant.insert pos node h

theorem applyOps_invariant {a b cap : Nat} (hab : a ≠ b) (ops : List PathOp) :
    ∀ p : PathVar, Invariant a b cap p → Invariant a b cap (applyOps p ops) := by
  induction ops with
  | nil => intro p hp; exact hp
  | cons op rest ih =>
    intro p hp
    exact ih _ (applyOp_invariant hab hp op)

end Paths

/-! ### Claims about PathVar -/

/-- C8 (counterexample to the claim as stated): on a `PathVar` created with
`from = to` (`New 0 0 4`), a successful `Insert` followed by a successful
`Remove` leaves a path of length 1, violating the claimed `length ≥ 2`
invariant. The claim holds only for `from ≠ to`. -/
theorem c8_counterexample :
    (((Paths.New 0 0 4).Insert 1 1).2 = true) ∧
    ((((Paths.New 0 0 4).Insert 1 1).1.Remove 1).2 = true) ∧
    ((((Paths.New 0 0 4).Insert 1 1).1.Remove 1).1.length = 1) := by
  decide

/-- C8 (amended with `from ≠ to`): for a PathVar created by
`New from to maxNodes` with `from ≠ to` and `2 ≤ maxNodes`, after any sequence
of Clear/Remove/Update/Insert operations the path satisfies the documented
invariant (length at least 2, endpoints `from` and `to`, no two consecutive
nodes equal, length bounded by the buffer capacity), and any single operation
that returns false leaves the path unchanged. -/
theorem c8_pathvar_invariants (a b cap : Nat) (hab : a ≠ b) (hcap : 2 ≤ cap) :
    (∀ ops : List Paths.PathOp,
        Paths.Invariant a b cap (Paths.applyOps (Paths.New a b cap) ops)) ∧
    (∀ (p : Paths.PathVar) (op : Paths.PathOp),
        (Paths.applyOp p op).2 = false → (Paths.applyOp p op).1 = p) := by
  constructor
  · intro ops
    exact Paths.applyOps_invariant hab ops _ (Paths.Invariant.new a b cap hab hcap)
  · intro p op h
    cases op with
    | clear => exact Paths.clear_fail p h
    | remove pos => exact Paths.remove_fail p pos h
    | update pos node => exact Paths.update_fail p pos node h
    | insert pos node => exact Paths.insert_fail p pos node h

/-- Witness for `c8_pathvar_invariants` at `from = 0`, `to = 1`, capacity 4,
with the operation sequence Insert-then-Clear evaluated concretely. -/
theorem c8_pathvar_invariants_witness :
    ((0 : Nat) ≠ 1) ∧ (2 ≤ 4) ∧
      Paths.Invariant 0 1 4
        (Paths.applyOps (Paths.New 0 1 4) [.insert 1 2, .clear]) :=
  ⟨by decide, by decide,
    (c8_pathvar_invariants 0 1 4 (by decide) (by decide)).1 [.insert 1 2, .clear]⟩

theorem take_eq_of_nth_eq (l1 l2 : List Nat) (L : Nat) (hlen : l1.length = l2.length)
    (h : ∀ k < L, nth l1 k = nth l2 k) : l1.take L = l2.take L := by
  apply List.ext_getElem (by simp [hlen])
  intro k h1 h2
  have hk : k < L := by simp at h1; omega
  have hk1 : k < l1.length := by simp at h1; omega
  have hk2 : k < l2.length := by simp at h2; omega
  have := h k hk
  unfold nth at this
  rw [List.getD_eq_getElem _ _ hk1, List.getD_eq_getElem _ _ hk2] at this
  simpa using this

/-- C9: on a PathVar satisfying the documented invariants (length within
capacity, no two consecutive nodes equal), a successful `Insert pos node`
followed by `Remove pos` succeeds and restores exactly the original node
sequence and length. -/
theorem c9_insert_remove_roundtrip (p : Paths.PathVar) (pos node : Nat)
    (hwf : p.length ≤ p.path.length) (hnc : Paths.noConsec p)
    (hok : (p.Insert pos node).2 = true) :
    ((p.Insert pos node).1.Remove pos).2 = true ∧
    ((p.Insert pos node).1.Remove pos).1.Nodes = p.Nodes ∧
    ((p.Insert pos node).1.Remove pos).1.length = p.length := by
  have hc : p.CanInsert pos node = true := by
    cases hc : p.CanInsert pos node with
    | false => rw [Paths.PathVar.Insert, hc] at hok; simp at hok
    | true => rfl
  obtain ⟨cne, c1, clt, cm, cc⟩ := (Paths.canInsert_iff p pos node).mp hc
  have hblen : p.length < p.path.length := by omega
  rw [Paths.PathVar.Insert, hc]
  simp only [Bool.not_true, Bool.false_eq_true, if_false]
  set q : Paths.PathVar :=
    { path := (Paths.copyLoopDown p.path p.length pos).set pos node,
      length := p.length + 1 } with hq
  have hqlen : q.path.length = p.path.length := by
    rw [hq]
    simp only [List.length_set, Paths.copyLoopDown_length]
  have hqn : ∀ k, nth q.path k =
      if k = pos then node
      else if pos < k ∧ k ≤ p.length then nth p.path (k - 1)
      else nth p.path k := by
    intro k
    rw [hq]
    show nth ((Paths.copyLoopDown p.path p.length pos).set pos node) k = _
    rw [nth_set, Paths.copyLoopDown_nth p.path p.length pos hblen]
    by_cases hk : k = pos
    · subst hk
      rw [if_pos ⟨rfl, by rw [Paths.copyLoopDown_length]; omega⟩, if_pos rfl]
    · rw [if_neg (fun hcon => hk hcon.1.symm), if_neg hk]
  have hcr : q.CanRemove pos = true := by
    rw [Paths.canRemove_iff]
    show 0 < pos ∧ pos < q.length - 1
    rw [hq]
    simp only []
    omega
  have hrep : nth q.path (pos - 1) ≠ nth q.path (pos + 1) := by
    rw [hqn, hqn, if_neg (by omega), if_neg (by omega),
      if_neg (by omega), if_pos (by omega)]
    have e1 : pos + 1 - 1 = pos - 1 + 1 := by omega
    rw [e1]
    exact hnc (pos - 1) (by omega)
  rw [Paths.PathVar.Remove, hcr]
  simp only [Bool.not_true, Bool.false_eq_true, if_false, if_neg hrep]
  refine ⟨trivial, ?_, by simp⟩
  show (Paths.copyLoop q.path pos (q.length - 1) 1).take (q.length - 1) =
    p.path.take p.length
  have hql : q.length - 1 = p.length := by simp [hq]
  rw [hql]
  apply take_eq_of_nth_eq
  · rw [Paths.copyLoop_length, hqlen]
  · intro k hk
    rw [Paths.copyLoop_nth _ _ _ _ (by omega), hqn, hqn]
    by_cases h1 : pos ≤ k
    · rw [if_pos ⟨h1, hk⟩, if_neg (by omega), if_pos (by omega)]
      simp
    · rw [if_neg (by omega), if_neg (by omega), if_neg (by omega)]

/-- Witness for `c9_insert_remove_roundtrip` on the fresh path `[0, 1]` with
capacity 4, inserting node 2 at position 1. -/
theorem c9_insert_remove_roundtrip_witness :
    ((Paths.New 0 1 4).length ≤ (Paths.New 0 1 4).path.length) ∧
    Paths.noConsec (Paths.New 0 1 4) ∧
    (((Paths.New 0 1 4).Insert 1 2).2 = true) ∧
    ((((Paths.New 0 1 4).Insert 1 2).1.Remove 1).2 = true ∧
     (((Paths.New 0 1 4).Insert 1 2).1.Remove 1).1.Nodes =
       (Paths.New 0 1 4).Nodes ∧
     (((Paths.New 0 1 4).Insert 1 2).1.Remove 1).1.length =
       (Paths.New 0 1 4).length) :=
  ⟨by decide, by decide, by decide,
    c9_insert_remove_roundtrip (Paths.New 0 1 4) 1 2 (by decide) (by decide)
      (by decide)⟩

/-! ### Claim C6: PathVar capacity wired through the driver -/

/-- The PathVar constructed for a demand by `NewSRTE` (srte.go:67):
`paths.New(d.From, d.To, instance.MaxPathNodes-1)`. -/
def NewSRTEPathVar (maxPathNodes a b : Nat) : Paths.PathVar :=
  Paths.New a b (maxPathNodes - 1)

/-- The `MaxPathNodes` value the example driver passes to `NewSRTE`
(main.go:117): `*flagMaxNodesPerPath + 2`. -/
def driverMaxPathNodes (maxNodes : Nat) : Nat := maxNodes + 2

/-- C6 (code bug): with a driver configuration of `maxNodes` intermediate
waypoints, each demand's PathVar backing buffer has capacity `maxNodes + 1`,
not the claimed `maxNodes + 2`; in particular with `maxNodes = 1` the fresh
two-node path is already at capacity and no node can ever be inserted. -/
theorem c6_pathvar_capacity (f a b : Nat) :
    (NewSRTEPathVar (driverMaxPathNodes f) a b).path.length = f + 1 ∧
    (∀ n, (NewSRTEPathVar (driverMaxPathNodes 1) a b).CanInsert 1 n = false) := by
  constructor
  · show (((List.replicate (f + 2 - 1) 0).set 0 a).set 1 b).length = f + 1
    simp
  · intro n
    rfl


/-! ## NetworkState (srte/state.go)

The reversible load-counter store: per-edge loads, a change log, and the
timestamp-based dirty marks. -/

/-- Maximum value of Go's 64-bit `uint`, used by the timestamp overflow
check in `incrTimestamp`. -/
def UMAX : Nat := 2 ^ 64 - 1

/-- `LoadChange` (state.go:79). -/
structure LoadChange where
  edge : Nat
  previousLoad : Int
  deriving Repr, DecidableEq

/-- `NetworkState` (state.go:87). The Go change array together with its
`nChanges` counter is modelled by `changes`, the list of active entries with
the most recently pushed at the head. -/
structure NetworkState where
  loads : List Int
  changes : List LoadChange
  savedAt : List Nat
  timestamp : Nat
  deriving Repr, DecidableEq

/-- `NewNetworkState` (state.go:104). -/
def NewNetworkState (nEdges : Nat) : NetworkState :=
  { loads := List.replicate nEdges 0, changes := [],
    savedAt := List.replicate nEdges 0, timestamp := 1 }

/-- `Load` (state.go:115). -/
def NetworkState.Load (s : NetworkState) (edge : Nat) : Int := nthI s.loads edge

/-- `incrTimestamp` (state.go:167). -/
def NetworkState.incrTimestamp (s : NetworkState) : NetworkState :=
  if s.timestamp ≠ UMAX then { s with timestamp := s.timestamp + 1 }
  else { s with timestamp := 1, savedAt := List.replicate s.savedAt.length 0 }

/-- `AddLoad` (state.go:121): log the previous load on first touch in the
current epoch, then bump the load. -/
def NetworkState.AddLoad (s : NetworkState) (edge : Nat) (load : Int) : NetworkState :=
  let s1 :=
    if nth s.savedAt edge ≠ s.timestamp then
      { s with changes := ⟨edge, s.Load edge⟩ :: s.changes,
               savedAt := s.savedAt.set edge s.timestamp }
    else s
  { s1 with loads := s1.loads.set edge (s1.Load edge + load) }

/-- `RemoveLoad` (state.go:132). -/
def NetworkState.RemoveLoad (s : NetworkState) (edge : Nat) (load : Int) : NetworkState :=
  s.AddLoad edge (-load)

/-- `PersistChanges` (state.go:138). -/
def NetworkState.PersistChanges (s : NetworkState) : NetworkState :=
  NetworkState.incrTimestamp { s with changes := [] }

/-- `UndoChanges` (state.go:146): pop every logged change restoring the saved
load, then bump the timestamp. -/
def NetworkState.UndoChanges (s : NetworkState) : NetworkState :=
  NetworkState.incrTimestamp
    { s with
      loads := s.changes.foldl (fun lds lc => lds.set lc.edge lc.previousLoad) s.loads,
      changes := [] }

/-- `Changes` (state.go:161), in the order the Go array stores the entries
(oldest first). -/
def NetworkState.Changes (s : NetworkState) : List LoadChange := s.changes.reverse

/-- A persisted state: empty change log and no edge marked as touched in the
current epoch. `NewNetworkState` produces such a state, and
`PersistChanges`/`UndoChanges` restore it. -/
def Clean (s : NetworkState) : Prop :=
  s.changes = [] ∧ s.savedAt.length = s.loads.length ∧
  ∀ e < s.loads.length, nth s.savedAt e < s.timestamp

instance (s : NetworkState) : Decidable (Clean s) := by
  unfold Clean; infer_instance

/-- Mid-epoch bookkeeping invariant relative to the loads `L0` at the start of
the current epoch: the change log and the timestamp marks agree, each logged
entry is the edge's start-of-epoch load, each edge is logged at most once, and
unlogged edges still hold their start-of-epoch load. -/
def Tracks (L0 : List Int) (s : NetworkState) : Prop :=
  s.loads.length = L0.length ∧
  s.savedAt.length = L0.length ∧
  (∀ e < L0.length,
    (nth s.savedAt e = s.timestamp ↔ e ∈ s.changes.map LoadChange.edge)) ∧
  (∀ e < L0.length, nth s.savedAt e ≤ s.timestamp) ∧
  (s.changes.map LoadChange.edge).Nodup ∧
  (∀ lc ∈ s.changes, lc.edge < L0.length ∧ lc.previousLoad = nthI L0 lc.edge) ∧
  (∀ e, e ∉ s.changes.map LoadChange.edge → nthI s.loads e = nthI L0 e)

theorem clean_tracks {s : NetworkState} (h : Clean s) : Tracks s.loads s := by
  obtain ⟨hch, hlen, hts⟩ := h
  refine ⟨rfl, hlen, ?_, ?_, by simp [hch], by simp [hch], by simp [hch]⟩
  · intro e he
    rw [hch]
    simp only [List.map_nil, List.not_mem_nil, iff_false]
    exact Nat.ne_of_lt (hts e he)
  · intro e he
    exact Nat.le_of_lt (hts e he)

theorem tracks_addLoad {L0 : List Int} {s : NetworkState} (h : Tracks L0 s)
    {edge : Nat} (he : edge < L0.length) (load : Int) :
    Tracks L0 (s.AddLoad edge load) := by
  obtain ⟨hl, hs, hiff, hle, hnd, hprev, hun⟩ := h
  rw [NetworkState.AddLoad]
  by_cases hcond : nth s.savedAt edge ≠ s.timestamp
  · -- first touch in this epoch: push a change entry and mark the edge
    have hnm : edge ∉ s.changes.map LoadChange.edge := by
      intro hmem
      exact hcond (((hiff edge he)).mpr hmem)
    simp only [if_pos hcond]
    refine ⟨by simpa using hl, by simpa using hs, ?_, ?_, ?_, ?_, ?_⟩
    · intro e he'
      show nth (s.savedAt.set edge s.timestamp) e = s.timestamp ↔
        e ∈ (LoadChange.mk edge (s.Load edge) :: s.changes).map LoadChange.edge
      rw [nth_set]
      by_cases hee : edge = e
      · subst hee
        rw [if_pos ⟨rfl, by omega⟩]
        simp
      · rw [if_neg (fun hcon => hee hcon.1)]
        rw [hiff e he']
        simp [hee, Ne.symm hee]
    · intro e he'
      show nth (s.savedAt.set edge s.timestamp) e ≤ s.timestamp
      rw [nth_set]
      by_cases hee : edge = e ∧ edge < s.savedAt.length
      · rw [if_pos hee]
      · rw [if_neg hee]; exact hle e he'
    · show ((LoadChange.mk edge (s.Load edge) :: s.changes).map LoadChange.edge).Nodup
      simp only [List.map_cons, List.nodup_cons]
      exact ⟨hnm, hnd⟩
    · intro lc hlc
      rcases List.mem_cons.mp hlc with hlc | hlc
      · subst hlc
        exact ⟨he, (hun edge hnm).symm ▸ rfl⟩
      · exact hprev lc hlc
    · intro e hni
      have hne : edge ≠ e := by
        intro hcon; subst hcon
        exact hni (by simp)
      have hni' : e ∉ s.changes.map LoadChange.edge := by
        intro hcon
        exact hni (by simp [hcon])
      show nthI (s.loads.set edge (s.Load edge + load)) e = nthI L0 e
      rw [nthI_set, if_neg (fun hcon => hne hcon.1)]
      exact hun e hni'
  · -- the edge was already touched: only the load cell changes
    push_neg at hcond
    have hmem : edge ∈ s.changes.map LoadChange.edge := (hiff edge he).mp hcond
    simp only [if_neg (not_not_intro hcond)]
    refine ⟨by simpa using hl, hs, hiff, hle, hnd, hprev, ?_⟩
    intro e hni
    have hne : edge ≠ e := by
      intro hcon; subst hcon; exact hni hmem
    show nthI (s.loads.set edge (s.Load edge + load)) e = nthI L0 e
    rw [nthI_set, if_neg (fun hcon => hne hcon.1)]
    exact hun e hni

/-- Folding the pop-and-restore loop of `UndoChanges` over a change log whose
entries record start-of-epoch loads yields exactly the start-of-epoch loads. -/
theorem foldl_restore (L0 : List Int) :
    ∀ (ch : List LoadChange) (lds : List Int), lds.length = L0.length →
      (∀ lc ∈ ch, lc.edge < L0.length ∧ lc.previousLoad = nthI L0 lc.edge) →
      (∀ e, e ∉ ch.map LoadChange.edge → nthI lds e = nthI L0 e) →
      ch.foldl (fun l lc => l.set lc.edge lc.previousLoad) lds = L0 := by
  intro ch
  induction ch with
  | nil =>
    intro lds hlen _ hout
    exact nthI_ext lds L0 hlen (fun e => hout e (by simp))
  | cons lc rest ih =>
    intro lds hlen hent hout
    rw [List.foldl_cons]
    apply ih
    · simpa using hlen
    · exact fun lc' h => hent lc' (List.mem_cons_of_mem lc h)
    · intro e hni
      rw [nthI_set]
      by_cases hee : lc.edge = e ∧ lc.edge < lds.length
      · rw [if_pos hee]
        rw [(hent lc (by simp)).2, hee.1]
      · rw [if_neg hee]
        by_cases heq : e = lc.edge
        · have helt : lc.edge < L0.length := (hent lc (by simp)).1
          exact absurd ⟨heq.symm, by omega⟩ hee
        · apply hout
          simp only [List.map_cons, List.mem_cons]
          exact fun hcon => hcon.elim (fun hx => heq hx) hni

theorem tracks_undo {L0 : List Int} {s : NetworkState} (h : Tracks L0 s) :
    (s.UndoChanges).loads = L0 ∧ (s.UndoChanges).changes = [] ∧
      Clean (s.UndoChanges) := by
  obtain ⟨hl, hs, hiff, hle, hnd, hprev, hun⟩ := h
  have hrestore : s.changes.foldl
      (fun lds lc => lds.set lc.edge lc.previousLoad) s.loads = L0 :=
    foldl_restore L0 s.changes s.loads hl hprev hun
  have hu : s.UndoChanges = NetworkState.incrTimestamp
      { loads := L0, changes := [], savedAt := s.savedAt,
        timestamp := s.timestamp } := by
    rw [NetworkState.UndoChanges, hrestore]
  rw [hu, NetworkState.incrTimestamp]
  by_cases hov : s.timestamp ≠ UMAX
  · rw [if_pos hov]
    refine ⟨rfl, rfl, rfl, by simpa using hs, ?_⟩
    intro e he
    exact Nat.lt_succ_of_le (hle e (by simpa using he))
  · rw [if_neg hov]
    refine ⟨rfl, rfl, rfl, by simpa using hs, ?_⟩
    intro e he
    show nth (List.replicate s.savedAt.length 0) e < 1
    rw [nth_replicate]
    split <;> omega

/-- One `AddLoad` or `RemoveLoad` call with its arguments. -/
inductive LoadOp where
  | add (edge : Nat) (load : Int)
  | remove (edge : Nat) (load : Int)
  deriving Repr, DecidableEq

/-- The edge an operation touches. -/
def LoadOp.edge : LoadOp → Nat
  | .add e _ => e
  | .remove e _ => e

/-- Dispatch one load operation on the state. -/
def applyLoadOp (s : NetworkState) : LoadOp → NetworkState
  | .add e l => s.AddLoad e l
  | .remove e l => s.RemoveLoad e l

/-- Run a sequence of `AddLoad`/`RemoveLoad` calls. -/
def applyLoadOps (s : NetworkState) (ops : List LoadOp) : NetworkState :=
  ops.foldl applyLoadOp s

theorem addLoad_changes_mem {L0 : List Int} {s : NetworkState} (h : Tracks L0 s)
    {edge : Nat} (he : edge < L0.length) (load : Int) (e : Nat) :
    e ∈ ((s.AddLoad edge load).changes.map LoadChange.edge) ↔
      e ∈ s.changes.map LoadChange.edge ∨ e = edge := by
  obtain ⟨hl, hs, hiff, hle, hnd, hprev, hun⟩ := h
  rw [NetworkState.AddLoad]
  by_cases hcond : nth s.savedAt edge ≠ s.timestamp
  · simp only [if_pos hcond]
    show e ∈ (LoadChange.mk edge (s.Load edge) :: s.changes).map LoadChange.edge ↔ _
    simp only [List.map_cons, List.mem_cons]
    constructor
    · intro hx; rcases hx with hx | hx
      · exact Or.inr hx
      · exact Or.inl hx
    · intro hx; rcases hx with hx | hx
      · exact Or.inr hx
      · exact Or.inl hx
  · push_neg at hcond
    have hmem : edge ∈ s.changes.map LoadChange.edge := (hiff edge he).mp hcond
    simp only [if_neg (not_not_intro hcond)]
    show e ∈ s.changes.map LoadChange.edge ↔ _
    constructor
    · exact Or.inl
    · intro hx; rcases hx with hx | hx
      · exact hx
      · exact hx ▸ hmem

theorem tracks_applyLoadOp {L0 : List Int} {s : NetworkState} (h : Tracks L0 s)
    {op : LoadOp} (he : op.edge < L0.length) :
    Tracks L0 (applyLoadOp s op) := by
  cases op with
  | add e l => exact tracks_addLoad h he l
  | remove e l => exact tracks_addLoad h he (-l)

theorem applyLoadOp_changes_mem {L0 : List Int} {s : NetworkState}
    (h : Tracks L0 s) {op : LoadOp} (he : op.edge < L0.length) (e : Nat) :
    e ∈ ((applyLoadOp s op).changes.map LoadChange.edge) ↔
      e ∈ s.changes.map LoadChange.edge ∨ e = op.edge := by
  cases op with
  | add e' l => exact addLoad_changes_mem h he l e
  | remove e' l => exact addLoad_changes_mem h he (-l) e

theorem applyLoadOps_tracks (L0 : List Int) (ops : List LoadOp) :
    ∀ s : NetworkState, Tracks L0 s →
      (∀ op ∈ ops, LoadOp.edge op < L0.length) →
      Tracks L0 (applyLoadOps s ops) ∧
      (∀ e, e ∈ ((applyLoadOps s ops).changes.map LoadChange.edge) ↔
        (e ∈ s.changes.map LoadChange.edge ∨ e ∈ ops.map LoadOp.edge)) := by
  induction ops with
  | nil =>
    intro s hs _
    exact ⟨hs, fun e => by simp [applyLoadOps]⟩
  | cons op rest ih =>
    intro s hs hops
    have he : op.edge < L0.length := hops op (by simp)
    have hstep := tracks_applyLoadOp hs he
    have hrest := ih (applyLoadOp s op) hstep
      (fun op' h => hops op' (List.mem_cons_of_mem op h))
    refine ⟨hrest.1, fun e => ?_⟩
    rw [show applyLoadOps s (op :: rest) = applyLoadOps (applyLoadOp s op) rest
      from rfl]
    rw [hrest.2 e, applyLoadOp_changes_mem hs he e]
    simp only [List.map_cons, List.mem_cons]
    tauto

/-- C7: starting from any persisted NetworkState, after any finite sequence of
AddLoad/RemoveLoad calls on in-range edges with no intervening
PersistChanges/UndoChanges, each touched edge appears exactly once in
`Changes()` with `PreviousLoad` equal to its load at the start of the epoch,
and a single `UndoChanges` restores every edge load to its start-of-epoch
value and leaves `Changes()` empty. -/
theorem c7_networkstate_epoch (s0 : NetworkState) (ops : List LoadOp)
    (hclean : Clean s0) (hops : ∀ op ∈ ops, op.edge < s0.loads.length) :
    (∀ e, ((applyLoadOps s0 ops).Changes.map LoadChange.edge).count e =
        if e ∈ ops.map LoadOp.edge then 1 else 0) ∧
    (∀ lc ∈ (applyLoadOps s0 ops).Changes, lc.previousLoad = s0.Load lc.edge) ∧
    ((applyLoadOps s0 ops).UndoChanges).loads = s0.loads ∧
    ((applyLoadOps s0 ops).UndoChanges).Changes = [] := by
  obtain ⟨htracks, hmem⟩ :=
    applyLoadOps_tracks s0.loads ops s0 (clean_tracks hclean) hops
  have hnd : ((applyLoadOps s0 ops).changes.map LoadChange.edge).Nodup :=
    htracks.2.2.2.2.1
  have hundo := tracks_undo htracks
  refine ⟨?_, ?_, hundo.1, ?_⟩
  · intro e
    rw [NetworkState.Changes, List.map_reverse, List.count_reverse]
    by_cases hin : e ∈ ops.map LoadOp.edge
    · rw [if_pos hin]
      have : e ∈ (applyLoadOps s0 ops).changes.map LoadChange.edge := by
        rw [hmem e, hclean.1]
        simp [hin]
      exact List.count_eq_one_of_mem hnd this
    · rw [if_neg hin]
      rw [List.count_eq_zero]
      intro hcon
      rw [hmem e, hclean.1] at hcon
      simp [hin] at hcon
  · intro lc hlc
    rw [NetworkState.Changes, List.mem_reverse] at hlc
    exact (htracks.2.2.2.2.2.1 lc hlc).2
  · rw [NetworkState.Changes, hundo.2.1]
    rfl

/-- Witness for `c7_networkstate_epoch`: the spec's scenario S4 — a fresh
3-edge state with `AddLoad(1,10); AddLoad(1,10)`. -/
theorem c7_networkstate_epoch_witness :
    Clean (NewNetworkState 3) ∧
    (∀ op ∈ [LoadOp.add 1 10, LoadOp.add 1 10],
      op.edge < (NewNetworkState 3).loads.length) ∧
    ((∀ e, ((applyLoadOps (NewNetworkState 3)
          [LoadOp.add 1 10, LoadOp.add 1 10]).Changes.map LoadChange.edge).count e =
        if e ∈ [LoadOp.add 1 10, LoadOp.add 1 10].map LoadOp.edge then 1 else 0) ∧
     (∀ lc ∈ (applyLoadOps (NewNetworkState 3)
          [LoadOp.add 1 10, LoadOp.add 1 10]).Changes,
        lc.previousLoad = (NewNetworkState 3).Load lc.edge) ∧
     ((applyLoadOps (NewNetworkState 3)
          [LoadOp.add 1 10, LoadOp.add 1 10]).UndoChanges).loads =
        (NewNetworkState 3).loads ∧
     ((applyLoadOps (NewNetworkState 3)
          [LoadOp.add 1 10, LoadOp.add 1 10]).UndoChanges).Changes = []) :=
  ⟨by decide, by decide,
    c7_networkstate_epoch (NewNetworkState 3) [LoadOp.add 1 10, LoadOp.add 1 10]
      (by decide) (by decide)⟩

/-! ## StaticWheel (srte/wheels, roulette-wheel sampling tree)

`float64` weights are modelled as exact rationals. -/

/-- Reading a Go `[]float64` at an index, with 0 as default. -/
def nthQ (l : List ℚ) (i : Nat) : ℚ := l.getD i 0

theorem nthQ_set (l : List ℚ) (i k : Nat) (v : ℚ) :
    nthQ (l.set i v) k = if i = k ∧ i < l.length then v else nthQ l k := by
  unfold nthQ
  by_cases h : i = k ∧ i < l.length
  · obtain ⟨rfl, hlt⟩ := h
    simp [hlt]
  · rcases Decidable.not_and_iff_or_not.mp h with h' | h'
    · simp [List.getElem?_set_ne h', h]
    · have he : l.set i v = l := List.set_eq_of_length_le (by omega)
      simp [he, h]

namespace Wheels

/-- `StaticWheel` (part_003:150): a 1-based implicit binary tree with `n`
leaves at indices `n .. 2n-1` and partial sums at internal nodes. -/
structure StaticWheel where
  n : Nat
  sumWeights : List ℚ
  deriving Repr, DecidableEq

/-- `NewStaticWheel` (part_003:159). -/
def NewStaticWheel (n : Nat) : StaticWheel :=
  { n := n, sumWeights := List.replicate (n * 2) 0 }

/-- The parent-recompute loop of `SetWeight` (part_003:169):
`for p := i / 2; p > 0; p = p / 2 0x7b ... 0x7d`, fuelled (the index at least
halves each iteration, so fuel `p` suffices). -/
def setWeightGo : Nat → List ℚ → Nat → List ℚ
  | 0, sw, _ => sw
  | fuel + 1, sw, p =>
    if p = 0 then sw
    else
      setWeightGo fuel (sw.set p (nthQ sw (p * 2) + nthQ sw (p * 2 + 1))) (p / 2)

/-- `SetWeight` (part_003:166). -/
def StaticWheel.SetWeight (st : StaticWheel) (elem : Nat) (weight : ℚ) : StaticWheel :=
  let i := st.n + elem
  { st with sumWeights := setWeightGo (st.n + elem) (st.sumWeights.set i weight) (i / 2) }

/-- The descent loop of `Roll` (part_003:186): `for i < st.n`, going left when
the budget is below the left child's weight, otherwise going right after
subtracting it. Fuelled: the node index at least doubles per iteration. -/
def rollGo (sw : List ℚ) (n : Nat) : Nat → Nat → ℚ → Nat
  | 0, i, _ => i
  | fuel + 1, i, w =>
    if i < n then
      if w < nthQ sw (i * 2) then rollGo sw n fuel (i * 2) w
      else rollGo sw n fuel (i * 2 + 1) (w - nthQ sw (i * 2))
    else i

/-- `Roll` (part_003:176). The `log.Fatalf` on an out-of-range `r` is modelled
by `none`; the `-1` empty-wheel sentinel is the integer `-1`. -/
def StaticWheel.Roll (st : StaticWheel) (roll : ℚ) : Option Int :=
  if roll < 0 ∨ 1 ≤ roll then none
  else if nthQ st.sumWeights 1 = 0 then some (-1)
  else
    some ((rollGo st.sumWeights st.n st.n 1 (roll * nthQ st.sumWeights 1) : Nat)
      - (st.n : Int))

/-- Consistency of the partial sums: every internal node holds the sum of its
two children. `NewStaticWheel` satisfies it and `SetWeight` preserves it. -/
def SumConsistent (st : StaticWheel) : Prop :=
  ∀ p < st.n, 1 ≤ p →
    nthQ st.sumWeights p = nthQ st.sumWeights (p * 2) + nthQ st.sumWeights (p * 2 + 1)

/-- All tree cells in `[1, 2n)` are non-negative when the leaves are. -/
theorem cells_nonneg (st : StaticWheel) (hcons : SumConsistent st)
    (hleaf : ∀ j, st.n ≤ j → j < 2 * st.n → 0 ≤ nthQ st.sumWeights j) :
    ∀ m p, 2 * st.n - p = m → 1 ≤ p → p < 2 * st.n → 0 ≤ nthQ st.sumWeights p := by
  intro m
  induction m using Nat.strong_induction_on with
  | _ m ih =>
    intro p hm h1 h2
    by_cases hp : st.n ≤ p
    · exact hleaf p hp h2
    · push_neg at hp
      rw [hcons p hp h1]
      have hl := ih (2 * st.n - p * 2) (by omega) (p * 2) rfl (by omega) (by omega)
      have hr := ih (2 * st.n - (p * 2 + 1)) (by omega) (p * 2 + 1) rfl
        (by omega) (by omega)
      linarith

/-- Every cell is bounded by the root when cells are non-negative and sums are
consistent. -/
theorem cell_le_root (st : StaticWheel) (hcons : SumConsistent st)
    (hleaf : ∀ j, st.n ≤ j → j < 2 * st.n → 0 ≤ nthQ st.sumWeights j) :
    ∀ p, 1 ≤ p → p < 2 * st.n → nthQ st.sumWeights p ≤ nthQ st.sumWeights 1 := by
  intro p
  induction p using Nat.strong_induction_on with
  | _ p ih =>
    intro h1 h2
    by_cases hp1 : p = 1
    · subst hp1; exact le_refl _
    · have hparent : 1 ≤ p / 2 := by omega
      have hparent2 : p / 2 < st.n := by omega
      have hsum := hcons (p / 2) hparent2 hparent
      have hle : nthQ st.sumWeights p ≤ nthQ st.sumWeights (p / 2) := by
        rcases Nat.even_or_odd p with he | ho
        · have hpe : p / 2 * 2 = p := by
            obtain ⟨k, hk⟩ := he; omega
          have hsib := cells_nonneg st hcons hleaf (2 * st.n - (p / 2 * 2 + 1))
            (p / 2 * 2 + 1) rfl (by omega) (by omega)
          rw [hpe] at hsib
          rw [hsum, hpe]
          linarith
        · have hpo : p / 2 * 2 + 1 = p := by
            obtain ⟨k, hk⟩ := ho; omega
          have hsib := cells_nonneg st hcons hleaf (2 * st.n - p / 2 * 2)
            (p / 2 * 2) rfl (by omega) (by omega)
          rw [hsum, hpo]
          linarith
      exact le_trans hle (ih (p / 2) (by omega) hparent (by omega))

/-- The descent invariant: starting from a node `i` with budget
`0 ≤ w < weight(i)` and enough fuel, the walk ends at a leaf in `[n, 2n)`
whose weight is strictly positive. -/
theorem rollGo_spec (st : StaticWheel) (hcons : SumConsistent st) :
    ∀ (fuel i : Nat) (w : ℚ), 1 ≤ i → i < 2 * st.n → st.n ≤ i * 2 ^ fuel →
      0 ≤ w → w < nthQ st.sumWeights i →
      st.n ≤ rollGo st.sumWeights st.n fuel i w ∧
      rollGo st.sumWeights st.n fuel i w < 2 * st.n ∧
      0 < nthQ st.sumWeights (rollGo st.sumWeights st.n fuel i w) := by
  intro fuel
  induction fuel with
  | zero =>
    intro i w h1 h2 hfuel hw0 hwlt
    have hni : st.n ≤ i := by simpa using hfuel
    rw [rollGo]
    exact ⟨hni, h2, lt_of_le_of_lt hw0 hwlt⟩
  | succ f ih =>
    intro i w h1 h2 hfuel hw0 hwlt
    rw [rollGo]
    by_cases hi : i < st.n
    · rw [if_pos hi]
      have hsum := hcons i hi h1
      have hfe : i * 2 * 2 ^ f = i * 2 ^ (f + 1) := by ring
      by_cases hleft : w < nthQ st.sumWeights (i * 2)
      · rw [if_pos hleft]
        exact ih (i * 2) w (by omega) (by omega)
          (by rw [hfe]; exact hfuel) hw0 hleft
      · rw [if_neg hleft]
        push_neg at hleft
        refine ih (i * 2 + 1) (w - nthQ st.sumWeights (i * 2)) (by omega)
          (by omega) ?_ (by linarith) (by rw [hsum] at hwlt; linarith)
        calc st.n ≤ i * 2 * 2 ^ f := by rw [hfe]; exact hfuel
          _ ≤ (i * 2 + 1) * 2 ^ f := Nat.mul_le_mul_right _ (by omega)
    · rw [if_neg hi]
      push_neg at hi
      exact ⟨hi, h2, lt_of_le_of_lt hw0 hwlt⟩

end Wheels

/-- C10: for every StaticWheel with consistent partial sums (as built by
`NewStaticWheel`/`SetWeight`), non-negative leaf weights, at least one strictly
positive leaf weight, and `r ∈ [0, 1)`, `Roll r` returns an element index in
`[0, n)` whose leaf weight is strictly positive — a zero-weight element is
never selected. -/
theorem c10_staticwheel_roll_positive (st : Wheels.StaticWheel) (r : ℚ)
    (hn : 1 ≤ st.n)
    (hcons : Wheels.SumConsistent st)
    (hleaf : ∀ j < 2 * st.n, st.n ≤ j → 0 ≤ nthQ st.sumWeights j)
    (hpos : ∃ j < 2 * st.n, st.n ≤ j ∧ 0 < nthQ st.sumWeights j)
    (hr0 : 0 ≤ r) (hr1 : r < 1) :
    ∃ e : Nat, e < st.n ∧ st.Roll r = some (e : Int) ∧
      0 < nthQ st.sumWeights (st.n + e) := by
  obtain ⟨j, hj2, hjn, hjpos⟩ := hpos
  have hleaf' : ∀ j, st.n ≤ j → j < 2 * st.n → 0 ≤ nthQ st.sumWeights j :=
    fun j ha hb => hleaf j hb ha
  have hroot : 0 < nthQ st.sumWeights 1 :=
    lt_of_lt_of_le hjpos (Wheels.cell_le_root st hcons hleaf' j (by omega) hj2)
  rw [Wheels.StaticWheel.Roll, if_neg (by push_neg; exact ⟨hr0, hr1⟩),
    if_neg (by positivity)]
  have hw0 : 0 ≤ r * nthQ st.sumWeights 1 := by positivity
  have hwlt : r * nthQ st.sumWeights 1 < nthQ st.sumWeights 1 := by
    nlinarith
  have hspec := Wheels.rollGo_spec st hcons st.n 1 (r * nthQ st.sumWeights 1)
    (le_refl 1) (by omega) (by simpa using Nat.le_of_lt (Nat.lt_two_pow st.n))
    hw0 hwlt
  have hlow := hspec.1
  have hhigh := hspec.2.1
  refine ⟨Wheels.rollGo st.sumWeights st.n st.n 1 (r * nthQ st.sumWeights 1) - st.n,
    by omega, ?_, ?_⟩
  · congr 1
    omega
  · have : st.n + (Wheels.rollGo st.sumWeights st.n st.n 1
        (r * nthQ st.sumWeights 1) - st.n) =
      Wheels.rollGo st.sumWeights st.n st.n 1 (r * nthQ st.sumWeights 1) := by
      omega
    rw [this]
    exact hspec.2.2

/-- The concrete 2-leaf wheel (weights 1 and 3) used to instantiate
`c10_staticwheel_roll_positive`. -/
def c10wheel : Wheels.StaticWheel :=
  ((Wheels.NewStaticWheel 2).SetWeight 0 1).SetWeight 1 3

/-- Witness for `c10_staticwheel_roll_positive` on a 2-leaf wheel with weights
1 and 3 and `r = 1/2`. -/
theorem c10_staticwheel_roll_positive_witness :
    (1 ≤ c10wheel.n) ∧ Wheels.SumConsistent c10wheel ∧
    ((0 : ℚ) ≤ 1/2) ∧ ((1/2 : ℚ) < 1) ∧
    (∃ e : Nat, e < c10wheel.n ∧ c10wheel.Roll (1/2) = some (e : Int) ∧
      0 < nthQ c10wheel.sumWeights (c10wheel.n + e)) := by
  have hwheel : c10wheel = { n := 2, sumWeights := [0, 4, 1, 3] } := by
    norm_num [c10wheel, Wheels.NewStaticWheel, Wheels.StaticWheel.SetWeight,
      Wheels.setWeightGo, nthQ, List.set]
  have hn : 1 ≤ c10wheel.n := by simp [hwheel]
  have hcons : Wheels.SumConsistent c10wheel := by
    rw [hwheel]
    intro p hp hp1
    replace hp : p < 2 := by simpa using hp
    have : p = 1 := by omega
    subst this
    norm_num [nthQ]
  have hleaf : ∀ j < 2 * c10wheel.n, c10wheel.n ≤ j →
      0 ≤ nthQ c10wheel.sumWeights j := by
    rw [hwheel]
    intro j hj hj2
    replace hj : j < 4 := by simpa using hj
    interval_cases j <;> norm_num [nthQ]
  have hpos : ∃ j < 2 * c10wheel.n, c10wheel.n ≤ j ∧
      0 < nthQ c10wheel.sumWeights j := by
    rw [hwheel]
    exact ⟨2, by norm_num, by norm_num, by norm_num [nthQ]⟩
  exact ⟨hn, hcons, by norm_num, by norm_num,
    c10_staticwheel_roll_positive c10wheel (1/2) hn hcons hleaf hpos
      (by norm_num) (by norm_num)⟩

/-! ## SRTE (srte/srte.go)

The move application and search kernel. `float64` ratios and utilizations are
exact rationals; panicking paths (unknown move kind, negative demand index)
are modelled with `Option`. -/

namespace Srte

/-- `Edge` (digraph.go). -/
structure Edge where
  eFrom : Nat
  eTo : Nat
  cost : Int
  deriving Repr, DecidableEq

/-- `Topology` (digraph.go): per-node outgoing edge ids and the edge list. -/
structure Topology where
  Nexts : List (List Nat)
  Edges : List Edge
  deriving Repr, DecidableEq

/-- `Demand` (srte.go:19). -/
structure Demand where
  dFrom : Nat
  dTo : Nat
  bandwidth : Int
  deriving Repr, DecidableEq

instance : Inhabited Demand := ⟨⟨0, 0, 0⟩⟩

/-- `MoveType` (srte.go:25), with `unknown` the zero value. -/
inductive MoveType where
  | unknown
  | clear
  | remove
  | update
  | insert
  deriving Repr, DecidableEq

/-- `Move` (srte.go:35). -/
structure Move where
  moveType : MoveType
  position : Nat
  node : Nat
  demand : Nat
  deriving Repr, DecidableEq

/-- The Go zero value `Move0x7b0x7d`. -/
instance : Inhabited Move := ⟨⟨.unknown, 0, 0, 0⟩⟩

/-- `EdgeRatio` (fgraphs.go). -/
structure EdgeRatio where
  edge : Nat
  ratio : ℚ
  deriving Repr, DecidableEq

/-- `FGraphs` (fgraphs.go): the precomputed `[s][t]` table of edge ratios,
carried as data (no claim concerns its construction). -/
structure FGraphs where
  edgesRatios : List (List (List EdgeRatio))
  deriving Repr, DecidableEq

/-- `EdgeRatios` (fgraphs.go:225). -/
def FGraphs.EdgeRatios (fgs : FGraphs) (s t : Nat) : List EdgeRatio :=
  (fgs.edgesRatios.getD s []).getD t []

/-- `SRTEInstance` (srte.go:11). -/
structure SRTEInstance where
  graph : Topology
  maxPathNodes : Nat
  demands : List Demand
  linkCapacities : List Int
  deriving Repr, DecidableEq

/-- `SRTE` (srte.go:42). -/
structure SRTE where
  fgraphs : FGraphs
  pathVar : List Paths.PathVar
  inst : SRTEInstance
  state : NetworkState
  deriving Repr, DecidableEq

/-- `SplitLoad` (srte.go:52): `int64(math.Ceil(float64(load) * ratio))`. -/
def SplitLoad (load : Int) (ratio : ℚ) : Int := ⌈(load : ℚ) * ratio⌉

/-- `Load` (srte.go:87). -/
def SRTE.Load (s : SRTE) (edge : Nat) : Int := s.state.Load edge

/-- `Utilization` (srte.go:91). -/
def SRTE.Utilization (s : SRTE) (edge : Nat) : ℚ :=
  (s.state.Load edge : ℚ) / (nthI s.inst.linkCapacities edge : ℚ)

/-- `removeLoad` (srte.go:351). -/
def SRTE.removeLoad (s : SRTE) (a b : Nat) (bw : Int) : SRTE :=
  { s with
    state := (s.fgraphs.EdgeRatios a b).foldl
        (fun st er => st.RemoveLoad er.edge (SplitLoad bw er.ratio)) s.state }

/-- `addLoad` (srte.go:357). -/
def SRTE.addLoad (s : SRTE) (a b : Nat) (bw : Int) : SRTE :=
  { s with
    state := (s.fgraphs.EdgeRatios a b).foldl
        (fun st er => st.AddLoad er.edge (SplitLoad bw er.ratio)) s.state }

/-- `Clear` (srte.go:276): remove the load of every consecutive hop, then add
the direct load. -/
def SRTE.Clear (s : SRTE) (demand : Nat) : SRTE × Bool :=
  let p := s.pathVar.getD demand default
  if !p.CanClear then (s, false)
  else
    let nodes := p.Nodes
    let bw := (s.inst.demands.getD demand default).bandwidth
    let s := (List.range' 1 (nodes.length - 1)).foldl
      (fun st i => st.removeLoad (nth nodes (i - 1)) (nth nodes i) bw) s
    (s.addLoad (nth nodes 0) (nth nodes (nodes.length - 1)) bw, true)

/-- `Remove` (srte.go:294). -/
def SRTE.Remove (s : SRTE) (demand pos : Nat) : SRTE × Bool :=
  let p := s.pathVar.getD demand default
  if !p.CanRemove pos then (s, false)
  else
    let prev := p.Node (pos - 1)
    let node := p.Node pos
    let next := p.Node (pos + 1)
    let bw := (s.inst.demands.getD demand default).bandwidth
    (((s.removeLoad prev node bw).removeLoad node next bw).addLoad prev next bw,
      true)

/-- `Update` (srte.go:313). -/
def SRTE.Update (s : SRTE) (demand pos newNode : Nat) : SRTE × Bool :=
  let p := s.pathVar.getD demand default
  if !p.CanUpdate pos newNode then (s, false)
  else
    let prev := p.Node (pos - 1)
    let oldNode := p.Node pos
    let next := p.Node (pos + 1)
    let bw := (s.inst.demands.getD demand default).bandwidth
    ((((s.removeLoad prev oldNode bw).removeLoad oldNode next bw).addLoad
        prev newNode bw).addLoad newNode next bw, true)

/-- `Insert` (srte.go:333). -/
def SRTE.Insert (s : SRTE) (demand pos node : Nat) : SRTE × Bool :=
  let p := s.pathVar.getD demand default
  if !p.CanInsert pos node then (s, false)
  else
    let prev := p.Node (pos - 1)
    let next := p.Node pos
    let bw := (s.inst.demands.getD demand default).bandwidth
    (((s.removeLoad prev next bw).addLoad prev node bw).addLoad node next bw,
      true)

/-- `checkMaxUtil` (srte.go:267): true iff every changed edge's utilization is
strictly below `maxUtil`. -/
def SRTE.checkMaxUtil (s : SRTE) (maxUtil : ℚ) : Bool :=
  s.state.Changes.all fun lc => decide (s.Utilization lc.edge < maxUtil)

/-- `srte.state.UndoChanges()` lifted to the SRTE record. -/
def SRTE.undoState (s : SRTE) : SRTE := { s with state := s.state.UndoChanges }

/-- `PersistChanges` (srte.go:133). -/
def SRTE.PersistChanges (s : SRTE) : SRTE :=
  { s with state := s.state.PersistChanges }

/-- `Changes` (srte.go:137). -/
def SRTE.Changes (s : SRTE) : List LoadChange := s.state.Changes

/-- `SearchClear` (srte.go:157), exactly as written: the result of `Clear` is
negated (`ok := !srte.Clear(demand)`) and the changes are undone before the
acceptance checks run. -/
def SRTE.SearchClear (s : SRTE) (edge demand : Nat) (maxUtil : ℚ) :
    SRTE × Move × Bool :=
  let edgeLoad := s.state.Load edge
  let s1 := s.undoState
  let r := s1.Clear demand
  let ok := !r.2
  let s3 := r.1.undoState
  if !ok then (s3, default, false)
  else if !(s3.checkMaxUtil maxUtil) then (s3, default, false)
  else if edgeLoad ≤ s3.state.Load edge then (s3, default, false)
  else (s3, { moveType := .clear, position := 0, node := 0, demand := demand },
    true)

/-- The body of the candidate loop of `SearchRemove` (srte.go:182-198). -/
def searchRemoveStep (edge demand : Nat) (maxUtil : ℚ)
    (acc : SRTE × Move × Int) (p : Nat) : SRTE × Move × Int :=
  let s := acc.1.undoState
  let r := s.Remove demand p
  if !r.2 then (r.1, acc.2.1, acc.2.2)
  else if !(r.1.checkMaxUtil maxUtil) then (r.1, acc.2.1, acc.2.2)
  else if r.1.state.Load edge < acc.2.2 then
    (r.1, { moveType := .remove, position := p, node := 0, demand := demand },
      r.1.state.Load edge)
  else (r.1, acc.2.1, acc.2.2)

/-- `SearchRemove` (srte.go:177): positions `1 ≤ p < Length`, with a final
`UndoChanges`. -/
def SRTE.SearchRemove (s : SRTE) (edge demand : Nat) (maxUtil : ℚ) :
    SRTE × Move × Bool :=
  let pathVar := s.pathVar.getD demand default
  let acc := (List.range' 1 (pathVar.Length - 1)).foldl
    (searchRemoveStep edge demand maxUtil) (s, default, s.state.Load edge)
  (acc.1.undoState, acc.2.1, decide (acc.2.1.moveType ≠ .unknown))

/-- The body of the candidate loops of `SearchUpdate` (srte.go:210-228). -/
def searchUpdateStep (edge demand : Nat) (maxUtil : ℚ) (p : Nat)
    (acc : SRTE × Move × Int) (n : Nat) : SRTE × Move × Int :=
  let s := acc.1.undoState
  let r := s.Update demand p n
  if !r.2 then (r.1, acc.2.1, acc.2.2)
  else if !(r.1.checkMaxUtil maxUtil) then (r.1, acc.2.1, acc.2.2)
  else if r.1.state.Load edge < acc.2.2 then
    (r.1, { moveType := .update, position := p, node := n, demand := demand },
      r.1.state.Load edge)
  else (r.1, acc.2.1, acc.2.2)

/-- `SearchUpdate` (srte.go:204): positions `1 ≤ p < Length` times nodes
`0 ≤ n < nNodes`. Mirrors the source exactly: there is no final
`UndoChanges` before returning (unlike `SearchRemove`/`SearchInsert`). -/
def SRTE.SearchUpdate (s : SRTE) (edge demand : Nat) (maxUtil : ℚ) :
    SRTE × Move × Bool :=
  let nNodes := s.inst.graph.Nexts.length
  let pathVar := s.pathVar.getD demand default
  let acc := (List.range' 1 (pathVar.Length - 1)).foldl
    (fun a p => (List.range nNodes).foldl (searchUpdateStep edge demand maxUtil p) a)
    (s, default, s.state.Load edge)
  (acc.1, acc.2.1, decide (acc.2.1.moveType ≠ .unknown))

/-- The body of the candidate loops of `SearchInsert` (srte.go:240-258). -/
def searchInsertStep (edge demand : Nat) (maxUtil : ℚ) (p : Nat)
    (acc : SRTE × Move × Int) (n : Nat) : SRTE × Move × Int :=
  let s := acc.1.undoState
  let r := s.Insert demand p n
  if !r.2 then (r.1, acc.2.1, acc.2.2)
  else if !(r.1.checkMaxUtil maxUtil) then (r.1, acc.2.1, acc.2.2)
  else if r.1.state.Load edge < acc.2.2 then
    (r.1, { moveType := .insert, position := p, node := n, demand := demand },
      r.1.state.Load edge)
  else (r.1, acc.2.1, acc.2.2)

/-- `SearchInsert` (srte.go:234): positions `1 ≤ p ≤ Length` times nodes
`0 ≤ n < nNodes`, with a final `UndoChanges`. -/
def SRTE.SearchInsert (s : SRTE) (edge demand : Nat) (maxUtil : ℚ) :
    SRTE × Move × Bool :=
  let nNodes := s.inst.graph.Nexts.length
  let pathVar := s.pathVar.getD demand default
  let acc := (List.range' 1 pathVar.Length).foldl
    (fun a p => (List.range nNodes).foldl (searchInsertStep edge demand maxUtil p) a)
    (s, default, s.state.Load edge)
  (acc.1.undoState, acc.2.1, decide (acc.2.1.moveType ≠ .unknown))

/-- `Search` (srte.go:141): Clear, then Remove, then Update, then Insert,
returning the first family reporting a move. -/
def SRTE.Search (s : SRTE) (edge demand : Nat) (maxutil : ℚ) :
    SRTE × Move × Bool :=
  let r1 := s.SearchClear edge demand maxutil
  if r1.2.2 then r1
  else
    let r2 := r1.1.SearchRemove edge demand maxutil
    if r2.2.2 then r2
    else
      let r3 := r2.1.SearchUpdate edge demand maxutil
      if r3.2.2 then r3
      else
        let r4 := r3.1.SearchInsert edge demand maxutil
        if r4.2.2 then r4
        else (r4.1, default, false)

/-- `ApplyMove` (srte.go:95). The `log.Fatalf` on an unknown move kind is
modelled by `none`. On success the mutation is mirrored onto the demand's
PathVar and optionally persisted. -/
def SRTE.ApplyMove (s : SRTE) (m : Move) (persist : Bool) :
    Option (SRTE × Bool) :=
  let s0 := s.undoState
  let r : Option (SRTE × Bool) :=
    match m.moveType with
    | .clear => some (s0.Clear m.demand)
    | .remove => some (s0.Remove m.demand m.position)
    | .update => some (s0.Update m.demand m.position m.node)
    | .insert => some (s0.Insert m.demand m.position m.node)
    | .unknown => none
  match r with
  | none => none
  | some (s1, movedApplied) =>
    if !movedApplied then some (s1, false)
    else
      let p := s1.pathVar.getD m.demand default
      let p2 :=
        match m.moveType with
        | .clear => (p.Clear).1
        | .remove => (p.Remove m.position).1
        | .update => (p.Update m.position m.node).1
        | .insert => (p.Insert m.position m.node).1
        | .unknown => p
      let s2 := { s1 with pathVar := s1.pathVar.set m.demand p2 }
      let s3 := if persist then s2.PersistChanges else s2
      some (s3, true)

/-- `Search` as invoked with a Go `int` demand index: every family starts by
evaluating `srte.Clear(demand)` which reads `srte.PathVar[demand]`, so an
out-of-range index (such as the `-1` returned by `SelectDemand` when no
demand crosses the edge) panics. The panic is modelled by `none`. -/
def SRTE.SearchInt (s : SRTE) (edge : Nat) (demand : Int) (maxUtil : ℚ) :
    Option (SRTE × Move × Bool) :=
  if 0 ≤ demand ∧ demand.toNat < s.pathVar.length then
    some (s.Search edge demand.toNat maxUtil)
  else none

end Srte

/-! ### State-restoration infrastructure for Search (claims C1, C2, C3) -/

/-- Generic invariant preservation along a left fold. -/
theorem foldl_pres {β α : Type} (P : β → Prop) (f : β → α → β)
    (h : ∀ b x, P b → P (f b x)) :
    ∀ (l : List α) (b : β), P b → P (l.foldl f b) := by
  intro l
  induction l with
  | nil => intro b hb; exact hb
  | cons x rest ih => intro b hb; exact ih (f b x) (h b x hb)

theorem getD_mem {α : Type} (l : List α) (i : Nat) (d : α) :
    l.getD i d = d ∨ l.getD i d ∈ l := by
  by_cases h : i < l.length
  · right
    rw [List.getD_eq_getElem _ _ h]
    exact List.getElem_mem h
  · left
    exact List.getD_eq_default _ _ (by omega)

theorem tracks_of_clean {L0 : List Int} {s : NetworkState} (hc : Clean s)
    (hl : s.loads = L0) : Tracks L0 s := by
  subst hl
  exact clean_tracks hc

namespace Srte

/-- All edge ids appearing in a forwarding-graph table are below `n`. -/
def FGraphs.Bounded (fg : FGraphs) (n : Nat) : Prop :=
  ∀ row ∈ fg.edgesRatios, ∀ cell ∈ row, ∀ er ∈ cell, er.edge < n

instance (fg : FGraphs) (n : Nat) : Decidable (fg.Bounded n) := by
  unfold FGraphs.Bounded; infer_instance

theorem bounded_edgeRatios {fg : FGraphs} {n : Nat} (h : fg.Bounded n)
    (a b : Nat) : ∀ er ∈ fg.EdgeRatios a b, er.edge < n := by
  intro er her
  rw [FGraphs.EdgeRatios] at her
  rcases getD_mem (fg.edgesRatios.getD a []) b [] with hcell | hcell
  · rw [hcell] at her; simp at her
  · rcases getD_mem fg.edgesRatios a [] with hrow | hrow
    · rw [hrow] at hcell; simp at hcell
    · exact h _ hrow _ hcell er her

/-- The components of an SRTE value that Search never modifies. -/
def Frame (s0 s : SRTE) : Prop :=
  s.pathVar = s0.pathVar ∧ s.inst = s0.inst ∧ s.fgraphs = s0.fgraphs

/-- Mid-search invariant: the frame is untouched and the network state tracks
the entry loads `L0`. -/
def Good (s0 : SRTE) (L0 : List Int) (s : SRTE) : Prop :=
  Frame s0 s ∧ Tracks L0 s.state

/-- A state equivalent (in loads and change log) to a persisted state with
loads `L0`. -/
def CleanL (L0 : List Int) (s : SRTE) : Prop :=
  Clean s.state ∧ s.state.loads = L0

theorem good_refl {s : SRTE} {L0 : List Int} (h : CleanL L0 s) : Good s L0 s :=
  ⟨⟨rfl, rfl, rfl⟩, tracks_of_clean h.1 h.2⟩

theorem frame_trans {s0 s1 s2 : SRTE} (h1 : Frame s0 s1) (h2 : Frame s1 s2) :
    Frame s0 s2 :=
  ⟨h2.1.trans h1.1, h2.2.1.trans h1.2.1, h2.2.2.trans h1.2.2⟩

theorem good_undoState {s0 : SRTE} {L0 : List Int} {s : SRTE}
    (h : Good s0 L0 s) :
    Good s0 L0 s.undoState ∧ CleanL L0 s.undoState := by
  obtain ⟨hframe, htracks⟩ := h
  obtain ⟨hl, hch, hcl⟩ := tracks_undo htracks
  refine ⟨⟨hframe, tracks_of_clean hcl hl⟩, hcl, hl⟩

theorem tracks_foldl_addLoad {L0 : List Int} (ers : List EdgeRatio)
    (hb : ∀ er ∈ ers, er.edge < L0.length) (bw : Int) :
    ∀ ns : NetworkState, Tracks L0 ns →
      Tracks L0 (ers.foldl
        (fun st er => st.AddLoad er.edge (SplitLoad bw er.ratio)) ns) := by
  induction ers with
  | nil => intro ns h; exact h
  | cons er rest ih =>
    intro ns h
    rw [List.foldl_cons]
    exact ih (fun e he => hb e (List.mem_cons_of_mem er he)) _
      (tracks_addLoad h (hb er (by simp)) _)

theorem tracks_foldl_removeLoad {L0 : List Int} (ers : List EdgeRatio)
    (hb : ∀ er ∈ ers, er.edge < L0.length) (bw : Int) :
    ∀ ns : NetworkState, Tracks L0 ns →
      Tracks L0 (ers.foldl
        (fun st er => st.RemoveLoad er.edge (SplitLoad bw er.ratio)) ns) := by
  induction ers with
  | nil => intro ns h; exact h
  | cons er rest ih =>
    intro ns h
    rw [List.foldl_cons]
    exact ih (fun e he => hb e (List.mem_cons_of_mem er he)) _
      (tracks_addLoad h (hb er (by simp)) _)

theorem good_addLoad {s0 : SRTE} {L0 : List Int} {s : SRTE}
    (h : Good s0 L0 s) (hb : s0.fgraphs.Bounded L0.length) (a b : Nat)
    (bw : Int) : Good s0 L0 (s.addLoad a b bw) := by
  obtain ⟨hframe, htracks⟩ := h
  refine ⟨⟨hframe.1, hframe.2.1, hframe.2.2⟩, ?_⟩
  show Tracks L0 ((s.fgraphs.EdgeRatios a b).foldl
    (fun st er => st.AddLoad er.edge (SplitLoad bw er.ratio)) s.state)
  apply tracks_foldl_addLoad _ _ _ _ htracks
  rw [hframe.2.2]
  exact bounded_edgeRatios hb a b

theorem good_removeLoad {s0 : SRTE} {L0 : List Int} {s : SRTE}
    (h : Good s0 L0 s) (hb : s0.fgraphs.Bounded L0.length) (a b : Nat)
    (bw : Int) : Good s0 L0 (s.removeLoad a b bw) := by
  obtain ⟨hframe, htracks⟩ := h
  refine ⟨⟨hframe.1, hframe.2.1, hframe.2.2⟩, ?_⟩
  show Tracks L0 ((s.fgraphs.EdgeRatios a b).foldl
    (fun st er => st.RemoveLoad er.edge (SplitLoad bw er.ratio)) s.state)
  apply tracks_foldl_removeLoad _ _ _ _ htracks
  rw [hframe.2.2]
  exact bounded_edgeRatios hb a b

theorem good_clear {s0 : SRTE} {L0 : List Int} {s : SRTE}
    (h : Good s0 L0 s) (hb : s0.fgraphs.Bounded L0.length) (d : Nat) :
    Good s0 L0 (s.Clear d).1 := by
  rw [SRTE.Clear]
  by_cases hc : (s.pathVar.getD d default).CanClear
  · simp only [hc, Bool.not_true, Bool.false_eq_true, if_false]
    have hfold := foldl_pres (Good s0 L0)
      (fun st i => st.removeLoad (nth (s.pathVar.getD d default).Nodes (i - 1))
        (nth (s.pathVar.getD d default).Nodes i)
        (s.inst.demands.getD d default).bandwidth)
      (fun st x hst => good_removeLoad hst hb _ _ _)
      (List.range' 1 ((s.pathVar.getD d default).Nodes.length - 1)) s h
    exact good_addLoad hfold hb _ _ _
  · simp only [Bool.not_eq_true'] at hc
    simp only [hc, Bool.not_false, if_true]
    exact h

theorem good_remove {s0 : SRTE} {L0 : List Int} {s : SRTE}
    (h : Good s0 L0 s) (hb : s0.fgraphs.Bounded L0.length) (d pos : Nat) :
    Good s0 L0 (s.Remove d pos).1 := by
  rw [SRTE.Remove]
  by_cases hc : (s.pathVar.getD d default).CanRemove pos
  · simp only [hc, Bool.not_true, Bool.false_eq_true, if_false]
    exact good_addLoad (good_removeLoad (good_removeLoad h hb _ _ _) hb _ _ _)
      hb _ _ _
  · simp only [Bool.not_eq_true'] at hc
    simp only [hc, Bool.not_false, if_true]
    exact h

theorem good_update {s0 : SRTE} {L0 : List Int} {s : SRTE}
    (h : Good s0 L0 s) (hb : s0.fgraphs.Bounded L0.length) (d pos n : Nat) :
    Good s0 L0 (s.Update d pos n).1 := by
  rw [SRTE.Update]
  by_cases hc : (s.pathVar.getD d default).CanUpdate pos n
  · simp only [hc, Bool.not_true, Bool.false_eq_true, if_false]
    exact good_addLoad (good_addLoad
      (good_removeLoad (good_removeLoad h hb _ _ _) hb _ _ _) hb _ _ _) hb _ _ _
  · simp only [Bool.not_eq_true'] at hc
    simp only [hc, Bool.not_false, if_true]
    exact h

theorem good_insert {s0 : SRTE} {L0 : List Int} {s : SRTE}
    (h : Good s0 L0 s) (hb : s0.fgraphs.Bounded L0.length) (d pos n : Nat) :
    Good s0 L0 (s.Insert d pos n).1 := by
  rw [SRTE.Insert]
  by_cases hc : (s.pathVar.getD d default).CanInsert pos n
  · simp only [hc, Bool.not_true, Bool.false_eq_true, if_false]
    exact good_addLoad (good_addLoad (good_removeLoad h hb _ _ _) hb _ _ _)
      hb _ _ _
  · simp only [Bool.not_eq_true'] at hc
    simp only [hc, Bool.not_false, if_true]
    exact h

end Srte

namespace Srte

theorem searchClear_exit {s : SRTE} {L0 : List Int} (ht : Tracks L0 s.state)
    (hb : s.fgraphs.Bounded L0.length) (e d : Nat) (u : ℚ) :
    CleanL L0 (s.SearchClear e d u).1 ∧ Frame s (s.SearchClear e d u).1 := by
  have h0 : Good s L0 s := ⟨⟨rfl, rfl, rfl⟩, ht⟩
  have h1 := good_undoState h0
  have h2 := good_clear h1.1 hb d
  have h3 := good_undoState h2
  have hfst : (s.SearchClear e d u).1 = ((s.undoState.Clear d).1).undoState := by
    simp only [SRTE.SearchClear]
    split_ifs <;> rfl
  rw [hfst]
  exact ⟨h3.2, h3.1.1⟩

theorem searchRemoveStep_good {s : SRTE} {L0 : List Int}
    (hb : s.fgraphs.Bounded L0.length) (e d : Nat) (u : ℚ)
    (acc : SRTE × Move × Int) (p : Nat) (hacc : Good s L0 acc.1) :
    Good s L0 (searchRemoveStep e d u acc p).1 := by
  have h1 := (good_undoState hacc).1
  have h2 := good_remove h1 hb d p
  simp only [searchRemoveStep]
  split_ifs <;> exact h2

theorem searchRemove_exit {s : SRTE} {L0 : List Int} (ht : Tracks L0 s.state)
    (hb : s.fgraphs.Bounded L0.length) (e d : Nat) (u : ℚ) :
    CleanL L0 (s.SearchRemove e d u).1 ∧ Frame s (s.SearchRemove e d u).1 := by
  have hfold := foldl_pres (fun acc : SRTE × Move × Int => Good s L0 acc.1)
    (searchRemoveStep e d u) (fun acc p => searchRemoveStep_good hb e d u acc p)
    (List.range' 1 ((s.pathVar.getD d default).Length - 1))
    (s, default, s.state.Load e) ⟨⟨rfl, rfl, rfl⟩, ht⟩
  have h3 := good_undoState hfold
  exact ⟨h3.2, h3.1.1⟩

theorem searchUpdateStep_good {s : SRTE} {L0 : List Int}
    (hb : s.fgraphs.Bounded L0.length) (e d : Nat) (u : ℚ) (p : Nat)
    (acc : SRTE × Move × Int) (n : Nat) (hacc : Good s L0 acc.1) :
    Good s L0 (searchUpdateStep e d u p acc n).1 := by
  have h1 := (good_undoState hacc).1
  have h2 := good_update h1 hb d p n
  simp only [searchUpdateStep]
  split_ifs <;> exact h2

theorem searchInsertStep_good {s : SRTE} {L0 : List Int}
    (hb : s.fgraphs.Bounded L0.length) (e d : Nat) (u : ℚ) (p : Nat)
    (acc : SRTE × Move × Int) (n : Nat) (hacc : Good s L0 acc.1) :
    Good s L0 (searchInsertStep e d u p acc n).1 := by
  have h1 := (good_undoState hacc).1
  have h2 := good_insert h1 hb d p n
  simp only [searchInsertStep]
  split_ifs <;> exact h2

/-- At position `Length - 1` no `Update` can apply (`CanUpdate` requires
`pos < length - 1`), so each iteration of the innermost `SearchUpdate` loop
there just replays `UndoChanges`. -/
theorem searchUpdateStep_last {s : SRTE} {L0 : List Int}
    (e d : Nat) (u : ℚ) (acc : SRTE × Move × Int) (n : Nat)
    (hacc : Good s L0 acc.1) :
    (searchUpdateStep e d u ((s.pathVar.getD d default).Length - 1) acc n).1 =
      acc.1.undoState := by
  have hpv : acc.1.undoState.pathVar = s.pathVar := hacc.1.1
  have hcan : (acc.1.undoState.pathVar.getD d default).CanUpdate
      ((s.pathVar.getD d default).Length - 1) n = false := by
    rw [hpv]
    simp [Paths.PathVar.CanUpdate, Paths.PathVar.Length]
  simp only [searchUpdateStep, SRTE.Update, hcan, Bool.not_false, if_true,
    Bool.not_true, Bool.false_eq_true, if_false]

theorem searchUpdate_inner_last {s : SRTE} {L0 : List Int}
    (hb : s.fgraphs.Bounded L0.length) (e d : Nat) (u : ℚ) :
    ∀ ns : List Nat, ns ≠ [] → ∀ acc : SRTE × Move × Int, Good s L0 acc.1 →
      CleanL L0 ((ns.foldl
        (searchUpdateStep e d u ((s.pathVar.getD d default).Length - 1))
        acc)).1 ∧
      Good s L0 ((ns.foldl
        (searchUpdateStep e d u ((s.pathVar.getD d default).Length - 1))
        acc)).1 := by
  intro ns
  induction ns with
  | nil => intro h; exact absurd rfl h
  | cons n rest ih =>
    intro _ acc hacc
    rw [List.foldl_cons]
    by_cases hrest : rest = []
    · subst hrest
      rw [List.foldl_nil, searchUpdateStep_last e d u acc n hacc]
      have := good_undoState hacc
      exact ⟨this.2, this.1⟩
    · exact ih hrest _ (searchUpdateStep_good hb e d u _ acc n hacc)

theorem searchUpdate_exit {s : SRTE} {L0 : List Int} (hcl : CleanL L0 s)
    (hb : s.fgraphs.Bounded L0.length) (e d : Nat) (u : ℚ) :
    CleanL L0 (s.SearchUpdate e d u).1 ∧ Frame s (s.SearchUpdate e d u).1 := by
  have h0 : Good s L0 s := good_refl hcl
  have houter : ∀ (ps : List Nat) (acc : SRTE × Move × Int), Good s L0 acc.1 →
      Good s L0 ((ps.foldl (fun a p => (List.range s.inst.graph.Nexts.length).foldl
        (searchUpdateStep e d u p) a) acc)).1 :=
    fun ps acc hacc => foldl_pres _ _
      (fun b p hbp => foldl_pres (fun acc : SRTE × Move × Int => Good s L0 acc.1)
        (searchUpdateStep e d u p) (fun b' n hb' => searchUpdateStep_good hb e d u p b' n hb')
        _ b hbp) ps acc hacc
  show CleanL L0 (SRTE.SearchUpdate s e d u).1 ∧ Frame s (SRTE.SearchUpdate s e d u).1
  by_cases hN : s.inst.graph.Nexts.length = 0
  · -- no nodes: every inner loop is empty, nothing is ever touched
    have hfix : ((List.range' 1 ((s.pathVar.getD d default).Length - 1)).foldl
        (fun a p => (List.range s.inst.graph.Nexts.length).foldl
          (searchUpdateStep e d u p) a) (s, default, s.state.Load e)) =
        (s, default, s.state.Load e) := by
      apply foldl_pres (fun acc : SRTE × Move × Int =>
        acc = (s, default, s.state.Load e))
      · intro b p hbp
        rw [hN, List.range_zero, List.foldl_nil]
        exact hbp
      · rfl
    show CleanL L0 ((_ : SRTE × Move × Int)).1 ∧ _
    rw [SRTE.SearchUpdate]
    simp only [hfix]
    exact ⟨hcl, rfl, rfl, rfl⟩
  · by_cases hL : (s.pathVar.getD d default).Length - 1 = 0
    · -- degenerate path: the position loop is empty
      rw [SRTE.SearchUpdate]
      simp only [hL, List.range'_zero, List.foldl_nil]
      exact ⟨hcl, rfl, rfl, rfl⟩
    · -- split off the last position, where every iteration ends in an undo
      have hsplit : List.range' 1 ((s.pathVar.getD d default).Length - 1) =
          List.range' 1 ((s.pathVar.getD d default).Length - 2) ++
            [(s.pathVar.getD d default).Length - 1] := by
        have h1 : (s.pathVar.getD d default).Length - 1 =
            ((s.pathVar.getD d default).Length - 2) + 1 := by omega
        rw [h1, List.range'_concat]
        congr 1
        simp
        omega
      rw [SRTE.SearchUpdate]
      simp only [hsplit, List.foldl_append, List.foldl_cons, List.foldl_nil]
      have hpre := houter (List.range' 1 ((s.pathVar.getD d default).Length - 2))
        (s, default, s.state.Load e) h0
      have hinner := searchUpdate_inner_last hb e d u
        (List.range s.inst.graph.Nexts.length) (by simpa using hN) _ hpre
      exact ⟨hinner.1, hinner.2.1⟩

theorem searchInsert_exit {s : SRTE} {L0 : List Int} (ht : Tracks L0 s.state)
    (hb : s.fgraphs.Bounded L0.length) (e d : Nat) (u : ℚ) :
    CleanL L0 (s.SearchInsert e d u).1 ∧ Frame s (s.SearchInsert e d u).1 := by
  have hfold := foldl_pres (fun acc : SRTE × Move × Int => Good s L0 acc.1)
    (fun a p => (List.range s.inst.graph.Nexts.length).foldl
      (searchInsertStep e d u p) a)
    (fun b p hbp => foldl_pres (fun acc : SRTE × Move × Int => Good s L0 acc.1)
      (searchInsertStep e d u p) (fun b' n hb' => searchInsertStep_good hb e d u p b' n hb')
      _ b hbp)
    (List.range' 1 (s.pathVar.getD d default).Length)
    (s, default, s.state.Load e) ⟨⟨rfl, rfl, rfl⟩, ht⟩
  have h3 := good_undoState hfold
  exact ⟨h3.2, h3.1.1⟩

end Srte

/-- A concrete 4-node instance: edges `0:(0→1) 1:(0→2) 2:(2→1) 3:(0→3) 4:(3→1)`
with capacities `[5, 10, 10, 100, 100]`, one demand `(0, 1, 10)` currently
routed `0 → 2 → 1` (loads `[0, 10, 10, 0, 0]`, persisted). -/
def exTopology : Srte.Topology :=
  { Nexts := [[0, 1, 3], [], [2], [4]],
    Edges := [⟨0, 1, 1⟩, ⟨0, 2, 1⟩, ⟨2, 1, 1⟩, ⟨0, 3, 1⟩, ⟨3, 1, 1⟩] }

/-- The forwarding table of `exTopology` under unit costs: every pair has a
unique shortest path, all ratios are 1. -/
def exFGraphs : Srte.FGraphs :=
  { edgesRatios :=
      [[[], [⟨0, 1⟩], [⟨1, 1⟩], [⟨3, 1⟩]],
       [[], [], [], []],
       [[], [⟨2, 1⟩], [], []],
       [[], [⟨4, 1⟩], [], []]] }

def exSRTE : Srte.SRTE :=
  { fgraphs := exFGraphs,
    pathVar := [⟨[0, 2, 1, 0], 3⟩],
    inst := { graph := exTopology, maxPathNodes := 4,
              demands := [⟨0, 1, 10⟩], linkCapacities := [5, 10, 10, 100, 100] },
    state := { loads := [0, 10, 10, 0, 0], changes := [],
               savedAt := [0, 0, 0, 0, 0], timestamp := 1 } }

/-- C2: for every edge, demand and maxUtil, `Search` on a persisted state
(empty change log) leaves every edge load equal to its value at entry and
`Changes()` empty — even though `SearchUpdate` omits the final `UndoChanges`,
its innermost loop always ends at position `Length-1` where no update can
apply, so the last iteration's leading `UndoChanges` restores the state. -/
theorem c2_search_preserves_state (s : Srte.SRTE) (edge demand : Nat)
    (maxUtil : ℚ) (hclean : Clean s.state)
    (hb : s.fgraphs.Bounded s.state.loads.length) :
    (s.Search edge demand maxUtil).1.state.loads = s.state.loads ∧
    (s.Search edge demand maxUtil).1.state.Changes = [] := by
  have hfin : ∀ t : Srte.SRTE, Srte.CleanL s.state.loads t →
      t.state.loads = s.state.loads ∧ t.state.Changes = [] := by
    intro t hcl
    refine ⟨hcl.2, ?_⟩
    rw [NetworkState.Changes, hcl.1.1]
    rfl
  have ht : Tracks s.state.loads s.state := clean_tracks hclean
  obtain ⟨hc1, hf1⟩ := Srte.searchClear_exit ht hb edge demand maxUtil
  have hb1 : (s.SearchClear edge demand maxUtil).1.fgraphs.Bounded
      s.state.loads.length := by rw [hf1.2.2]; exact hb
  obtain ⟨hc2, hf2⟩ := Srte.searchRemove_exit (tracks_of_clean hc1.1 hc1.2) hb1
    edge demand maxUtil
  have hb2 : ((s.SearchClear edge demand maxUtil).1.SearchRemove edge demand
      maxUtil).1.fgraphs.Bounded s.state.loads.length := by
    rw [hf2.2.2]; exact hb1
  obtain ⟨hc3, hf3⟩ := Srte.searchUpdate_exit hc2 hb2 edge demand maxUtil
  have hb3 : (((s.SearchClear edge demand maxUtil).1.SearchRemove edge demand
      maxUtil).1.SearchUpdate edge demand maxUtil).1.fgraphs.Bounded
      s.state.loads.length := by
    rw [hf3.2.2]; exact hb2
  obtain ⟨hc4, hf4⟩ := Srte.searchInsert_exit (tracks_of_clean hc3.1 hc3.2) hb3
    edge demand maxUtil
  simp only [Srte.SRTE.Search]
  split_ifs with h1 h2 h3 h4
  · exact hfin _ hc1
  · exact hfin _ hc2
  · exact hfin _ hc3
  · exact hfin _ hc4
  · exact hfin _ hc4

/-- Witness for `c2_search_preserves_state` on `exSRTE` with edge 1, demand 0,
maxUtil 1 (a run in which `Search` does find a move, via `SearchUpdate`). -/
theorem c2_search_preserves_state_witness :
    Clean exSRTE.state ∧
    exSRTE.fgraphs.Bounded exSRTE.state.loads.length ∧
    ((exSRTE.Search 1 0 1).1.state.loads = exSRTE.state.loads ∧
     (exSRTE.Search 1 0 1).1.state.Changes = []) :=
  ⟨by decide, by decide, c2_search_preserves_state exSRTE 1 0 1 (by decide) (by decide)⟩

namespace Srte

/-- On a persisted entry state, `SearchClear` always reports `false`: when
`Clear` applies, `ok := !srte.Clear(demand)` is false and the function returns
immediately; when it does not, the premature second `UndoChanges` has emptied
the change log and restored the entry load, so the acceptance checks
(`checkMaxUtil` over no changes, then `l >= edgeLoad` with `l = edgeLoad`)
reject. -/
theorem searchClear_false {s : SRTE} (hclean : Clean s.state)
    (e d : Nat) (u : ℚ) : (s.SearchClear e d u).2.2 = false := by
  have ht := clean_tracks hclean
  have h0 : Good s s.state.loads s := ⟨⟨rfl, rfl, rfl⟩, ht⟩
  have h1 := good_undoState h0
  simp only [SRTE.SearchClear]
  by_cases hc : (s.undoState.pathVar.getD d default).CanClear
  · have hr2 : (s.undoState.Clear d).2 = true := by
      rw [SRTE.Clear]
      simp only [hc, Bool.not_true, Bool.false_eq_true, if_false]
    simp only [hr2, Bool.not_true, Bool.not_false, if_true]
  · have hr : s.undoState.Clear d = (s.undoState, false) := by
      rw [SRTE.Clear]
      simp only [Bool.not_eq_true'] at hc
      simp only [hc, Bool.not_false, if_true]
    rw [hr]
    simp only [Bool.not_false, Bool.not_true, Bool.false_eq_true, if_false]
    have h2 := good_undoState h1.1
    by_cases hck : (s.undoState.undoState.checkMaxUtil u) = true
    · simp only [hck, Bool.not_true, Bool.false_eq_true, if_false]
      have hload : s.undoState.undoState.state.Load e = s.state.Load e := by
        rw [NetworkState.Load, NetworkState.Load, h2.2.2]
      rw [if_pos (le_of_eq hload.symm)]
    · simp only [Bool.not_eq_true'] at hck
      simp only [hck, Bool.not_false, if_true]

theorem searchRemove_move (s : SRTE) (e d : Nat) (u : ℚ) :
    (s.SearchRemove e d u).2.1.moveType = MoveType.unknown ∨
    (s.SearchRemove e d u).2.1.moveType = MoveType.remove := by
  have hfold := foldl_pres (fun acc : SRTE × Move × Int =>
      acc.2.1.moveType = MoveType.unknown ∨ acc.2.1.moveType = MoveType.remove)
    (searchRemoveStep e d u)
    (by
      intro acc p hacc
      simp only [searchRemoveStep]
      split_ifs <;> simp [hacc])
    (List.range' 1 ((s.pathVar.getD d default).Length - 1))
    (s, default, s.state.Load e) (Or.inl rfl)
  exact hfold

theorem searchUpdate_move (s : SRTE) (e d : Nat) (u : ℚ) :
    (s.SearchUpdate e d u).2.1.moveType = MoveType.unknown ∨
    (s.SearchUpdate e d u).2.1.moveType = MoveType.update := by
  have hfold := foldl_pres (fun acc : SRTE × Move × Int =>
      acc.2.1.moveType = MoveType.unknown ∨ acc.2.1.moveType = MoveType.update)
    (fun a p => (List.range s.inst.graph.Nexts.length).foldl
      (searchUpdateStep e d u p) a)
    (by
      intro acc p hacc
      apply foldl_pres (fun acc : SRTE × Move × Int =>
        acc.2.1.moveType = MoveType.unknown ∨ acc.2.1.moveType = MoveType.update)
      · intro b n hbn
        simp only [searchUpdateStep]
        split_ifs <;> simp [hbn]
      · exact hacc)
    (List.range' 1 ((s.pathVar.getD d default).Length - 1))
    (s, default, s.state.Load e) (Or.inl rfl)
  exact hfold

theorem searchInsert_move (s : SRTE) (e d : Nat) (u : ℚ) :
    (s.SearchInsert e d u).2.1.moveType = MoveType.unknown ∨
    (s.SearchInsert e d u).2.1.moveType = MoveType.insert := by
  have hfold := foldl_pres (fun acc : SRTE × Move × Int =>
      acc.2.1.moveType = MoveType.unknown ∨ acc.2.1.moveType = MoveType.insert)
    (fun a p => (List.range s.inst.graph.Nexts.length).foldl
      (searchInsertStep e d u p) a)
    (by
      intro acc p hacc
      apply foldl_pres (fun acc : SRTE × Move × Int =>
        acc.2.1.moveType = MoveType.unknown ∨ acc.2.1.moveType = MoveType.insert)
      · intro b n hbn
        simp only [searchInsertStep]
        split_ifs <;> simp [hbn]
      · exact hacc)
    (List.range' 1 (s.pathVar.getD d default).Length)
    (s, default, s.state.Load e) (Or.inl rfl)
  exact hfold

/-- On a persisted entry state, `Search` can never return a Clear move: the
Clear family is dead code (`searchClear_false`), and every other family only
builds moves of its own kind. -/
theorem search_never_clear (s : SRTE) (hclean : Clean s.state)
    (e d : Nat) (u : ℚ) :
    (s.Search e d u).2.1.moveType ≠ MoveType.clear := by
  simp only [SRTE.Search]
  split_ifs with h1 h2 h3 h4
  · exact absurd h1 (by rw [searchClear_false hclean]; simp)
  · rcases searchRemove_move (s.SearchClear e d u).1 e d u with h | h <;>
      simp [h]
  · rcases searchUpdate_move ((s.SearchClear e d u).1.SearchRemove e d u).1
      e d u with h | h <;> simp [h]
  · rcases searchInsert_move (((s.SearchClear e d u).1.SearchRemove e d u).1.SearchUpdate
      e d u).1 e d u with h | h <;> simp [h]
  · simp [Srte.instInhabitedMove]

end Srte

/-- C4 (code bug): `Search` invoked with demand `-1` (as the solver does when
`SelectDemand` finds no demand on the edge) aborts — `srte.Clear(-1)` indexes
`srte.PathVar[-1]`, which panics in Go and is `none` here — instead of
returning `(move, false)` as the spec states. -/
theorem c4_search_negative_demand (s : Srte.SRTE) (edge : Nat) (maxUtil : ℚ) :
    s.SearchInt edge (-1) maxUtil = none := by
  rw [Srte.SRTE.SearchInt, if_neg]
  intro hcon
  have := hcon.1
  norm_num at this

/-- `exSRTE` with a large capacity on the direct edge 0, so that clearing the
demand's path to the direct route satisfies the acceptance predicate. -/
def c1SRTE : Srte.SRTE :=
  { fgraphs := exFGraphs,
    pathVar := [⟨[0, 2, 1, 0], 3⟩],
    inst := { graph := exTopology, maxPathNodes := 4,
              demands := [⟨0, 1, 10⟩],
              linkCapacities := [100, 10, 10, 100, 100] },
    state := { loads := [0, 10, 10, 0, 0], changes := [],
               savedAt := [0, 0, 0, 0, 0], timestamp := 1 } }

/-- C1 (code bug): on `c1SRTE` with edge 1, demand 0 and maxUtil 1, the
claim's premises all hold — `CanClear` is true, the tentative clear leaves
every changed edge strictly below maxUtil and strictly decreases the load on
edge 1 — yet `Search` cannot return a Clear move: `SearchClear` negates the
result of `Clear` (srte.go:161) and undoes the changes before the acceptance
checks (srte.go:162), so it always reports `false` on a persisted entry. -/
theorem c1_clear_accepted_but_never_returned :
    ((c1SRTE.pathVar.getD 0 default).CanClear = true) ∧
    ((c1SRTE.Clear 0).2 = true) ∧
    ((c1SRTE.Clear 0).1.checkMaxUtil 1 = true) ∧
    ((c1SRTE.Clear 0).1.state.Load 1 < c1SRTE.state.Load 1) ∧
    ((c1SRTE.Search 1 0 1).2.1.moveType ≠ Srte.MoveType.clear) := by
  refine ⟨by decide, ?_, ?_, ?_, Srte.search_never_clear c1SRTE (by decide) 1 0 1⟩
  · rw [Srte.SRTE.Clear]
    norm_num [c1SRTE, Paths.PathVar.CanClear]
  · rw [Srte.SRTE.Clear]
    norm_num [c1SRTE, exFGraphs, exTopology, Paths.PathVar.CanClear,
      Paths.PathVar.Nodes, Srte.SRTE.removeLoad, Srte.SRTE.addLoad,
      Srte.FGraphs.EdgeRatios, Srte.SplitLoad, NetworkState.AddLoad,
      NetworkState.RemoveLoad, NetworkState.Load, nth, nthI, List.range',
      Srte.SRTE.checkMaxUtil, NetworkState.Changes, Srte.SRTE.Utilization]
  · rw [Srte.SRTE.Clear]
    norm_num [c1SRTE, exFGraphs, exTopology, Paths.PathVar.CanClear,
      Paths.PathVar.Nodes, Srte.SRTE.removeLoad, Srte.SRTE.addLoad,
      Srte.FGraphs.EdgeRatios, Srte.SplitLoad, NetworkState.AddLoad,
      NetworkState.RemoveLoad, NetworkState.Load, nth, nthI, List.range']

/-! ### The demand wheel (wheels package, int64-weight version used by the
current solver): a growable sum tree over (demand, weight) pairs with a
hash index. The Go `map[int]int` is modelled as an association list. -/

namespace Wheels

/-- `hash[elem]` lookup. -/
def hashFind (h : List (Nat × Nat)) (k : Nat) : Option Nat :=
  (h.find? (fun p => p.1 == k)).map (fun p => p.2)

/-- `hash[elem] = v` assignment. -/
def hashInsert (h : List (Nat × Nat)) (k v : Nat) : List (Nat × Nat) :=
  (k, v) :: h.filter (fun p => decide (p.1 ≠ k))

/-- `delete(hash, elem)`. -/
def hashErase (h : List (Nat × Nat)) (k : Nat) : List (Nat × Nat) :=
  h.filter (fun p => decide (p.1 ≠ k))

/-- `DemandWheel` (wheels package). -/
structure DemandWheel where
  offset : Nat
  size : Nat
  weights : List Int
  elems : List Nat
  hash : List (Nat × Nat)
  deriving Repr, DecidableEq

/-- `nextPower2` (wheels package). -/
def nextPower2 (i : Nat) : Nat :=
  let i := i ||| (i >>> 1)
  let i := i ||| (i >>> 2)
  let i := i ||| (i >>> 4)
  let i := i ||| (i >>> 8)
  let i := i ||| (i >>> 16)
  let i := i ||| (i >>> 32)
  i + 1

/-- `NewDemandWheel`. -/
def NewDemandWheel (initSize : Nat) : DemandWheel :=
  let offset := nextPower2 initSize
  { offset := offset, size := 0, weights := List.replicate (offset * 2) 0,
    elems := List.replicate (offset * 2) 0, hash := [] }

instance : Inhabited DemandWheel := ⟨NewDemandWheel 0⟩

/-- The loop of `propagate`: refresh the parents of node `i` up to the root.
The fuel is the starting node index, a strict bound on the number of
halvings. -/
def propagateGo : Nat → List Int → Nat → List Int
  | 0, ws, _ => ws
  | fuel + 1, ws, p =>
    if p = 0 then ws
    else propagateGo fuel (ws.set p (nthI ws (p * 2) + nthI ws (p * 2 + 1))) (p / 2)

/-- `propagate`. -/
def DemandWheel.propagate (st : DemandWheel) (i : Nat) : DemandWheel :=
  { st with weights := propagateGo i st.weights (i / 2) }

/-- `update`. -/
def DemandWheel.update (st : DemandWheel) (i : Nat) (weight : Int) : DemandWheel :=
  let n := st.offset + i
  DemandWheel.propagate { st with weights := st.weights.set n weight } n

/-- The rebuild loop of `grow`: recompute internal nodes `p, p-1, ..., 1`. -/
def rebuildGo : Nat → List Int → List Int
  | 0, ws => ws
  | p + 1, ws =>
    rebuildGo p (ws.set (p + 1) (nthI ws ((p + 1) * 2) + nthI ws ((p + 1) * 2 + 1)))

/-- `grow`: double the capacity, move the leaves, rebuild the internal sums. -/
def DemandWheel.grow (st : DemandWheel) : DemandWheel :=
  let newOffset := st.weights.length
  { st with
    offset := newOffset,
    weights := rebuildGo (newOffset - 1)
      (List.replicate newOffset 0 ++ st.weights.drop st.offset ++
        List.replicate (newOffset - st.offset) 0),
    elems := List.replicate newOffset 0 ++ st.elems.drop st.offset ++
      List.replicate (newOffset - st.offset) 0 }

/-- `insert`. -/
def DemandWheel.insert (st : DemandWheel) (elem : Nat) (weight : Int) :
    DemandWheel :=
  let st := if st.offset + st.size = st.weights.length then st.grow else st
  let n := st.offset + st.size
  let st := { st with weights := st.weights.set n weight,
                      elems := st.elems.set n elem,
                      hash := hashInsert st.hash elem st.size,
                      size := st.size + 1 }
  st.propagate n

/-- `Put`. -/
def DemandWheel.Put (st : DemandWheel) (elem : Nat) (weight : Int) :
    DemandWheel :=
  match hashFind st.hash elem with
  | some i => st.update i weight
  | none => st.insert elem weight

/-- `Remove`. -/
def DemandWheel.Remove (st : DemandWheel) (elem : Nat) : DemandWheel :=
  match hashFind st.hash elem with
  | none => st
  | some i =>
    let st := { st with hash := hashErase st.hash elem }
    let st := { st with size := st.size - 1 }
    let delNode := st.offset + i
    let lastNode := st.offset + st.size
    let st :=
      if delNode ≠ lastNode then
        DemandWheel.propagate
          { st with
            weights := st.weights.set delNode (nthI st.weights lastNode),
            elems := st.elems.set delNode (nth st.elems lastNode),
            hash := hashInsert st.hash (nth st.elems lastNode) i }
          delNode
      else st
    DemandWheel.propagate
      { st with weights := st.weights.set lastNode 0 } lastNode

/-- `Get`. -/
def DemandWheel.Get (st : DemandWheel) (elem : Nat) : Int :=
  match hashFind st.hash elem with
  | some i => nthI st.weights (st.offset + i)
  | none => 0

end Wheels

/-! ### The link-guided solver (solver package). The priority map
`yagh.IntMap` is an external dependency whose source is not in this
repository; only its `Put` operation is reached by the claims, modelled as a
last-write-wins association list. Go's `math.Pow` is likewise external and is
passed in as an explicit function `pw` on exact rationals. -/

namespace Solver

/-- `Config` (solver.go:155). `Beta` is documented in the source as currently
ignored by the solver. -/
structure Config where
  Alpha : ℚ
  Beta : ℚ
  deriving Repr, DecidableEq

/-- `yagh.IntMap[float64]` (external dependency, modelled): a keyed priority
map; only `Put` is exercised here. -/
structure IntMap where
  entries : List (Nat × ℚ)
  deriving Repr, DecidableEq

/-- `IntMap.Put` (external dependency, modelled): upsert the key's value. -/
def IntMap.Put (m : IntMap) (k : Nat) (v : ℚ) : IntMap :=
  ⟨(k, v) :: m.entries.filter (fun p => decide (p.1 ≠ k))⟩

/-- `LinkGuidedSolver` (solver.go:178). -/
structure LinkGuidedSolver where
  state : Srte.SRTE
  cfg : Config
  edgeWheel : Wheels.StaticWheel
  edgesByUtil : IntMap
  demandWheels : List Wheels.DemandWheel

/-- The body of `NewLinkGuidedSolver`'s per-edge loop (solver.go:200-204). -/
def initEdgeStep (pw : ℚ → ℚ → ℚ) (l : LinkGuidedSolver) (e : Nat) :
    LinkGuidedSolver :=
  { l with
    edgeWheel := l.edgeWheel.SetWeight e (pw (l.state.Utilization e) l.cfg.Alpha),
    edgesByUtil := l.edgesByUtil.Put e (-(l.state.Utilization e)),
    demandWheels := l.demandWheels.set e (Wheels.NewDemandWheel 16) }

/-- The body of `NewLinkGuidedSolver`'s per-(demand, edge-ratio) loop
(solver.go:207-209). -/
def registerStep (i : Nat) (bw : Int) (l : LinkGuidedSolver)
    (er : Srte.EdgeRatio) : LinkGuidedSolver :=
  let dw := (l.demandWheels.getD er.edge default).Put i
    (Srte.SplitLoad bw er.ratio)
  { l with demandWheels := l.demandWheels.set er.edge dw }

/-- `NewLinkGuidedSolver` (solver.go:189): build the wheels, seed the edge
wheel and priority map from the utilizations, then register every demand's
per-edge traffic contribution. `pw` models `math.Pow`. -/
def NewLinkGuidedSolver (state : Srte.SRTE) (cfg : Config)
    (pw : ℚ → ℚ → ℚ) : LinkGuidedSolver :=
  let nEdges := state.inst.graph.Edges.length
  let lgs : LinkGuidedSolver :=
    { state := state, cfg := cfg,
      edgeWheel := Wheels.NewStaticWheel nEdges,
      edgesByUtil := ⟨[]⟩,
      demandWheels := List.replicate nEdges (Wheels.NewDemandWheel 16) }
  let lgs := (List.range nEdges).foldl (initEdgeStep pw) lgs
  state.inst.demands.enum.foldl
    (fun l p =>
      (state.fgraphs.EdgeRatios p.2.dFrom p.2.dTo).foldl
        (registerStep p.1 p.2.bandwidth) l)
    lgs

/-- `Search` (solver.go:248): delegate to `SRTE.Search`; the mutated SRTE
value is carried explicitly. -/
def LinkGuidedSolver.Search (lgs : LinkGuidedSolver) (edge demand : Nat)
    (maxUtil : ℚ) : LinkGuidedSolver × Srte.Move × Bool :=
  let r := lgs.state.Search edge demand maxUtil
  ({ lgs with state := r.1 }, r.2)

/-- The body of `ApplyMove`'s change loop (solver.go:262-278): refresh the
edge wheel and the priority map, and maintain the changed edge's demand wheel
from the load delta. -/
def updateWheels (pw : ℚ → ℚ → ℚ) (move : Srte.Move)
    (l : LinkGuidedSolver) (lc : LoadChange) : LinkGuidedSolver :=
  let util := l.state.Utilization lc.edge
  let oldTraffic := (l.demandWheels.getD lc.edge default).Get move.demand
  let delta := l.state.Load lc.edge - lc.previousLoad
  let newTraffic := oldTraffic + delta
  { l with
    edgeWheel := l.edgeWheel.SetWeight lc.edge (pw util l.cfg.Alpha),
    edgesByUtil := l.edgesByUtil.Put lc.edge (-util),
    demandWheels :=
      if newTraffic = 0 then
        l.demandWheels.set lc.edge
          ((l.demandWheels.getD lc.edge default).Remove move.demand)
      else
        l.demandWheels.set lc.edge
          ((l.demandWheels.getD lc.edge default).Put move.demand newTraffic) }

/-- `ApplyMove` (solver.go:254): apply the move without persisting, update the
selection structures along the change log, then persist. `none` propagates
`SRTE.ApplyMove`'s abort on an unknown move kind. -/
def LinkGuidedSolver.ApplyMove (lgs : LinkGuidedSolver) (pw : ℚ → ℚ → ℚ)
    (move : Srte.Move) : Option (LinkGuidedSolver × Bool) :=
  match lgs.state.ApplyMove move false with
  | none => none
  | some (s1, applied) =>
    if !applied then some ({ lgs with state := s1 }, false)
    else
      let lgs1 : LinkGuidedSolver := { lgs with state := s1 }
      let lgs2 := s1.Changes.foldl (updateWheels pw move) lgs1
      some ({ lgs2 with state := lgs2.state.PersistChanges }, true)

end Solver

namespace Srte

/-- The maximum link utilization of an SRTE state: the mathematical maximum
of `Utilization e` over all edges (what `LinkGuidedSolver.MaxUtilization`
reports through its priority map). -/
def SRTE.maxUtilization (s : SRTE) : ℚ :=
  ((List.range s.state.loads.length).map s.Utilization).foldr max 0

end Srte

theorem foldr_max_nonneg (l : List ℚ) : 0 ≤ l.foldr max 0 := by
  induction l with
  | nil => simp
  | cons x rest ih => exact le_trans ih (le_max_right x _)

theorem le_foldr_max (l : List ℚ) (x : ℚ) (h : x ∈ l) : x ≤ l.foldr max 0 := by
  induction l with
  | nil => simp at h
  | cons y rest ih =>
    rcases List.mem_cons.mp h with rfl | hr
    · exact le_max_left x _
    · exact le_trans (ih hr) (le_max_right y _)

theorem foldr_max_le (l : List ℚ) (U : ℚ) (h0 : 0 ≤ U)
    (h : ∀ x ∈ l, x ≤ U) : l.foldr max 0 ≤ U := by
  induction l with
  | nil => simpa using h0
  | cons y rest ih =>
    exact max_le (h y (by simp))
      (ih (fun x hx => h x (List.mem_cons_of_mem y hx)))

/-! ### Determinism of the tentative mutations across equivalent states
(claim C3): two network states with the same loads, the same change log and
the same touched-this-epoch marks evolve identically under `AddLoad`. -/

/-- Observational equivalence of two network states: equal loads and change
logs, aligned mark arrays, and the same touched-this-epoch status on every
edge. -/
def SameView (a b : NetworkState) : Prop :=
  a.loads = b.loads ∧ a.changes = b.changes ∧
  a.savedAt.length = a.loads.length ∧ b.savedAt.length = b.loads.length ∧
  ∀ e < a.loads.length,
    (nth a.savedAt e = a.timestamp ↔ nth b.savedAt e = b.timestamp)

theorem addLoad_loads_length (s : NetworkState) (e : Nat) (l : Int) :
    (s.AddLoad e l).loads.length = s.loads.length := by
  rw [NetworkState.AddLoad]
  by_cases hcond : nth s.savedAt e ≠ s.timestamp <;> simp [hcond]

theorem sameView_addLoad {a b : NetworkState} (h : SameView a b)
    {e : Nat} (he : e < a.loads.length) (l : Int) :
    SameView (a.AddLoad e l) (b.AddLoad e l) := by
  obtain ⟨hl, hc, hsa, hsb, hiff⟩ := h
  have heb : e < b.loads.length := by rw [← hl]; exact he
  have hload : a.Load e = b.Load e := by rw [NetworkState.Load, NetworkState.Load, hl]
  rw [NetworkState.AddLoad, NetworkState.AddLoad]
  by_cases hcond : nth a.savedAt e = a.timestamp
  · -- already marked in both: only the load cell changes
    have hcondb : nth b.savedAt e = b.timestamp := (hiff e he).mp hcond
    simp only [hcond, hcondb, ne_eq, not_true_eq_false, if_false,
      not_false_eq_true]
    refine ⟨by rw [hl, hload], hc, by simpa using hsa, by simpa using hsb, ?_⟩
    intro k hk
    have hk' : k < a.loads.length := by simpa using hk
    exact hiff k hk'
  · -- first touch in both: push the change entry and set the mark
    have hcondb : ¬ nth b.savedAt e = b.timestamp := fun hx =>
      hcond ((hiff e he).mpr hx)
    simp only [hcond, hcondb, ne_eq, not_false_eq_true, if_true]
    refine ⟨?_, by rw [hc, hload], by simpa using hsa,
      by simpa using hsb, ?_⟩
    · show a.loads.set e (nthI a.loads e + l) = b.loads.set e (nthI b.loads e + l)
      rw [hl]
    intro k hk
    have hk' : k < a.loads.length := by simpa using hk
    show nth (a.savedAt.set e a.timestamp) k = a.timestamp ↔
      nth (b.savedAt.set e b.timestamp) k = b.timestamp
    rw [nth_set, nth_set]
    by_cases hek : e = k
    · subst hek
      rw [if_pos ⟨rfl, by omega⟩, if_pos ⟨rfl, by omega⟩]
      exact ⟨fun _ => rfl, fun _ => rfl⟩
    · rw [if_neg (fun hx => hek hx.1), if_neg (fun hx => hek hx.1)]
      exact hiff k hk'

/-- `AddLoad`-fold congruence, with the leaf load an arbitrary function of the
list element (this covers both the `addLoad` and the `removeLoad` folds). -/
theorem sameView_foldl_addLoad (ers : List Srte.EdgeRatio) (n : Nat)
    (hb : ∀ er ∈ ers, er.edge < n) (f : Srte.EdgeRatio → Int) :
    ∀ a b : NetworkState, SameView a b → a.loads.length = n →
      SameView (ers.foldl (fun st er => st.AddLoad er.edge (f er)) a)
          (ers.foldl (fun st er => st.AddLoad er.edge (f er)) b) ∧
      (ers.foldl (fun st er => st.AddLoad er.edge (f er)) a).loads.length = n := by
  induction ers with
  | nil => intro a b hv hn; exact ⟨hv, hn⟩
  | cons er rest ih =>
    intro a b hv hn
    rw [List.foldl_cons, List.foldl_cons]
    exact ih (fun x hx => hb x (List.mem_cons_of_mem er hx)) _ _
      (sameView_addLoad hv (by rw [hn]; exact hb er (by simp)) _)
      (by rw [addLoad_loads_length, hn])

/-- Two persisted states with the same loads are observationally equivalent. -/
theorem sameView_of_clean {a b : NetworkState} (ha : Clean a) (hb : Clean b)
    (hl : a.loads = b.loads) : SameView a b := by
  obtain ⟨hca, hsa, hta⟩ := ha
  obtain ⟨hcb, hsb, htb⟩ := hb
  refine ⟨hl, by rw [hca, hcb], hsa, hsb, ?_⟩
  intro e he
  constructor
  · intro hx; exact absurd hx (Nat.ne_of_lt (hta e he))
  · intro hx; exact absurd hx (Nat.ne_of_lt (htb e (by rw [← hl]; exact he)))

namespace Srte

/-- Observational equivalence of two SRTE values. -/
def SameS (a b : SRTE) : Prop :=
  a.pathVar = b.pathVar ∧ a.inst = b.inst ∧ a.fgraphs = b.fgraphs ∧
  SameView a.state b.state

theorem foldl_rel {β α : Type} (R : β → β → Prop) (f : β → α → β)
    (h : ∀ x y a, R x y → R (f x a) (f y a)) :
    ∀ (l : List α) (x y : β), R x y → R (l.foldl f x) (l.foldl f y) := by
  intro l
  induction l with
  | nil => intro x y hxy; exact hxy
  | cons a rest ih => intro x y hxy; exact ih _ _ (h x y a hxy)

theorem sameS_utilization {a b : SRTE} (h : SameS a b) (e : Nat) :
    a.Utilization e = b.Utilization e := by
  obtain ⟨hp, hi, hf, hl, _⟩ := h
  rw [SRTE.Utilization, SRTE.Utilization, NetworkState.Load, NetworkState.Load,
    hl, hi]

theorem sameS_checkMaxUtil {a b : SRTE} (h : SameS a b) (u : ℚ) :
    a.checkMaxUtil u = b.checkMaxUtil u := by
  have hfun : (fun lc : LoadChange => decide (a.Utilization lc.edge < u)) =
      (fun lc : LoadChange => decide (b.Utilization lc.edge < u)) :=
    funext fun lc => by rw [sameS_utilization h]
  rw [SRTE.checkMaxUtil, SRTE.checkMaxUtil, NetworkState.Changes,
    NetworkState.Changes, h.2.2.2.2.1, hfun]

theorem sameS_removeLoad {n : Nat} {a b : SRTE} (h : SameS a b)
    (hn : a.state.loads.length = n) (hb : a.fgraphs.Bounded n) (x y : Nat)
    (bw : Int) :
    SameS (a.removeLoad x y bw) (b.removeLoad x y bw) ∧
    (a.removeLoad x y bw).state.loads.length = n := by
  obtain ⟨hp, hi, hf, hv⟩ := h
  rw [SRTE.removeLoad, SRTE.removeLoad, ← hf]
  simp only [NetworkState.RemoveLoad]
  have hfold := sameView_foldl_addLoad (a.fgraphs.EdgeRatios x y) n
    (bounded_edgeRatios hb x y)
    (fun er => -(SplitLoad bw er.ratio)) a.state b.state hv hn
  exact ⟨⟨hp, hi, rfl, hfold.1⟩, hfold.2⟩

theorem sameS_addLoad {n : Nat} {a b : SRTE} (h : SameS a b)
    (hn : a.state.loads.length = n) (hb : a.fgraphs.Bounded n) (x y : Nat)
    (bw : Int) :
    SameS (a.addLoad x y bw) (b.addLoad x y bw) ∧
    (a.addLoad x y bw).state.loads.length = n := by
  obtain ⟨hp, hi, hf, hv⟩ := h
  rw [SRTE.addLoad, SRTE.addLoad, ← hf]
  have hfold := sameView_foldl_addLoad (a.fgraphs.EdgeRatios x y) n
    (bounded_edgeRatios hb x y)
    (fun er => SplitLoad bw er.ratio) a.state b.state hv hn
  exact ⟨⟨hp, hi, rfl, hfold.1⟩, hfold.2⟩

theorem sameS_clear {n : Nat} {a b : SRTE} (h : SameS a b)
    (hn : a.state.loads.length = n) (hb : a.fgraphs.Bounded n) (d : Nat) :
    SameS (a.Clear d).1 (b.Clear d).1 ∧ (a.Clear d).2 = (b.Clear d).2 ∧
    (a.Clear d).1.state.loads.length = n := by
  have hp := h.1
  have hi := h.2.1
  have hfg := h.2.2.1
  rw [SRTE.Clear, SRTE.Clear, ← hp, ← hi]
  by_cases hc : (a.pathVar.getD d default).CanClear
  · simp only [hc, Bool.not_true, Bool.false_eq_true, if_false]
    have hR := foldl_rel
      (fun x y : SRTE => (SameS x y ∧ x.state.loads.length = n) ∧
        x.fgraphs = a.fgraphs)
      (fun st i => st.removeLoad
        (nth (a.pathVar.getD d default).Nodes (i - 1))
        (nth (a.pathVar.getD d default).Nodes i)
        ((a.inst.demands.getD d default).bandwidth))
      (by
        intro x y i hxy
        have hstep := sameS_removeLoad hxy.1.1 hxy.1.2
          (by rw [hxy.2]; exact hb)
          (nth (a.pathVar.getD d default).Nodes (i - 1))
          (nth (a.pathVar.getD d default).Nodes i)
          ((a.inst.demands.getD d default).bandwidth)
        exact ⟨⟨hstep.1, hstep.2⟩, hxy.2⟩)
      (List.range' 1 ((a.pathVar.getD d default).Nodes.length - 1)) a b
      ⟨⟨h, hn⟩, rfl⟩
    have hfin := sameS_addLoad hR.1.1 hR.1.2 (by rw [hR.2]; exact hb)
      (nth (a.pathVar.getD d default).Nodes 0)
      (nth (a.pathVar.getD d default).Nodes
        ((a.pathVar.getD d default).Nodes.length - 1))
      ((a.inst.demands.getD d default).bandwidth)
    exact ⟨hfin.1, trivial, hfin.2⟩
  · simp only [Bool.not_eq_true'] at hc
    simp only [hc, Bool.not_false, if_true]
    exact ⟨h, trivial, hn⟩

theorem sameS_remove {n : Nat} {a b : SRTE} (h : SameS a b)
    (hn : a.state.loads.length = n) (hb : a.fgraphs.Bounded n) (d pos : Nat) :
    SameS (a.Remove d pos).1 (b.Remove d pos).1 ∧
    (a.Remove d pos).2 = (b.Remove d pos).2 ∧
    (a.Remove d pos).1.state.loads.length = n := by
  have hp := h.1
  have hi := h.2.1
  rw [SRTE.Remove, SRTE.Remove, ← hp, ← hi]
  by_cases hc : (a.pathVar.getD d default).CanRemove pos
  · simp only [hc, Bool.not_true, Bool.false_eq_true, if_false]
    have h1 := sameS_removeLoad h hn hb ((a.pathVar.getD d default).Node (pos - 1))
      ((a.pathVar.getD d default).Node pos) ((a.inst.demands.getD d default).bandwidth)
    have h2 := sameS_removeLoad h1.1 h1.2 hb ((a.pathVar.getD d default).Node pos)
      ((a.pathVar.getD d default).Node (pos + 1)) ((a.inst.demands.getD d default).bandwidth)
    have h3 := sameS_addLoad h2.1 h2.2 hb ((a.pathVar.getD d default).Node (pos - 1))
      ((a.pathVar.getD d default).Node (pos + 1)) ((a.inst.demands.getD d default).bandwidth)
    exact ⟨h3.1, trivial, h3.2⟩
  · simp only [Bool.not_eq_true'] at hc
    simp only [hc, Bool.not_false, if_true]
    exact ⟨h, trivial, hn⟩

theorem sameS_update {n : Nat} {a b : SRTE} (h : SameS a b)
    (hn : a.state.loads.length = n) (hb : a.fgraphs.Bounded n)
    (d pos node : Nat) :
    SameS (a.Update d pos node).1 (b.Update d pos node).1 ∧
    (a.Update d pos node).2 = (b.Update d pos node).2 ∧
    (a.Update d pos node).1.state.loads.length = n := by
  have hp := h.1
  have hi := h.2.1
  rw [SRTE.Update, SRTE.Update, ← hp, ← hi]
  by_cases hc : (a.pathVar.getD d default).CanUpdate pos node
  · simp only [hc, Bool.not_true, Bool.false_eq_true, if_false]
    have h1 := sameS_removeLoad h hn hb ((a.pathVar.getD d default).Node (pos - 1))
      ((a.pathVar.getD d default).Node pos) ((a.inst.demands.getD d default).bandwidth)
    have h2 := sameS_removeLoad h1.1 h1.2 hb ((a.pathVar.getD d default).Node pos)
      ((a.pathVar.getD d default).Node (pos + 1)) ((a.inst.demands.getD d default).bandwidth)
    have h3 := sameS_addLoad h2.1 h2.2 hb ((a.pathVar.getD d default).Node (pos - 1))
      node ((a.inst.demands.getD d default).bandwidth)
    have h4 := sameS_addLoad h3.1 h3.2 hb node
      ((a.pathVar.getD d default).Node (pos + 1)) ((a.inst.demands.getD d default).bandwidth)
    exact ⟨h4.1, trivial, h4.2⟩
  · simp only [Bool.not_eq_true'] at hc
    simp only [hc, Bool.not_false, if_true]
    exact ⟨h, trivial, hn⟩

theorem sameS_insert {n : Nat} {a b : SRTE} (h : SameS a b)
    (hn : a.state.loads.length = n) (hb : a.fgraphs.Bounded n)
    (d pos node : Nat) :
    SameS (a.Insert d pos node).1 (b.Insert d pos node).1 ∧
    (a.Insert d pos node).2 = (b.Insert d pos node).2 ∧
    (a.Insert d pos node).1.state.loads.length = n := by
  have hp := h.1
  have hi := h.2.1
  rw [SRTE.Insert, SRTE.Insert, ← hp, ← hi]
  by_cases hc : (a.pathVar.getD d default).CanInsert pos node
  · simp only [hc, Bool.not_true, Bool.false_eq_true, if_false]
    have h1 := sameS_removeLoad h hn hb ((a.pathVar.getD d default).Node (pos - 1))
      ((a.pathVar.getD d default).Node pos) ((a.inst.demands.getD d default).bandwidth)
    have h2 := sameS_addLoad h1.1 h1.2 hb ((a.pathVar.getD d default).Node (pos - 1))
      node ((a.inst.demands.getD d default).bandwidth)
    have h3 := sameS_addLoad h2.1 h2.2 hb node
      ((a.pathVar.getD d default).Node pos) ((a.inst.demands.getD d default).bandwidth)
    exact ⟨h3.1, trivial, h3.2⟩
  · simp only [Bool.not_eq_true'] at hc
    simp only [hc, Bool.not_false, if_true]
    exact ⟨h, trivial, hn⟩

end Srte

namespace Srte

/-- The mutation dispatched by `ApplyMove` (srte.go:99-110) for a move `m`:
the same tentative operation the search loops evaluate. -/
def moveMutation (s : SRTE) (m : Move) : SRTE × Bool :=
  match m.moveType with
  | .clear => s.Clear m.demand
  | .remove => s.Remove m.demand m.position
  | .update => s.Update m.demand m.position m.node
  | .insert => s.Insert m.demand m.position m.node
  | .unknown => (s, false)

theorem good_mutation {s0 : SRTE} {L0 : List Int} {s : SRTE}
    (h : Good s0 L0 s) (hb : s0.fgraphs.Bounded L0.length) (m : Move) :
    Good s0 L0 (moveMutation s m).1 := by
  rw [moveMutation]
  cases m.moveType
  · exact h
  · exact good_clear h hb _
  · exact good_remove h hb _ _
  · exact good_update h hb _ _ _
  · exact good_insert h hb _ _ _

theorem sameS_mutation {n : Nat} {a b : SRTE} (h : SameS a b)
    (hn : a.state.loads.length = n) (hb : a.fgraphs.Bounded n) (m : Move) :
    SameS (moveMutation a m).1 (moveMutation b m).1 ∧
    (moveMutation a m).2 = (moveMutation b m).2 := by
  rw [moveMutation, moveMutation]
  cases m.moveType
  · exact ⟨h, rfl⟩
  · exact ⟨(sameS_clear h hn hb _).1, (sameS_clear h hn hb _).2.1⟩
  · exact ⟨(sameS_remove h hn hb _ _).1, (sameS_remove h hn hb _ _).2.1⟩
  · exact ⟨(sameS_update h hn hb _ _ _).1, (sameS_update h hn hb _ _ _).2.1⟩
  · exact ⟨(sameS_insert h hn hb _ _ _).1, (sameS_insert h hn hb _ _ _).2.1⟩

/-- An accepted move: from any persisted state with the entry loads `L0` and
the entry frame, the move's mutation applies and passes the strict
`checkMaxUtil` acceptance test. -/
def MoveOK (s0 : SRTE) (L0 : List Int) (U : ℚ) (m : Move) : Prop :=
  m.moveType ≠ MoveType.unknown ∧
  ∀ t : SRTE, Frame s0 t → CleanL L0 t →
    (moveMutation t m).2 = true ∧ (moveMutation t m).1.checkMaxUtil U = true

/-- The common acceptance argument: if the trial from `acc.1.undoState`
succeeded and passed `checkMaxUtil`, the recorded move is `MoveOK` — any
other persisted state with the same frame and loads evolves identically. -/
theorem moveOK_of_trial {s0 : SRTE} {L0 : List Int} {acc : SRTE}
    (hg : Good s0 L0 acc) (hb : s0.fgraphs.Bounded L0.length) {m : Move}
    (hmt : m.moveType ≠ MoveType.unknown)
    (h2 : (moveMutation acc.undoState m).2 = true)
    (hck : (moveMutation acc.undoState m).1.checkMaxUtil U = true) :
    MoveOK s0 L0 U m := by
  refine ⟨hmt, ?_⟩
  intro t hft hct
  obtain ⟨hgu, hcu⟩ := good_undoState hg
  have hsv : SameS t acc.undoState := by
    refine ⟨?_, ?_, ?_, sameView_of_clean hct.1 hcu.1 (by rw [hct.2, hcu.2])⟩
    · rw [hft.1, hgu.1.1]
    · rw [hft.2.1, hgu.1.2.1]
    · rw [hft.2.2, hgu.1.2.2]
  have hn : t.state.loads.length = L0.length := by rw [hct.2]
  have hbt : t.fgraphs.Bounded L0.length := by rw [hft.2.2]; exact hb
  have hcong := sameS_mutation hsv hn hbt m
  rw [hcong.2, sameS_checkMaxUtil hcong.1 U]
  exact ⟨h2, hck⟩

end Srte

namespace Srte

theorem searchRemoveStep_ok {s0 : SRTE} {L0 : List Int} {u : ℚ}
    (hb : s0.fgraphs.Bounded L0.length) (e d : Nat)
    (acc : SRTE × Move × Int) (p : Nat)
    (h : Good s0 L0 acc.1 ∧
      (acc.2.1.moveType = MoveType.unknown ∨ MoveOK s0 L0 u acc.2.1)) :
    Good s0 L0 (searchRemoveStep e d u acc p).1 ∧
    ((searchRemoveStep e d u acc p).2.1.moveType = MoveType.unknown ∨
      MoveOK s0 L0 u (searchRemoveStep e d u acc p).2.1) := by
  refine ⟨searchRemoveStep_good hb e d u acc p h.1, ?_⟩
  simp only [searchRemoveStep]
  split_ifs with h1 h2 h3
  · exact h.2
  · exact h.2
  · right
    have hr2 : (acc.1.undoState.Remove d p).2 = true := by simpa using h1
    have hck : (acc.1.undoState.Remove d p).1.checkMaxUtil u = true := by
      simpa using h2
    exact moveOK_of_trial h.1 hb (by intro hx; simp at hx) hr2 hck
  · exact h.2

theorem searchRemove_ok {s0 : SRTE} {L0 : List Int} {t : SRTE}
    (hg : Good s0 L0 t) (hb : s0.fgraphs.Bounded L0.length) (e d : Nat)
    (u : ℚ) (hflag : (t.SearchRemove e d u).2.2 = true) :
    MoveOK s0 L0 u (t.SearchRemove e d u).2.1 := by
  have hfold := foldl_pres (fun acc : SRTE × Move × Int =>
      Good s0 L0 acc.1 ∧
      (acc.2.1.moveType = MoveType.unknown ∨ MoveOK s0 L0 u acc.2.1))
    (searchRemoveStep e d u)
    (fun acc p hacc => searchRemoveStep_ok hb e d acc p hacc)
    (List.range' 1 ((t.pathVar.getD d default).Length - 1))
    (t, default, t.state.Load e) ⟨hg, Or.inl rfl⟩
  simp only [SRTE.SearchRemove] at hflag ⊢
  rcases hfold.2 with hunk | hok
  · exact absurd (of_decide_eq_true hflag) (by rw [hunk]; simp)
  · exact hok

theorem searchUpdateStep_ok {s0 : SRTE} {L0 : List Int} {u : ℚ}
    (hb : s0.fgraphs.Bounded L0.length) (e d p : Nat)
    (acc : SRTE × Move × Int) (n : Nat)
    (h : Good s0 L0 acc.1 ∧
      (acc.2.1.moveType = MoveType.unknown ∨ MoveOK s0 L0 u acc.2.1)) :
    Good s0 L0 (searchUpdateStep e d u p acc n).1 ∧
    ((searchUpdateStep e d u p acc n).2.1.moveType = MoveType.unknown ∨
      MoveOK s0 L0 u (searchUpdateStep e d u p acc n).2.1) := by
  refine ⟨searchUpdateStep_good hb e d u p acc n h.1, ?_⟩
  simp only [searchUpdateStep]
  split_ifs with h1 h2 h3
  · exact h.2
  · exact h.2
  · right
    have hr2 : (acc.1.undoState.Update d p n).2 = true := by simpa using h1
    have hck : (acc.1.undoState.Update d p n).1.checkMaxUtil u = true := by
      simpa using h2
    exact moveOK_of_trial h.1 hb (by intro hx; simp at hx) hr2 hck
  · exact h.2

theorem searchUpdate_ok {s0 : SRTE} {L0 : List Int} {t : SRTE}
    (hg : Good s0 L0 t) (hb : s0.fgraphs.Bounded L0.length) (e d : Nat)
    (u : ℚ) (hflag : (t.SearchUpdate e d u).2.2 = true) :
    MoveOK s0 L0 u (t.SearchUpdate e d u).2.1 := by
  have hfold := foldl_pres (fun acc : SRTE × Move × Int =>
      Good s0 L0 acc.1 ∧
      (acc.2.1.moveType = MoveType.unknown ∨ MoveOK s0 L0 u acc.2.1))
    (fun a p => (List.range t.inst.graph.Nexts.length).foldl
      (searchUpdateStep e d u p) a)
    (fun acc p hacc => foldl_pres _ (searchUpdateStep e d u p)
      (fun b n hb' => searchUpdateStep_ok hb e d p b n hb') _ acc hacc)
    (List.range' 1 ((t.pathVar.getD d default).Length - 1))
    (t, default, t.state.Load e) ⟨hg, Or.inl rfl⟩
  simp only [SRTE.SearchUpdate] at hflag ⊢
  rcases hfold.2 with hunk | hok
  · exact absurd (of_decide_eq_true hflag) (by rw [hunk]; simp)
  · exact hok

theorem searchInsertStep_ok {s0 : SRTE} {L0 : List Int} {u : ℚ}
    (hb : s0.fgraphs.Bounded L0.length) (e d p : Nat)
    (acc : SRTE × Move × Int) (n : Nat)
    (h : Good s0 L0 acc.1 ∧
      (acc.2.1.moveType = MoveType.unknown ∨ MoveOK s0 L0 u acc.2.1)) :
    Good s0 L0 (searchInsertStep e d u p acc n).1 ∧
    ((searchInsertStep e d u p acc n).2.1.moveType = MoveType.unknown ∨
      MoveOK s0 L0 u (searchInsertStep e d u p acc n).2.1) := by
  refine ⟨searchInsertStep_good hb e d u p acc n h.1, ?_⟩
  simp only [searchInsertStep]
  split_ifs with h1 h2 h3
  · exact h.2
  · exact h.2
  · right
    have hr2 : (acc.1.undoState.Insert d p n).2 = true := by simpa using h1
    have hck : (acc.1.undoState.Insert d p n).1.checkMaxUtil u = true := by
      simpa using h2
    exact moveOK_of_trial h.1 hb (by intro hx; simp at hx) hr2 hck
  · exact h.2

theorem searchInsert_ok {s0 : SRTE} {L0 : List Int} {t : SRTE}
    (hg : Good s0 L0 t) (hb : s0.fgraphs.Bounded L0.length) (e d : Nat)
    (u : ℚ) (hflag : (t.SearchInsert e d u).2.2 = true) :
    MoveOK s0 L0 u (t.SearchInsert e d u).2.1 := by
  have hfold := foldl_pres (fun acc : SRTE × Move × Int =>
      Good s0 L0 acc.1 ∧
      (acc.2.1.moveType = MoveType.unknown ∨ MoveOK s0 L0 u acc.2.1))
    (fun a p => (List.range t.inst.graph.Nexts.length).foldl
      (searchInsertStep e d u p) a)
    (fun acc p hacc => foldl_pres _ (searchInsertStep e d u p)
      (fun b n hb' => searchInsertStep_ok hb e d p b n hb') _ acc hacc)
    (List.range' 1 (t.pathVar.getD d default).Length)
    (t, default, t.state.Load e) ⟨hg, Or.inl rfl⟩
  simp only [SRTE.SearchInsert] at hflag ⊢
  rcases hfold.2 with hunk | hok
  · exact absurd (of_decide_eq_true hflag) (by rw [hunk]; simp)
  · exact hok

end Srte

namespace Srte

/-- Search leaves a persisted state with the entry loads and an untouched
frame, whatever it returns. -/
theorem search_exit {s : SRTE} {L0 : List Int} (hcl : CleanL L0 s)
    (hb : s.fgraphs.Bounded L0.length) (e d : Nat) (u : ℚ) :
    CleanL L0 (s.Search e d u).1 ∧ Frame s (s.Search e d u).1 := by
  have ht : Tracks L0 s.state := tracks_of_clean hcl.1 hcl.2
  obtain ⟨hc1, hf1⟩ := searchClear_exit ht hb e d u
  have hb1 : (s.SearchClear e d u).1.fgraphs.Bounded L0.length := by
    rw [hf1.2.2]; exact hb
  obtain ⟨hc2, hf2⟩ := searchRemove_exit (tracks_of_clean hc1.1 hc1.2) hb1 e d u
  have hb2 : ((s.SearchClear e d u).1.SearchRemove e d u).1.fgraphs.Bounded
      L0.length := by rw [hf2.2.2]; exact hb1
  obtain ⟨hc3, hf3⟩ := searchUpdate_exit hc2 hb2 e d u
  have hb3 : (((s.SearchClear e d u).1.SearchRemove e d u).1.SearchUpdate e d
      u).1.fgraphs.Bounded L0.length := by rw [hf3.2.2]; exact hb2
  obtain ⟨hc4, hf4⟩ := searchInsert_exit (tracks_of_clean hc3.1 hc3.2) hb3 e d u
  simp only [SRTE.Search]
  split_ifs with h1 h2 h3 h4
  · exact ⟨hc1, hf1⟩
  · exact ⟨hc2, frame_trans hf1 hf2⟩
  · exact ⟨hc3, frame_trans (frame_trans hf1 hf2) hf3⟩
  · exact ⟨hc4, frame_trans (frame_trans (frame_trans hf1 hf2) hf3) hf4⟩
  · exact ⟨hc4, frame_trans (frame_trans (frame_trans hf1 hf2) hf3) hf4⟩

/-- A move returned by `Search` with ok = true is accepted (`MoveOK`): its
tentative application from any persisted state carrying the entry loads and
frame succeeds and passes the strict `checkMaxUtil` test. -/
theorem search_ok {s : SRTE} {L0 : List Int} (hcl : CleanL L0 s)
    (hb : s.fgraphs.Bounded L0.length) (e d : Nat) (u : ℚ)
    (hflag : (s.Search e d u).2.2 = true) :
    MoveOK s L0 u (s.Search e d u).2.1 := by
  have ht : Tracks L0 s.state := tracks_of_clean hcl.1 hcl.2
  obtain ⟨hc1, hf1⟩ := searchClear_exit ht hb e d u
  have hb1 : (s.SearchClear e d u).1.fgraphs.Bounded L0.length := by
    rw [hf1.2.2]; exact hb
  obtain ⟨hc2, hf2⟩ := searchRemove_exit (tracks_of_clean hc1.1 hc1.2) hb1 e d u
  have hb2 : ((s.SearchClear e d u).1.SearchRemove e d u).1.fgraphs.Bounded
      L0.length := by rw [hf2.2.2]; exact hb1
  obtain ⟨hc3, hf3⟩ := searchUpdate_exit hc2 hb2 e d u
  have hg1 : Good s L0 (s.SearchClear e d u).1 :=
    ⟨hf1, tracks_of_clean hc1.1 hc1.2⟩
  have hg2 : Good s L0 ((s.SearchClear e d u).1.SearchRemove e d u).1 :=
    ⟨frame_trans hf1 hf2, tracks_of_clean hc2.1 hc2.2⟩
  have hg3 : Good s L0 (((s.SearchClear e d u).1.SearchRemove e d
      u).1.SearchUpdate e d u).1 :=
    ⟨frame_trans (frame_trans hf1 hf2) hf3, tracks_of_clean hc3.1 hc3.2⟩
  simp only [SRTE.Search] at hflag ⊢
  split_ifs at hflag ⊢ with h1 h2 h3 h4
  · exact absurd h1 (by rw [searchClear_false hcl.1]; simp)
  · exact searchRemove_ok hg1 hb e d u h2
  · exact searchUpdate_ok hg2 hb e d u h3
  · exact searchInsert_ok hg3 hb e d u h4

end Srte

namespace Srte

/-- `maxUtilization` only reads the loads and the capacities. -/
theorem maxUtilization_congr {a b : SRTE} (hl : a.state.loads = b.state.loads)
    (hi : a.inst = b.inst) : a.maxUtilization = b.maxUtilization := by
  have hfun : a.Utilization = b.Utilization := funext fun e => by
    rw [SRTE.Utilization, SRTE.Utilization, NetworkState.Load,
      NetworkState.Load, hl, hi]
  rw [SRTE.maxUtilization, SRTE.maxUtilization, hl, hfun]

/-- After an accepted mutation (strict `checkMaxUtil` at the entry MLU), the
maximum utilization cannot exceed the entry MLU: changed edges are strictly
below it, unchanged edges still carry their entry load. -/
theorem mlu_after_accept {s A : SRTE} {L0 : List Int} {U : ℚ}
    (hL0 : s.state.loads = L0) (hg : Good s L0 A)
    (hck : A.checkMaxUtil U = true) (hU : U = s.maxUtilization) :
    A.maxUtilization ≤ s.maxUtilization := by
  subst hU
  obtain ⟨hframe, htracks⟩ := hg
  have hlen : A.state.loads.length = L0.length := htracks.1
  have hlen0 : s.state.loads.length = L0.length := by rw [hL0]
  rw [SRTE.maxUtilization]
  apply foldr_max_le
  · exact foldr_max_nonneg _
  · intro x hx
    obtain ⟨e, he, rfl⟩ := List.mem_map.mp hx
    have he' : e < L0.length := by rw [← hlen]; exact List.mem_range.mp he
    rw [SRTE.checkMaxUtil] at hck
    by_cases hmem : e ∈ A.state.changes.map LoadChange.edge
    · obtain ⟨lc, hlc, hlceq⟩ := List.mem_map.mp hmem
      have hlc' : lc ∈ A.state.Changes := by
        rw [NetworkState.Changes]; exact List.mem_reverse.mpr hlc
      have hdec := of_decide_eq_true (List.all_eq_true.mp hck lc hlc')
      rw [hlceq] at hdec
      exact le_of_lt hdec
    · have hsame : nthI A.state.loads e = nthI L0 e :=
        htracks.2.2.2.2.2.2 e hmem
      have hue : A.Utilization e = s.Utilization e := by
        rw [SRTE.Utilization, SRTE.Utilization, NetworkState.Load,
          NetworkState.Load, hsame, ← hL0, hframe.2.1]
      rw [hue, SRTE.maxUtilization]
      apply le_foldr_max
      exact List.mem_map.mpr
        ⟨e, List.mem_range.mpr (by rw [hlen0]; exact he'), rfl⟩

/-- `ApplyMove` with `persist = false`, on a known move kind, returning
applied = true: the result's state is the mutation's state and the instance
is untouched. -/
theorem applyMove_some_true {s : SRTE} {m : Move} {pr : SRTE × Bool}
    (hm : m.moveType ≠ MoveType.unknown)
    (h : s.ApplyMove m false = some pr) (hok : pr.2 = true) :
    (moveMutation s.undoState m).2 = true ∧
    pr.1.state = (moveMutation s.undoState m).1.state ∧
    pr.1.inst = (moveMutation s.undoState m).1.inst := by
  cases hmt : m.moveType
  case unknown => exact absurd hmt hm
  all_goals
    simp only [SRTE.ApplyMove, hmt, moveMutation] at h ⊢
  case clear =>
    by_cases hap : (s.undoState.Clear m.demand).2 = true
    · simp only [hap, Bool.not_true, Bool.false_eq_true, if_false,
        Option.some_inj] at h
      subst h
      exact ⟨hap, rfl, rfl⟩
    · simp only [Bool.not_eq_true] at hap
      simp only [hap, Bool.not_false, if_true, Option.some_inj] at h
      subst h
      simp at hok
  case remove =>
    by_cases hap : (s.undoState.Remove m.demand m.position).2 = true
    · simp only [hap, Bool.not_true, Bool.false_eq_true, if_false,
        Option.some_inj] at h
      subst h
      exact ⟨hap, rfl, rfl⟩
    · simp only [Bool.not_eq_true] at hap
      simp only [hap, Bool.not_false, if_true, Option.some_inj] at h
      subst h
      simp at hok
  case update =>
    by_cases hap : (s.undoState.Update m.demand m.position m.node).2 = true
    · simp only [hap, Bool.not_true, Bool.false_eq_true, if_false,
        Option.some_inj] at h
      subst h
      exact ⟨hap, rfl, rfl⟩
    · simp only [Bool.not_eq_true] at hap
      simp only [hap, Bool.not_false, if_true, Option.some_inj] at h
      subst h
      simp at hok
  case insert =>
    by_cases hap : (s.undoState.Insert m.demand m.position m.node).2 = true
    · simp only [hap, Bool.not_true, Bool.false_eq_true, if_false,
        Option.some_inj] at h
      subst h
      exact ⟨hap, rfl, rfl⟩
    · simp only [Bool.not_eq_true] at hap
      simp only [hap, Bool.not_false, if_true, Option.some_inj] at h
      subst h
      simp at hok

end Srte

namespace Solver

theorem incrTimestamp_loads (s : NetworkState) :
    s.incrTimestamp.loads = s.loads := by
  rw [NetworkState.incrTimestamp]
  split_ifs <;> rfl

theorem foldl_updateWheels_state (pw : ℚ → ℚ → ℚ) (mv : Srte.Move)
    (cs : List LoadChange) :
    ∀ l : LinkGuidedSolver, (cs.foldl (updateWheels pw mv) l).state = l.state := by
  induction cs with
  | nil => intro l; rfl
  | cons c rest ih => intro l; rw [List.foldl_cons, ih]; rfl

/-- If the solver's `ApplyMove` returns true, the underlying SRTE `ApplyMove`
returned applied = true, and the final state is that result persisted (same
loads, same instance). -/
theorem lgs_applyMove_true {lgs : LinkGuidedSolver} {pw : ℚ → ℚ → ℚ}
    {m : Srte.Move} {pr : LinkGuidedSolver × Bool}
    (h : lgs.ApplyMove pw m = some pr) (hok : pr.2 = true) :
    ∃ s1 : Srte.SRTE, lgs.state.ApplyMove m false = some (s1, true) ∧
      pr.1.state.state.loads = s1.state.loads ∧ pr.1.state.inst = s1.inst := by
  cases hA : lgs.state.ApplyMove m false with
  | none => rw [LinkGuidedSolver.ApplyMove, hA] at h; exact absurd h (by simp)
  | some q =>
    obtain ⟨s1, applied⟩ := q
    rw [LinkGuidedSolver.ApplyMove, hA] at h
    cases applied with
    | false =>
      simp only [Bool.not_false, if_true, Option.some_inj] at h
      subst h
      simp at hok
    | true =>
      simp only [Bool.not_true, Bool.false_eq_true, if_false,
        Option.some_inj] at h
      subst h
      refine ⟨s1, rfl, ?_, ?_⟩
      · show ((s1.Changes.foldl (updateWheels pw m)
          { lgs with state := s1 }).state.PersistChanges).state.loads =
            s1.state.loads
        rw [foldl_updateWheels_state]
        show (s1.state.PersistChanges).loads = s1.state.loads
        rw [NetworkState.PersistChanges, incrTimestamp_loads]
      · show ((s1.Changes.foldl (updateWheels pw m)
          { lgs with state := s1 }).state.PersistChanges).inst = s1.inst
        rw [foldl_updateWheels_state]
        rfl

end Solver

/-- C3: from a persisted solver state with in-range forwarding edges, if
`Search(e, d, U)` with `U` the current maximum link utilization returns a
move `m` with ok = true, then whenever `ApplyMove(m)` returns true the
maximum link utilization of the resulting state is at most its value before
the move. -/
theorem c3_accepted_moves_never_increase_mlu
    (lgs : Solver.LinkGuidedSolver) (pw : ℚ → ℚ → ℚ) (e d : Nat) (U : ℚ)
    (m : Srte.Move)
    (hclean : Clean lgs.state.state)
    (hb : lgs.state.fgraphs.Bounded lgs.state.state.loads.length)
    (hU : U = lgs.state.maxUtilization)
    (hsearch : (lgs.Search e d U).2 = (m, true)) :
    ∀ pr : Solver.LinkGuidedSolver × Bool,
      (lgs.Search e d U).1.ApplyMove pw m = some pr → pr.2 = true →
      pr.1.state.maxUtilization ≤ lgs.state.maxUtilization := by
  intro pr happ hok
  have hcl : Srte.CleanL lgs.state.state.loads lgs.state := ⟨hclean, rfl⟩
  have hsearch' : (lgs.state.Search e d U).2 = (m, true) := hsearch
  have hflag : (lgs.state.Search e d U).2.2 = true := by rw [hsearch']
  have hm1 : (lgs.state.Search e d U).2.1 = m := by rw [hsearch']
  have hmok := Srte.search_ok hcl hb e d U hflag
  rw [hm1] at hmok
  obtain ⟨hexitc, hexitf⟩ := Srte.search_exit hcl hb e d U
  obtain ⟨s1, hA, hloads, hinst⟩ := Solver.lgs_applyMove_true happ hok
  have hA' : (lgs.state.Search e d U).1.ApplyMove m false = some (s1, true) :=
    hA
  have hmut := Srte.applyMove_some_true hmok.1 hA' rfl
  have hgt1 : Srte.Good lgs.state lgs.state.state.loads
      (lgs.state.Search e d U).1 :=
    ⟨hexitf, tracks_of_clean hexitc.1 hexitc.2⟩
  obtain ⟨hgu, hcu⟩ := Srte.good_undoState hgt1
  have hacc := hmok.2 ((lgs.state.Search e d U).1.undoState) hgu.1 hcu
  have hgA := Srte.good_mutation hgu hb m
  have hmlu := Srte.mlu_after_accept rfl hgA hacc.2 hU
  have hcong : pr.1.state.maxUtilization =
      (Srte.moveMutation ((lgs.state.Search e d U).1.undoState) m).1.maxUtilization := by
    apply Srte.maxUtilization_congr
    · rw [hloads]; exact congrArg NetworkState.loads hmut.2.1
    · rw [hinst]; exact hmut.2.2
  rw [hcong]
  exact hmlu

/-- A triangle instance for exercising the solver: edges `0:(0→1, cap 100)
1:(0→2, cap 10) 2:(2→1, cap 10)`, one demand `(0, 1, 10)` routed `0 → 2 → 1`
(persisted loads `[0, 10, 10]`, MLU 1). -/
def c3Topology : Srte.Topology :=
  { Nexts := [[0, 1], [], [2]],
    Edges := [⟨0, 1, 1⟩, ⟨0, 2, 1⟩, ⟨2, 1, 1⟩] }

def c3FGraphs : Srte.FGraphs :=
  { edgesRatios :=
      [[[], [⟨0, 1⟩], [⟨1, 1⟩]],
       [[], [], []],
       [[], [⟨2, 1⟩], []]] }

def c3SRTE : Srte.SRTE :=
  { fgraphs := c3FGraphs,
    pathVar := [⟨[0, 2, 1, 0], 3⟩],
    inst := { graph := c3Topology, maxPathNodes := 4,
              demands := [⟨0, 1, 10⟩], linkCapacities := [100, 10, 10] },
    state := { loads := [0, 10, 10], changes := [],
               savedAt := [0, 0, 0], timestamp := 1 } }

def c3LGS : Solver.LinkGuidedSolver :=
  { state := c3SRTE, cfg := { Alpha := 2, Beta := 2 },
    edgeWheel := Wheels.NewStaticWheel 3,
    edgesByUtil := ⟨[]⟩,
    demandWheels := [] }

theorem c3MLUEval : (1 : ℚ) = c3SRTE.maxUtilization := by
  rw [Srte.SRTE.maxUtilization]
  norm_num [c3SRTE, Srte.SRTE.Utilization, NetworkState.Load, nthI,
    List.range_succ, max_def]

set_option maxHeartbeats 2000000 in
set_option maxRecDepth 8000 in
theorem c3SearchEval : (c3LGS.Search 1 0 1).2 =
    ({ moveType := Srte.MoveType.remove, position := 1, node := 0,
       demand := 0 }, true) := by
  show (c3SRTE.Search 1 0 1).2 = _
  rw [Srte.SRTE.Search]
  norm_num [c3SRTE, c3FGraphs, c3Topology, Srte.SRTE.SearchClear,
    Srte.SRTE.SearchRemove, Srte.searchRemoveStep, Srte.SRTE.Clear,
    Srte.SRTE.Remove, Srte.SRTE.undoState, NetworkState.UndoChanges,
    NetworkState.incrTimestamp, UMAX, Srte.SRTE.checkMaxUtil,
    NetworkState.Changes, Srte.SRTE.Utilization, Srte.SRTE.removeLoad,
    Srte.SRTE.addLoad, Srte.FGraphs.EdgeRatios, Srte.SplitLoad,
    NetworkState.AddLoad, NetworkState.RemoveLoad, NetworkState.Load,
    Paths.PathVar.CanClear, Paths.PathVar.CanRemove, Paths.PathVar.Node,
    Paths.PathVar.Nodes, Paths.PathVar.Length, nth, nthI, List.range',
    Srte.instInhabitedMove]
  rw [if_neg (show ¬ (Srte.MoveType.remove = Srte.MoveType.unknown) by decide)]
  simp

/-- Witness for `c3_accepted_moves_never_increase_mlu` on the triangle
instance with edge 1, demand 0 and U = 1 (the entry MLU): `Search` does
return the Remove move with ok = true. -/
theorem c3_accepted_moves_never_increase_mlu_witness :
    Clean c3LGS.state.state ∧
    c3LGS.state.fgraphs.Bounded c3LGS.state.state.loads.length ∧
    ((1 : ℚ) = c3LGS.state.maxUtilization) ∧
    ((c3LGS.Search 1 0 1).2 =
      ({ moveType := Srte.MoveType.remove, position := 1, node := 0,
         demand := 0 }, true)) ∧
    (∀ pr : Solver.LinkGuidedSolver × Bool,
      (c3LGS.Search 1 0 1).1.ApplyMove (fun a _ => a)
        { moveType := Srte.MoveType.remove, position := 1, node := 0,
          demand := 0 } = some pr → pr.2 = true →
      pr.1.state.maxUtilization ≤ c3LGS.state.maxUtilization) :=
  ⟨by decide, by decide, c3MLUEval, c3SearchEval,
    c3_accepted_moves_never_increase_mlu c3LGS (fun a _ => a) 1 0 1
      { moveType := Srte.MoveType.remove, position := 1, node := 0,
        demand := 0 }
      (by decide) (by decide) c3MLUEval c3SearchEval⟩

/-! ### Correctness of the demand wheel's hash/leaf bookkeeping (claim C5). -/

theorem getD_set {α : Type} (l : List α) (j k : Nat) (v d : α) :
    (l.set j v).getD k d = if j = k ∧ j < l.length then v else l.getD k d := by
  by_cases h : j = k ∧ j < l.length
  · obtain ⟨rfl, hlt⟩ := h
    simp [hlt, List.getD_eq_getElem?_getD]
  · rcases Decidable.not_and_iff_or_not.mp h with h' | h'
    · simp [List.getD_eq_getElem?_getD, List.getElem?_set_ne h', h]
    · have he : l.set j v = l := List.set_eq_of_length_le (by omega)
      simp [he, h]

namespace Wheels

theorem propagateGo_length (fuel : Nat) :
    ∀ (ws : List Int) (p : Nat), (propagateGo fuel ws p).length = ws.length := by
  induction fuel with
  | zero => intro ws p; rfl
  | succ n ih =>
    intro ws p
    rw [propagateGo]
    by_cases hp : p = 0
    · simp [hp]
    · simp only [hp, if_false]
      rw [ih]
      simp

/-- `propagate` starting strictly below `off` never touches a cell at or
beyond `off`. -/
theorem propagateGo_leaf (off : Nat) (fuel : Nat) :
    ∀ (ws : List Int) (p k : Nat), p < off → off ≤ k →
      nthI (propagateGo fuel ws p) k = nthI ws k := by
  induction fuel with
  | zero => intro ws p k _ _; rfl
  | succ n ih =>
    intro ws p k hp hk
    rw [propagateGo]
    by_cases hp0 : p = 0
    · simp [hp0]
    · simp only [hp0, if_false]
      rw [ih _ _ _ (by omega) hk, nthI_set]
      rw [if_neg]
      intro hx
      omega

theorem rebuildGo_length : ∀ (p : Nat) (ws : List Int),
    (rebuildGo p ws).length = ws.length := by
  intro p
  induction p with
  | zero => intro ws; rfl
  | succ n ih => intro ws; rw [rebuildGo, ih]; simp

theorem rebuildGo_leaf (off : Nat) : ∀ (p : Nat) (ws : List Int) (k : Nat),
    p < off → off ≤ k → nthI (rebuildGo p ws) k = nthI ws k := by
  intro p
  induction p with
  | zero => intro ws k _ _; rfl
  | succ n ih =>
    intro ws k hp hk
    rw [rebuildGo, ih _ _ (by omega) hk, nthI_set, if_neg]
    intro hx
    omega

theorem nthI_append_right (A B : List Int) (j : Nat) :
    nthI (A ++ B) (A.length + j) = nthI B j := by
  unfold nthI
  rw [List.getD_eq_getElem?_getD, List.getD_eq_getElem?_getD,
    List.getElem?_append_right (by omega)]
  have hj : A.length + j - A.length = j := by omega
  rw [hj]

theorem nth_append_right (A B : List Nat) (j : Nat) :
    nth (A ++ B) (A.length + j) = nth B j := by
  unfold nth
  rw [List.getD_eq_getElem?_getD, List.getD_eq_getElem?_getD,
    List.getElem?_append_right (by omega)]
  have hj : A.length + j - A.length = j := by omega
  rw [hj]

theorem nthI_append_left (A B : List Int) (j : Nat) (h : j < A.length) :
    nthI (A ++ B) j = nthI A j := by
  unfold nthI
  rw [List.getD_eq_getElem?_getD, List.getD_eq_getElem?_getD,
    List.getElem?_append_left h]

theorem nth_append_left (A B : List Nat) (j : Nat) (h : j < A.length) :
    nth (A ++ B) j = nth A j := by
  unfold nth
  rw [List.getD_eq_getElem?_getD, List.getD_eq_getElem?_getD,
    List.getElem?_append_left h]

theorem nthI_drop (A : List Int) (off j : Nat) :
    nthI (A.drop off) j = nthI A (off + j) := by
  unfold nthI
  rw [List.getD_eq_getElem?_getD, List.getD_eq_getElem?_getD,
    List.getElem?_drop]

theorem nth_drop (A : List Nat) (off j : Nat) :
    nth (A.drop off) j = nth A (off + j) := by
  unfold nth
  rw [List.getD_eq_getElem?_getD, List.getD_eq_getElem?_getD,
    List.getElem?_drop]

end Wheels

namespace Wheels

/-- Well-formedness of a demand wheel: a positive power-of-two layout with
`size` occupied leaves, every hash entry naming an occupied slot, distinct
elements in distinct slots, no element hashed twice, the elems array agreeing
with the hash, and every occupied slot hashed by some element. -/
def WF (st : DemandWheel) : Prop :=
  0 < st.offset ∧ st.weights.length = 2 * st.offset ∧
  st.elems.length = 2 * st.offset ∧ st.size ≤ st.offset ∧
  (∀ p ∈ st.hash, p.2 < st.size) ∧
  (∀ p ∈ st.hash, ∀ q ∈ st.hash, p.2 = q.2 → p.1 = q.1) ∧
  ((st.hash.map Prod.fst).Nodup) ∧
  (∀ p ∈ st.hash, nth st.elems (st.offset + p.2) = p.1) ∧
  (∀ j < st.size, ∃ k, (k, j) ∈ st.hash)

theorem WF_new (k : Nat) : WF (NewDemandWheel k) := by
  refine ⟨Nat.succ_pos _, by simp [NewDemandWheel]; ring, by
    simp [NewDemandWheel]; ring, by simp [NewDemandWheel], ?_, ?_, ?_, ?_, ?_⟩
  · intro p hp
    simp [NewDemandWheel] at hp
  · intro p hp
    simp [NewDemandWheel] at hp
  · simp [NewDemandWheel]
  · intro p hp
    simp [NewDemandWheel] at hp
  · intro j hj
    simp [NewDemandWheel] at hj

theorem hashFind_insert_self (h : List (Nat × Nat)) (k v : Nat) :
    hashFind (hashInsert h k v) k = some v := by
  rw [hashFind, hashInsert, List.find?]
  simp

theorem find?_filter_ne (k k' : Nat) (hne : k' ≠ k) : ∀ h : List (Nat × Nat),
    (h.filter (fun p => decide (p.1 ≠ k))).find? (fun p => p.1 == k') =
      h.find? (fun p => p.1 == k') := by
  intro h
  induction h with
  | nil => rfl
  | cons a rest ih =>
    by_cases hak : a.1 = k
    · rw [List.filter_cons, if_neg (by simp [hak]), List.find?_cons_of_neg _
        (by simp [hak]; exact fun hx => hne hx.symm), ih]
    · rw [List.filter_cons, if_pos (by simp [hak])]
      by_cases hak' : a.1 = k'
      · rw [List.find?_cons_of_pos _ (by simp [hak']),
          List.find?_cons_of_pos _ (by simp [hak'])]
      · rw [List.find?_cons_of_neg _ (by simp [hak']),
          List.find?_cons_of_neg _ (by simp [hak']), ih]

theorem hashFind_insert_other (h : List (Nat × Nat)) (k v k' : Nat)
    (hne : k' ≠ k) :
    hashFind (hashInsert h k v) k' = hashFind h k' := by
  rw [hashFind, hashInsert, List.find?_cons_of_neg _
      (by intro hx; simp at hx; exact hne hx.symm),
    find?_filter_ne k k' hne, hashFind]

theorem hashFind_mem {h : List (Nat × Nat)} {k i : Nat}
    (hf : hashFind h k = some i) : (k, i) ∈ h := by
  rw [hashFind] at hf
  cases hfind : h.find? (fun p => p.1 == k) with
  | none => rw [hfind] at hf; simp at hf
  | some p =>
    rw [hfind] at hf
    simp at hf
    have hmem := List.mem_of_find?_eq_some hfind
    have hpred := List.find?_some hfind
    simp only [beq_iff_eq] at hpred
    have : p = (k, i) := by
      cases p
      simp only at hpred hf
      rw [hpred, hf]
    rw [← this]
    exact hmem

theorem hashInsert_mem {h : List (Nat × Nat)} {k v : Nat} {p : Nat × Nat}
    (hp : p ∈ hashInsert h k v) : p = (k, v) ∨ p ∈ h := by
  rw [hashInsert] at hp
  rcases List.mem_cons.mp hp with hx | hx
  · exact Or.inl hx
  · exact Or.inr (List.mem_of_mem_filter hx)

theorem hashFind_eq_none {h : List (Nat × Nat)} {k : Nat}
    (hf : hashFind h k = none) : ∀ p ∈ h, p.1 ≠ k := by
  rw [hashFind, Option.map_eq_none'] at hf
  intro p hp hpk
  have := List.find?_eq_none.mp hf p hp
  simp [hpk] at this

theorem hashErase_mem {h : List (Nat × Nat)} {k : Nat} {p : Nat × Nat}
    (hp : p ∈ hashErase h k) : p ∈ h ∧ p.1 ≠ k := by
  rw [hashErase] at hp
  refine ⟨List.mem_of_mem_filter hp, ?_⟩
  have := List.of_mem_filter hp
  simpa using this

theorem hashFind_erase_self (h : List (Nat × Nat)) (k : Nat) :
    hashFind (hashErase h k) k = none := by
  rw [hashFind, Option.map_eq_none', List.find?_eq_none]
  intro p hp
  have := (hashErase_mem hp).2
  simpa using this

theorem hashFind_erase_other (h : List (Nat × Nat)) (k k' : Nat)
    (hne : k' ≠ k) : hashFind (hashErase h k) k' = hashFind h k' := by
  rw [hashFind, hashErase, find?_filter_ne k k' hne, hashFind]

theorem hashErase_of_mem {h : List (Nat × Nat)} {k : Nat} {p : Nat × Nat}
    (hp : p ∈ h) (hpk : p.1 ≠ k) : p ∈ hashErase h k := by
  rw [hashErase]
  exact List.mem_filter.mpr ⟨hp, by simpa using hpk⟩

/-- Keys of a filtered hash stay nodup. -/
theorem keys_filter_nodup {h : List (Nat × Nat)}
    (hk : (h.map Prod.fst).Nodup) (q : Nat × Nat → Bool) :
    ((h.filter q).map Prod.fst).Nodup :=
  List.Nodup.sublist (List.Sublist.map Prod.fst (List.filter_sublist h)) hk

end Wheels

namespace Wheels

theorem grow_spec {st : DemandWheel} (h : WF st) :
    WF st.grow ∧ st.grow.offset = 2 * st.offset ∧
    st.grow.size = st.size ∧ st.grow.hash = st.hash ∧
    (∀ j < st.offset, nthI st.grow.weights (st.grow.offset + j) =
      nthI st.weights (st.offset + j)) ∧
    (∀ j < st.offset, nth st.grow.elems (st.grow.offset + j) =
      nth st.elems (st.offset + j)) := by
  obtain ⟨hpos, hwlen, helen, hsize, hslots, hinj, hkeys, hcoh, hsurj⟩ := h
  have hoff : st.grow.offset = 2 * st.offset := by
    show st.weights.length = 2 * st.offset
    exact hwlen
  have hdroplen : (st.weights.drop st.offset).length = st.offset := by
    rw [List.length_drop, hwlen]; omega
  have hedroplen : (st.elems.drop st.offset).length = st.offset := by
    rw [List.length_drop, helen]; omega
  have hwlen' : st.grow.weights.length = 2 * st.grow.offset := by
    show (rebuildGo (st.weights.length - 1) _).length = _
    rw [rebuildGo_length]
    simp only [List.length_append, List.length_replicate, hdroplen, hwlen]
    omega
  have helen' : st.grow.elems.length = 2 * st.grow.offset := by
    show (List.replicate st.weights.length (0:Nat) ++ _ ++ _).length = _
    simp only [List.length_append, List.length_replicate, hedroplen, hwlen]
    omega
  have hleafW : ∀ j < st.offset, nthI st.grow.weights (st.grow.offset + j) =
      nthI st.weights (st.offset + j) := by
    intro j hj
    show nthI (rebuildGo (st.weights.length - 1)
      (List.replicate st.weights.length 0 ++ st.weights.drop st.offset ++
        List.replicate (st.weights.length - st.offset) 0))
      (st.weights.length + j) = _
    rw [rebuildGo_leaf st.weights.length _ _ _ (by omega) (by omega),
      List.append_assoc]
    have h1 := nthI_append_right (List.replicate st.weights.length 0)
      (st.weights.drop st.offset ++
        List.replicate (st.weights.length - st.offset) 0) j
    rw [List.length_replicate] at h1
    rw [h1, nthI_append_left _ _ _ (by omega), nthI_drop]
  have hleafE : ∀ j < st.offset, nth st.grow.elems (st.grow.offset + j) =
      nth st.elems (st.offset + j) := by
    intro j hj
    show nth (List.replicate st.weights.length 0 ++ st.elems.drop st.offset ++
      List.replicate (st.weights.length - st.offset) 0)
      (st.weights.length + j) = _
    rw [List.append_assoc]
    have h1 := nth_append_right (List.replicate st.weights.length 0)
      (st.elems.drop st.offset ++
        List.replicate (st.weights.length - st.offset) 0) j
    rw [List.length_replicate] at h1
    rw [h1, nth_append_left _ _ _ (by omega), nth_drop]
  refine ⟨⟨by omega, hwlen', helen', ?_, ?_, ?_, ?_, ?_, ?_⟩,
    hoff, rfl, rfl, hleafW, hleafE⟩
  · show st.size ≤ st.grow.offset
    omega
  · show ∀ p ∈ st.hash, p.2 < st.size
    exact hslots
  · show ∀ p ∈ st.hash, ∀ q ∈ st.hash, p.2 = q.2 → p.1 = q.1
    exact hinj
  · show (st.hash.map Prod.fst).Nodup
    exact hkeys
  · show ∀ p ∈ st.hash, nth st.grow.elems (st.grow.offset + p.2) = p.1
    intro p hp
    have hj : p.2 < st.size := hslots p hp
    rw [hleafE p.2 (by omega)]
    exact hcoh p hp
  · show ∀ j < st.size, ∃ k, (k, j) ∈ st.hash
    exact hsurj

end Wheels

namespace Wheels

theorem grow_get {st : DemandWheel} (h : WF st) (y : Nat) :
    st.grow.Get y = st.Get y := by
  obtain ⟨hwf, hoff, hsz, hhash, hleafW, _⟩ := grow_spec h
  rw [DemandWheel.Get, DemandWheel.Get, hhash]
  cases hfy : hashFind st.hash y with
  | none => rfl
  | some j =>
    have hj : j < st.size := h.2.2.2.2.1 _ (hashFind_mem hfy)
    have hjo : j < st.offset := by
      have := h.2.2.2.1
      omega
    exact hleafW j hjo

theorem update_get {st : DemandWheel} (h : WF st) {x i : Nat}
    (hfind : hashFind st.hash x = some i) (w : Int) (y : Nat) :
    (st.update i w).Get y = if y = x then w else st.Get y := by
  obtain ⟨hpos, hwlen, helen, hsize, hslots, hinj, hkeys, hcoh, hsurj⟩ := h
  have hi : i < st.size := hslots _ (hashFind_mem hfind)
  have hup : st.update i w =
      { st with
          weights := propagateGo (st.offset + i)
            (st.weights.set (st.offset + i) w) ((st.offset + i) / 2) } := rfl
  rw [hup, DemandWheel.Get, DemandWheel.Get]
  by_cases hyx : y = x
  · subst hyx
    rw [if_pos rfl]
    show (match hashFind st.hash y with
      | some j => nthI (propagateGo (st.offset + i)
          (st.weights.set (st.offset + i) w) ((st.offset + i) / 2))
          (st.offset + j)
      | none => 0) = w
    rw [hfind]
    show nthI (propagateGo (st.offset + i)
      (st.weights.set (st.offset + i) w) ((st.offset + i) / 2))
      (st.offset + i) = w
    rw [propagateGo_leaf st.offset _ _ _ _ (by omega) (by omega), nthI_set,
      if_pos ⟨rfl, by omega⟩]
  · rw [if_neg hyx]
    cases hfy : hashFind st.hash y with
    | none => rfl
    | some j =>
      have hj : j < st.size := hslots _ (hashFind_mem hfy)
      have hji : j ≠ i := by
        intro hx
        exact hyx (hinj _ (hashFind_mem hfy) _ (hashFind_mem hfind)
          (by rw [hx]))
      show nthI (propagateGo (st.offset + i)
        (st.weights.set (st.offset + i) w) ((st.offset + i) / 2))
        (st.offset + j) = nthI st.weights (st.offset + j)
      rw [propagateGo_leaf st.offset _ _ _ _ (by omega) (by omega), nthI_set,
        if_neg]
      intro hx
      omega

theorem update_wf {st : DemandWheel} (h : WF st) (i : Nat) (w : Int) :
    WF (st.update i w) := by
  obtain ⟨hpos, hwlen, helen, hsize, hslots, hinj, hkeys, hcoh, hsurj⟩ := h
  refine ⟨hpos, ?_, helen, hsize, hslots, hinj, hkeys, hcoh, hsurj⟩
  show (propagateGo (st.offset + i)
    (st.weights.set (st.offset + i) w) ((st.offset + i) / 2)).length =
      2 * st.offset
  rw [propagateGo_length]
  simp [hwlen]

end Wheels

namespace Wheels

/-- The state `insert` works on after the optional grow: well-formed, same
hash and size and reads, and with a free leaf slot. -/
theorem insert_stage1 {st : DemandWheel} (h : WF st) :
    WF (if st.offset + st.size = st.weights.length then st.grow else st) ∧
    (if st.offset + st.size = st.weights.length then st.grow else st).hash =
      st.hash ∧
    (if st.offset + st.size = st.weights.length then st.grow else st).size =
      st.size ∧
    (∀ y, (if st.offset + st.size = st.weights.length then st.grow
      else st).Get y = st.Get y) ∧
    (if st.offset + st.size = st.weights.length then st.grow else st).offset +
      (if st.offset + st.size = st.weights.length then st.grow else st).size <
      (if st.offset + st.size = st.weights.length then st.grow
        else st).weights.length := by
  by_cases hg : st.offset + st.size = st.weights.length
  · obtain ⟨hwf, hoff, hsz, hhash, _, _⟩ := grow_spec h
    simp only [hg, if_true]
    refine ⟨hwf, hhash, hsz, fun y => grow_get h y, ?_⟩
    have h1 := h.1
    have h2 := h.2.2.2.1
    have h3 := hwf.2.1
    omega
  · simp only [hg, if_false]
    refine ⟨h, trivial, trivial, fun _ => trivial, ?_⟩
    have h1 := h.1
    have h2 := h.2.1
    have h3 := h.2.2.2.1
    omega

theorem insert_spec {st : DemandWheel} (h : WF st) (x : Nat)
    (hfind : hashFind st.hash x = none) (w : Int) :
    WF (st.insert x w) ∧
    ∀ y, (st.insert x w).Get y = if y = x then w else st.Get y := by
  obtain ⟨hwf1, hhash1, hsize1, hget1, hroom⟩ := insert_stage1 h
  set st1 := if st.offset + st.size = st.weights.length then st.grow else st
  obtain ⟨hpos1, hwlen1, helen1, hsz1, hslots1, hinj1, hkeys1, hcoh1, hsurj1⟩ :=
    hwf1
  have hszlt : st1.size < st1.offset := by omega
  have hins : st.insert x w =
      DemandWheel.propagate
        { st1 with
            weights := st1.weights.set (st1.offset + st1.size) w,
            elems := st1.elems.set (st1.offset + st1.size) x,
            hash := hashInsert st1.hash x st1.size,
            size := st1.size + 1 }
        (st1.offset + st1.size) := rfl
  have hlen2 : (propagateGo (st1.offset + st1.size)
      (st1.weights.set (st1.offset + st1.size) w)
      ((st1.offset + st1.size) / 2)).length = 2 * st1.offset := by
    rw [propagateGo_length]
    simp [hwlen1]
  have hfind1 : hashFind st1.hash x = none := by rw [hhash1]; exact hfind
  constructor
  · rw [hins]
    refine ⟨hpos1, hlen2, ?_, ?_, ?_, ?_, ?_, ?_, ?_⟩
    · show (st1.elems.set (st1.offset + st1.size) x).length = 2 * st1.offset
      rw [List.length_set]
      exact helen1
    · show st1.size + 1 ≤ st1.offset
      omega
    · intro p hp
      rcases hashInsert_mem hp with rfl | hp'
      · show st1.size < st1.size + 1
        omega
      · have := hslots1 p hp'
        show p.2 < st1.size + 1
        omega
    · intro p hp q hq hpq
      rcases hashInsert_mem hp with rfl | hp' <;>
        rcases hashInsert_mem hq with rfl | hq'
      · rfl
      · have := hslots1 q hq'
        refine absurd hpq ?_
        show ¬(st1.size = q.2)
        omega
      · have := hslots1 p hp'
        refine absurd hpq ?_
        show ¬(p.2 = st1.size)
        omega
      · exact hinj1 p hp' q hq' hpq
    · show ((hashInsert st1.hash x st1.size).map Prod.fst).Nodup
      rw [hashInsert, List.map_cons, List.nodup_cons]
      refine ⟨?_, keys_filter_nodup hkeys1 _⟩
      intro hx
      obtain ⟨p, hp, hpx⟩ := List.mem_map.mp hx
      have := (hashErase_mem hp).2
      exact this hpx
    · intro p hp
      rcases hashInsert_mem hp with rfl | hp'
      · show nth (st1.elems.set (st1.offset + st1.size) x)
          (st1.offset + st1.size) = x
        rw [nth_set, if_pos ⟨rfl, by omega⟩]
      · have hj := hslots1 p hp'
        show nth (st1.elems.set (st1.offset + st1.size) x)
          (st1.offset + p.2) = p.1
        rw [nth_set, if_neg (by intro hx; omega)]
        exact hcoh1 p hp'
    · intro j hj
      replace hj : j < st1.size + 1 := hj
      by_cases hjs : j = st1.size
      · subst hjs
        exact ⟨x, by rw [hashInsert]; exact List.mem_cons_self _ _⟩
      · obtain ⟨k, hk⟩ := hsurj1 j (by omega)
        refine ⟨k, ?_⟩
        rw [hashInsert]
        apply List.mem_cons_of_mem
        apply List.mem_filter.mpr
        refine ⟨hk, ?_⟩
        have := hashFind_eq_none hfind1 _ hk
        simpa using this
  · intro y
    rw [hins]
    by_cases hyx : y = x
    · subst hyx
      rw [if_pos rfl, DemandWheel.Get]
      show (match hashFind (hashInsert st1.hash y st1.size) y with
        | some j => nthI (propagateGo (st1.offset + st1.size)
            (st1.weights.set (st1.offset + st1.size) w)
            ((st1.offset + st1.size) / 2)) (st1.offset + j)
        | none => 0) = w
      rw [hashFind_insert_self]
      show nthI (propagateGo (st1.offset + st1.size)
        (st1.weights.set (st1.offset + st1.size) w)
        ((st1.offset + st1.size) / 2)) (st1.offset + st1.size) = w
      rw [propagateGo_leaf st1.offset _ _ _ _ (by omega) (by omega), nthI_set,
        if_pos ⟨rfl, by omega⟩]
    · rw [if_neg hyx, ← hget1 y, DemandWheel.Get, DemandWheel.Get]
      show (match hashFind (hashInsert st1.hash x st1.size) y with
        | some j => nthI (propagateGo (st1.offset + st1.size)
            (st1.weights.set (st1.offset + st1.size) w)
            ((st1.offset + st1.size) / 2)) (st1.offset + j)
        | none => 0) = _
      rw [hashFind_insert_other _ _ _ _ hyx]
      cases hfy : hashFind st1.hash y with
      | none => rfl
      | some j =>
        have hj : j < st1.size := hslots1 _ (hashFind_mem hfy)
        show nthI (propagateGo (st1.offset + st1.size)
          (st1.weights.set (st1.offset + st1.size) w)
          ((st1.offset + st1.size) / 2)) (st1.offset + j) =
            nthI st1.weights (st1.offset + j)
        rw [propagateGo_leaf st1.offset _ _ _ _ (by omega) (by omega),
          nthI_set, if_neg]
        intro hx
        omega

theorem put_spec {st : DemandWheel} (h : WF st) (x : Nat) (w : Int) :
    WF (st.Put x w) ∧
    ∀ y, (st.Put x w).Get y = if y = x then w else st.Get y := by
  rw [DemandWheel.Put]
  cases hf : hashFind st.hash x with
  | some i => exact ⟨update_wf h i w, fun y => update_get h hf w y⟩
  | none => exact ⟨(insert_spec h x hf w).1, (insert_spec h x hf w).2⟩

end Wheels

namespace Solver

/-- The demand-wheel effect of one `registerStep`, at the list level. -/
def wheelPut (i : Nat) (bw : Int) (W : List Wheels.DemandWheel)
    (er : Srte.EdgeRatio) : List Wheels.DemandWheel :=
  W.set er.edge ((W.getD er.edge default).Put i (Srte.SplitLoad bw er.ratio))

theorem registerStep_demandWheels (i : Nat) (bw : Int)
    (l : LinkGuidedSolver) (er : Srte.EdgeRatio) :
    (registerStep i bw l er).demandWheels = wheelPut i bw l.demandWheels er :=
  rfl

theorem foldl_registerStep (i : Nat) (bw : Int) (ers : List Srte.EdgeRatio) :
    ∀ l : LinkGuidedSolver,
      (ers.foldl (registerStep i bw) l).demandWheels =
        ers.foldl (wheelPut i bw) l.demandWheels := by
  induction ers with
  | nil => intro l; rfl
  | cons er rest ih =>
    intro l
    rw [List.foldl_cons, List.foldl_cons, ih, registerStep_demandWheels]

theorem foldl_register_outer (fg : Srte.FGraphs)
    (ps : List (Nat × Srte.Demand)) :
    ∀ l : LinkGuidedSolver,
      (ps.foldl (fun l p => (fg.EdgeRatios p.2.dFrom p.2.dTo).foldl
        (registerStep p.1 p.2.bandwidth) l) l).demandWheels =
      ps.foldl (fun W p => (fg.EdgeRatios p.2.dFrom p.2.dTo).foldl
        (wheelPut p.1 p.2.bandwidth) W) l.demandWheels := by
  induction ps with
  | nil => intro l; rfl
  | cons p rest ih =>
    intro l
    rw [List.foldl_cons, List.foldl_cons, ih, foldl_registerStep]

theorem set_replicate_self {α : Type} (a : α) :
    ∀ (n i : Nat), (List.replicate n a).set i a = List.replicate n a := by
  intro n
  induction n with
  | zero => intro i; rfl
  | succ m ih =>
    intro i
    cases i with
    | zero => simp [List.replicate_succ]
    | succ j => simp [List.replicate_succ, ih]

theorem foldl_initEdgeStep_demandWheels (pw : ℚ → ℚ → ℚ) (n : Nat) :
    ∀ (es : List Nat) (l : LinkGuidedSolver),
      l.demandWheels = List.replicate n (Wheels.NewDemandWheel 16) →
      (es.foldl (initEdgeStep pw) l).demandWheels =
        List.replicate n (Wheels.NewDemandWheel 16) := by
  intro es
  induction es with
  | nil => intro l h; exact h
  | cons e rest ih =>
    intro l h
    rw [List.foldl_cons]
    apply ih
    show l.demandWheels.set e (Wheels.NewDemandWheel 16) = _
    rw [h, set_replicate_self]

theorem wheelPut_get (i : Nat) (bw : Int) (W : List Wheels.DemandWheel)
    (er : Srte.EdgeRatio) (hwf : ∀ w ∈ W, Wheels.WF w)
    (he : er.edge < W.length) :
    (∀ w ∈ wheelPut i bw W er, Wheels.WF w) ∧
    (wheelPut i bw W er).length = W.length ∧
    (∀ e, e ≠ er.edge →
      (wheelPut i bw W er).getD e default = W.getD e default) ∧
    ((wheelPut i bw W er).getD er.edge default).Get i =
      Srte.SplitLoad bw er.ratio ∧
    (∀ i', i' ≠ i → ∀ e,
      ((wheelPut i bw W er).getD e default).Get i' =
        (W.getD e default).Get i') := by
  have hw0 : Wheels.WF (W.getD er.edge default) := by
    rcases getD_mem W er.edge default with h | h
    · rw [h]; exact Wheels.WF_new 0
    · exact hwf _ h
  obtain ⟨hputwf, hputget⟩ :=
    Wheels.put_spec hw0 i (Srte.SplitLoad bw er.ratio)
  refine ⟨?_, List.length_set _ _ _, ?_, ?_, ?_⟩
  · intro w hw
    rcases List.mem_or_eq_of_mem_set hw with hw' | rfl
    · exact hwf _ hw'
    · exact hputwf
  · intro e hne
    rw [wheelPut, getD_set, if_neg]
    intro hx
    exact hne hx.1.symm
  · rw [wheelPut, getD_set, if_pos ⟨rfl, he⟩, hputget, if_pos rfl]
  · intro i' hi' e
    by_cases hee : e = er.edge
    · subst hee
      rw [wheelPut, getD_set, if_pos ⟨rfl, he⟩, hputget, if_neg hi']
    · rw [wheelPut, getD_set, if_neg]
      intro hx
      exact hee hx.1.symm

end Solver

namespace Solver

theorem inner_register (i : Nat) (bw : Int) :
    ∀ (ers : List Srte.EdgeRatio) (W : List Wheels.DemandWheel),
      (∀ w ∈ W, Wheels.WF w) →
      (∀ er ∈ ers, er.edge < W.length) →
      ((ers.map fun er => er.edge).Nodup) →
      (∀ w ∈ ers.foldl (wheelPut i bw) W, Wheels.WF w) ∧
      (ers.foldl (wheelPut i bw) W).length = W.length ∧
      (∀ e, e ∉ ers.map (fun er => er.edge) →
        (ers.foldl (wheelPut i bw) W).getD e default = W.getD e default) ∧
      (∀ er ∈ ers,
        ((ers.foldl (wheelPut i bw) W).getD er.edge default).Get i =
          Srte.SplitLoad bw er.ratio) ∧
      (∀ i', i' ≠ i → ∀ e,
        ((ers.foldl (wheelPut i bw) W).getD e default).Get i' =
          (W.getD e default).Get i') := by
  intro ers
  induction ers with
  | nil =>
    intro W hwf hb hnd
    exact ⟨hwf, rfl, fun e _ => rfl, by simp, fun i' _ e => rfl⟩
  | cons er rest ih =>
    intro W hwf hb hnd
    obtain ⟨hwf1, hlen1, hother1, hgeti1, hkey1⟩ :=
      wheelPut_get i bw W er hwf (hb er (by simp))
    have hbrest : ∀ x ∈ rest, x.edge < (wheelPut i bw W er).length := by
      rw [hlen1]
      intro x hx
      exact hb x (List.mem_cons_of_mem er hx)
    rw [List.map_cons] at hnd
    obtain ⟨hnder, hndrest⟩ := List.nodup_cons.mp hnd
    obtain ⟨ihwf, ihlen, ihother, ihget, ihkey⟩ :=
      ih (wheelPut i bw W er) hwf1 hbrest hndrest
    rw [List.foldl_cons]
    refine ⟨ihwf, by rw [ihlen, hlen1], ?_, ?_, ?_⟩
    · intro e he
      have he1 : e ∉ rest.map fun x => x.edge := by
        intro hx
        exact he (by simp; right; simpa using hx)
      have he2 : e ≠ er.edge := by
        intro hx
        exact he (by simp [hx])
      rw [ihother e he1, hother1 e he2]
    · intro x hx
      rcases List.mem_cons.mp hx with rfl | hx'
      · rw [ihother x.edge hnder, hgeti1]
      · exact ihget x hx'
    · intro i' hi' e
      rw [ihkey i' hi' e, hkey1 i' hi' e]

theorem outer_register (fg : Srte.FGraphs) :
    ∀ (ps : List (Nat × Srte.Demand)) (W : List Wheels.DemandWheel),
      (∀ w ∈ W, Wheels.WF w) →
      (∀ p ∈ ps, ∀ er ∈ fg.EdgeRatios p.2.dFrom p.2.dTo,
        er.edge < W.length) →
      (∀ p ∈ ps,
        (((fg.EdgeRatios p.2.dFrom p.2.dTo).map fun er => er.edge).Nodup)) →
      ((ps.map Prod.fst).Nodup) →
      (∀ p ∈ ps, ∀ er ∈ fg.EdgeRatios p.2.dFrom p.2.dTo,
        ((ps.foldl (fun W q => (fg.EdgeRatios q.2.dFrom q.2.dTo).foldl
            (wheelPut q.1 q.2.bandwidth) W) W).getD er.edge default).Get p.1 =
          Srte.SplitLoad p.2.bandwidth er.ratio) ∧
      (∀ i', i' ∉ ps.map Prod.fst → ∀ e,
        ((ps.foldl (fun W q => (fg.EdgeRatios q.2.dFrom q.2.dTo).foldl
            (wheelPut q.1 q.2.bandwidth) W) W).getD e default).Get i' =
          (W.getD e default).Get i') ∧
      (∀ p ∈ ps, ∀ e,
        e ∉ ((fg.EdgeRatios p.2.dFrom p.2.dTo).map fun er => er.edge) →
        ((ps.foldl (fun W q => (fg.EdgeRatios q.2.dFrom q.2.dTo).foldl
            (wheelPut q.1 q.2.bandwidth) W) W).getD e default).Get p.1 =
          (W.getD e default).Get p.1) ∧
      (∀ w ∈ ps.foldl (fun W q => (fg.EdgeRatios q.2.dFrom q.2.dTo).foldl
          (wheelPut q.1 q.2.bandwidth) W) W, Wheels.WF w) ∧
      (ps.foldl (fun W q => (fg.EdgeRatios q.2.dFrom q.2.dTo).foldl
          (wheelPut q.1 q.2.bandwidth) W) W).length = W.length := by
  intro ps
  induction ps with
  | nil =>
    intro W hwf hb hnd hkeys
    exact ⟨by simp, fun i' _ e => rfl, by simp, hwf, rfl⟩
  | cons p rest ih =>
    intro W hwf hb hnd hkeys
    obtain ⟨iwf, ilen, iother, iget, ikey⟩ :=
      inner_register p.1 p.2.bandwidth (fg.EdgeRatios p.2.dFrom p.2.dTo) W
        hwf (hb p (by simp)) (hnd p (by simp))
    have hbrest : ∀ q ∈ rest, ∀ er ∈ fg.EdgeRatios q.2.dFrom q.2.dTo,
        er.edge < ((fg.EdgeRatios p.2.dFrom p.2.dTo).foldl
          (wheelPut p.1 p.2.bandwidth) W).length := by
      rw [ilen]
      intro q hq er her
      exact hb q (List.mem_cons_of_mem p hq) er her
    rw [List.map_cons] at hkeys
    obtain ⟨hp1, hkeysrest⟩ := List.nodup_cons.mp hkeys
    obtain ⟨ihget, ihkey, ihoff, ihwf, ihlen⟩ := ih _ iwf hbrest
      (fun q hq => hnd q (List.mem_cons_of_mem p hq)) hkeysrest
    rw [List.foldl_cons]
    refine ⟨?_, ?_, ?_, ihwf, ihlen.trans ilen⟩
    · intro q hq er her
      rcases List.mem_cons.mp hq with rfl | hq'
      · rw [ihkey q.1 hp1 er.edge, iget er her]
      · exact ihget q hq' er her
    · intro i' hi' e
      have hi1 : i' ∉ rest.map Prod.fst := by
        intro hx
        exact hi' (by simp; right; simpa using hx)
      have hi2 : i' ≠ p.1 := by
        intro hx
        exact hi' (by simp [hx])
      rw [ihkey i' hi1 e, ikey i' hi2 e]
    · intro q hq e hqe
      rcases List.mem_cons.mp hq with rfl | hq'
      · rw [ihkey q.1 hp1 e, iother e hqe]
      · have hq1 : q.1 ≠ p.1 := by
          intro hx
          exact hp1 (hx ▸ List.mem_map_of_mem Prod.fst hq')
        rw [ihoff q hq' e hqe, ikey q.1 hq1 e]

end Solver

/-- General initialization property of the solver's demand wheels: after
`NewLinkGuidedSolver`, the weight stored for demand `i` on each edge of its
forwarding graph is the raw split-load traffic `SplitLoad(bandwidth, ratio)`
(hypotheses: the forwarding table names in-range edges, and no demand's
ratio list repeats an edge). -/
theorem lgs_init_weights (state : Srte.SRTE) (cfg : Solver.Config)
    (pw : ℚ → ℚ → ℚ)
    (hb : state.fgraphs.Bounded state.inst.graph.Edges.length)
    (hnd : ∀ d ∈ state.inst.demands,
      (((state.fgraphs.EdgeRatios d.dFrom d.dTo).map fun er => er.edge).Nodup))
    (i : Nat) (hi : i < state.inst.demands.length) (er : Srte.EdgeRatio)
    (her : er ∈ state.fgraphs.EdgeRatios
      (state.inst.demands.getD i default).dFrom
      (state.inst.demands.getD i default).dTo) :
    (((Solver.NewLinkGuidedSolver state cfg pw).demandWheels.getD er.edge
        default).Get i) =
      Srte.SplitLoad (state.inst.demands.getD i default).bandwidth er.ratio := by
  have hdw : (Solver.NewLinkGuidedSolver state cfg pw).demandWheels =
      state.inst.demands.enum.foldl
        (fun W q => (state.fgraphs.EdgeRatios q.2.dFrom q.2.dTo).foldl
          (Solver.wheelPut q.1 q.2.bandwidth) W)
        (List.replicate state.inst.graph.Edges.length
          (Wheels.NewDemandWheel 16)) := by
    rw [Solver.NewLinkGuidedSolver]
    rw [Solver.foldl_register_outer]
    congr 1
    exact Solver.foldl_initEdgeStep_demandWheels pw
      state.inst.graph.Edges.length
      (List.range state.inst.graph.Edges.length) _ rfl
  have hW : ∀ w ∈ List.replicate state.inst.graph.Edges.length
      (Wheels.NewDemandWheel 16), Wheels.WF w := by
    intro w hw
    rw [List.eq_of_mem_replicate hw]
    exact Wheels.WF_new 16
  have hbnd : ∀ p ∈ state.inst.demands.enum,
      ∀ e ∈ state.fgraphs.EdgeRatios p.2.dFrom p.2.dTo,
        e.edge < (List.replicate state.inst.graph.Edges.length
          (Wheels.NewDemandWheel 16)).length := by
    intro p hp e hep
    rw [List.length_replicate]
    exact Srte.bounded_edgeRatios hb _ _ e hep
  have hndp : ∀ p ∈ state.inst.demands.enum,
      (((state.fgraphs.EdgeRatios p.2.dFrom p.2.dTo).map
        fun er => er.edge).Nodup) := by
    intro p hp
    apply hnd
    have hsnd := List.enumFrom_map_snd 0 state.inst.demands
    rw [← hsnd]
    exact List.mem_map_of_mem Prod.snd hp
  have hkeys : (state.inst.demands.enum.map Prod.fst).Nodup := by
    show (List.map Prod.fst (List.enumFrom 0 state.inst.demands)).Nodup
    rw [List.enumFrom_map_fst]
    exact List.nodup_range' 0 state.inst.demands.length
  have hmem : (i, state.inst.demands.getD i default) ∈
      state.inst.demands.enum := by
    rw [List.mk_mem_enum_iff_getElem?, List.getElem?_eq_getElem hi]
    rw [List.getD_eq_getElem state.inst.demands default hi]
  rw [hdw]
  exact (Solver.outer_register state.fgraphs state.inst.demands.enum _
    hW hbnd hndp hkeys).1 (i, state.inst.demands.getD i default) hmem er her

/-- A one-edge instance: nodes 0 → 1, capacity 20, one demand `(0, 1, 10)`
on the direct path (persisted load 10). -/
def c5SRTE : Srte.SRTE :=
  { fgraphs := { edgesRatios := [[[], [⟨0, 1⟩]], [[], []]] },
    pathVar := [⟨[0, 1, 0, 0], 2⟩],
    inst := { graph := { Nexts := [[0], []], Edges := [⟨0, 1, 1⟩] },
              maxPathNodes := 4, demands := [⟨0, 1, 10⟩],
              linkCapacities := [20] },
    state := { loads := [10], changes := [], savedAt := [0], timestamp := 1 } }

/-- C5 (counterexample to the original claim): on `c5SRTE` with Beta = 2,
the weight the initialization (here with `pw a b = a` standing for
`math.Pow`, which the demand wheels never consult) stores for demand 0 on
edge 0 is the raw split-load traffic (10), not
`(load/capacity)^Beta = (10/20)^2 = 1/4`: the solver never raises anything
to Beta (solver.go:165 documents Beta as ignored; solver.go:208 stores
`srte.SplitLoad(d.Bandwidth, er.Ratio)` directly). -/
theorem c5_counterexample :
    ¬ ((((Solver.NewLinkGuidedSolver c5SRTE { Alpha := 1, Beta := 2 }
          (fun a _ => a)).demandWheels.getD 0 default).Get 0 : ℚ) =
        ((Srte.SplitLoad 10 1 : ℚ) /
          (nthI c5SRTE.inst.linkCapacities 0 : ℚ)) ^ (2 : ℕ)) := by
  have h := lgs_init_weights c5SRTE { Alpha := 1, Beta := 2 } (fun a _ => a)
    (by decide) (by decide) 0 (by decide) ⟨0, 1⟩
    (by simp [c5SRTE, Srte.FGraphs.EdgeRatios])
  intro hcon
  rw [h] at hcon
  norm_num [Srte.SplitLoad, c5SRTE, nthI] at hcon

namespace Wheels

/-- With nodup keys, entries are determined by their key. -/
theorem keys_nodup_eq {h : List (Nat × Nat)}
    (hk : (h.map Prod.fst).Nodup) :
    ∀ p ∈ h, ∀ q ∈ h, p.1 = q.1 → p = q := by
  induction h with
  | nil => simp
  | cons a t ih =>
    rw [List.map_cons, List.nodup_cons] at hk
    intro p hp q hq hpq
    rcases List.mem_cons.mp hp with rfl | hp' <;>
      rcases List.mem_cons.mp hq with rfl | hq'
    · rfl
    · exact absurd (hpq ▸ List.mem_map_of_mem Prod.fst hq') hk.1
    · exact absurd (hpq ▸ List.mem_map_of_mem Prod.fst hp') hk.1
    · exact ih hk.2 p hp' q hq' hpq

/-- With nodup keys, membership determines the lookup. -/
theorem hashFind_of_mem {h : List (Nat × Nat)}
    (hk : (h.map Prod.fst).Nodup) {k j : Nat} (hm : (k, j) ∈ h) :
    hashFind h k = some j := by
  cases hf : hashFind h k with
  | none => exact absurd rfl (hashFind_eq_none hf _ hm)
  | some j' =>
    have := keys_nodup_eq hk _ (hashFind_mem hf) _ hm rfl
    rw [Prod.mk.injEq] at this
    rw [this.2]

theorem hashInsert_mem' {h : List (Nat × Nat)} {k v : Nat} {p : Nat × Nat}
    (hp : p ∈ hashInsert h k v) : p = (k, v) ∨ (p ∈ h ∧ p.1 ≠ k) := by
  rw [hashInsert] at hp
  rcases List.mem_cons.mp hp with hx | hx
  · exact Or.inl hx
  · refine Or.inr ⟨List.mem_of_mem_filter hx, ?_⟩
    have := List.of_mem_filter hx
    simpa using this

theorem hashInsert_of_mem {h : List (Nat × Nat)} {k v : Nat} {p : Nat × Nat}
    (hp : p ∈ h) (hpk : p.1 ≠ k) : p ∈ hashInsert h k v := by
  rw [hashInsert]
  exact List.mem_cons_of_mem _ (List.mem_filter.mpr ⟨hp, by simpa using hpk⟩)

end Wheels

namespace Wheels

theorem remove_spec {st : DemandWheel} (h : WF st) (x : Nat) :
    WF (st.Remove x) ∧
    ∀ y, (st.Remove x).Get y = if y = x then 0 else st.Get y := by
  cases hfx : hashFind st.hash x with
  | none =>
    have hrem : st.Remove x = st := by
      simp only [DemandWheel.Remove, hfx]
    rw [hrem]
    refine ⟨h, ?_⟩
    intro y
    by_cases hyx : y = x
    · subst hyx
      rw [if_pos rfl]
      simp only [DemandWheel.Get, hfx]
    · rw [if_neg hyx]
  | some i =>
    obtain ⟨hpos, hwlen, helen, hsize, hslots, hinj, hkeys, hcoh, hsurj⟩ := h
    have hmemx : (x, i) ∈ st.hash := hashFind_mem hfx
    have hi : i < st.size := hslots _ hmemx
    by_cases hil : i = st.size - 1
    · -- the removed element sits in the last slot: no swap
      have hrem : st.Remove x =
          { offset := st.offset, size := st.size - 1,
            weights := propagateGo (st.offset + (st.size - 1))
              (st.weights.set (st.offset + (st.size - 1)) 0)
              ((st.offset + (st.size - 1)) / 2),
            elems := st.elems,
            hash := hashErase st.hash x } := by
        simp only [DemandWheel.Remove, DemandWheel.propagate, hfx]
        rw [if_neg (by omega)]
      rw [hrem]
      constructor
      · refine ⟨hpos, ?_, helen, ?_, ?_, ?_, ?_, ?_, ?_⟩
        · show (propagateGo _ _ _).length = 2 * st.offset
          rw [propagateGo_length, List.length_set]
          exact hwlen
        · show st.size - 1 ≤ st.offset
          omega
        · intro p hp
          obtain ⟨hph, hpx⟩ := hashErase_mem hp
          have h1 := hslots p hph
          have hne : p.2 ≠ i := fun hx =>
            hpx (hinj p hph (x, i) hmemx (by rw [hx]))
          show p.2 < st.size - 1
          omega
        · exact fun p hp q hq =>
            hinj p (hashErase_mem hp).1 q (hashErase_mem hq).1
        · exact keys_filter_nodup hkeys _
        · exact fun p hp => hcoh p (hashErase_mem hp).1
        · intro j hj
          replace hj : j < st.size - 1 := hj
          obtain ⟨k, hk⟩ := hsurj j (by omega)
          have hkx : k ≠ x := by
            intro hx
            have := keys_nodup_eq hkeys _ hk _ hmemx (by rw [hx])
            rw [Prod.mk.injEq] at this
            omega
          exact ⟨k, hashErase_of_mem hk hkx⟩
      · intro y
        by_cases hyx : y = x
        · subst hyx
          rw [if_pos rfl]
          simp only [DemandWheel.Get, hashFind_erase_self]
        · rw [if_neg hyx, DemandWheel.Get, DemandWheel.Get]
          show (match hashFind (hashErase st.hash x) y with
            | some j => nthI (propagateGo (st.offset + (st.size - 1))
                (st.weights.set (st.offset + (st.size - 1)) 0)
                ((st.offset + (st.size - 1)) / 2)) (st.offset + j)
            | none => 0) = _
          rw [hashFind_erase_other _ _ _ hyx]
          cases hfy : hashFind st.hash y with
          | none => rfl
          | some j =>
            have hjmem := hashFind_mem hfy
            have hj : j < st.size := hslots _ hjmem
            have hji : j ≠ i := fun hx =>
              hyx (hinj _ hjmem _ hmemx (by rw [hx]))
            show nthI (propagateGo (st.offset + (st.size - 1))
              (st.weights.set (st.offset + (st.size - 1)) 0)
              ((st.offset + (st.size - 1)) / 2)) (st.offset + j) =
                nthI st.weights (st.offset + j)
            rw [propagateGo_leaf st.offset _ _ _ _ (by omega) (by omega),
              nthI_set, if_neg (by intro hx; omega)]
    · -- swap the last slot's element into the removed slot
      have hlast : st.size - 1 < st.size := by omega
      obtain ⟨k0, hk0⟩ := hsurj (st.size - 1) hlast
      have hy0 : nth st.elems (st.offset + (st.size - 1)) = k0 := hcoh _ hk0
      have hy0x : nth st.elems (st.offset + (st.size - 1)) ≠ x := by
        rw [hy0]
        intro hx
        subst hx
        have := keys_nodup_eq hkeys _ hk0 _ hmemx rfl
        rw [Prod.mk.injEq] at this
        omega
      have hrem : st.Remove x =
          { offset := st.offset, size := st.size - 1,
            weights := propagateGo (st.offset + (st.size - 1))
              ((propagateGo (st.offset + i)
                (st.weights.set (st.offset + i)
                  (nthI st.weights (st.offset + (st.size - 1))))
                ((st.offset + i) / 2)).set (st.offset + (st.size - 1)) 0)
              ((st.offset + (st.size - 1)) / 2),
            elems := st.elems.set (st.offset + i)
              (nth st.elems (st.offset + (st.size - 1))),
            hash := hashInsert (hashErase st.hash x)
              (nth st.elems (st.offset + (st.size - 1))) i } := by
        simp only [DemandWheel.Remove, DemandWheel.propagate, hfx]
        rw [if_pos (by omega)]
      have hleaf : ∀ j, j < st.offset →
          nthI (propagateGo (st.offset + (st.size - 1))
            ((propagateGo (st.offset + i)
              (st.weights.set (st.offset + i)
                (nthI st.weights (st.offset + (st.size - 1))))
              ((st.offset + i) / 2)).set (st.offset + (st.size - 1)) 0)
            ((st.offset + (st.size - 1)) / 2)) (st.offset + j) =
          if j = st.size - 1 then 0
          else if j = i then nthI st.weights (st.offset + (st.size - 1))
          else nthI st.weights (st.offset + j) := by
        intro j hjoff
        rw [propagateGo_leaf st.offset _ _ _ _ (by omega) (by omega), nthI_set]
        by_cases hj1 : j = st.size - 1
        · rw [if_pos ⟨by omega, by
            rw [propagateGo_length, List.length_set, hwlen]; omega⟩,
            if_pos hj1]
        · rw [if_neg (by intro hx; omega), if_neg hj1,
            propagateGo_leaf st.offset _ _ _ _ (by omega) (by omega), nthI_set]
          by_cases hj2 : j = i
          · rw [if_pos ⟨by omega, by rw [hwlen]; omega⟩, if_pos hj2]
          · rw [if_neg (by intro hx; omega), if_neg hj2]
      rw [hrem]
      constructor
      · refine ⟨hpos, ?_, ?_, ?_, ?_, ?_, ?_, ?_, ?_⟩
        · show (propagateGo _ _ _).length = 2 * st.offset
          rw [propagateGo_length, List.length_set, propagateGo_length,
            List.length_set]
          exact hwlen
        · show (st.elems.set _ _).length = 2 * st.offset
          rw [List.length_set]
          exact helen
        · show st.size - 1 ≤ st.offset
          omega
        · intro p hp
          rcases hashInsert_mem' hp with rfl | ⟨hp', hpy0⟩
          · show i < st.size - 1
            omega
          · obtain ⟨hph, hpx⟩ := hashErase_mem hp'
            have h1 := hslots p hph
            have hne : p.2 ≠ st.size - 1 := by
              intro hx
              exact hpy0 ((hinj p hph _ hk0 (by rw [hx])).trans hy0.symm)
            show p.2 < st.size - 1
            omega
        · intro p hp q hq hpq
          rcases hashInsert_mem' hp with rfl | ⟨hp', hpy0⟩ <;>
            rcases hashInsert_mem' hq with rfl | ⟨hq', hqy0⟩
          · rfl
          · obtain ⟨hqh, hqx⟩ := hashErase_mem hq'
            exact absurd (hinj q hqh (x, i) hmemx (by rw [← hpq])).symm
              (Ne.symm hqx)
          · obtain ⟨hph, hpx⟩ := hashErase_mem hp'
            exact absurd (hinj p hph (x, i) hmemx (by rw [hpq])) hpx
          · exact hinj p (hashErase_mem hp').1 q (hashErase_mem hq').1 hpq
        · show ((hashInsert _ _ _).map Prod.fst).Nodup
          rw [hashInsert, List.map_cons, List.nodup_cons]
          refine ⟨?_, keys_filter_nodup (keys_filter_nodup hkeys _) _⟩
          intro hx
          obtain ⟨p, hp, hpx⟩ := List.mem_map.mp hx
          have := List.of_mem_filter hp
          simp at this
          exact this hpx
        · intro p hp
          rcases hashInsert_mem' hp with rfl | ⟨hp', hpy0⟩
          · show nth (st.elems.set (st.offset + i) _) (st.offset + i) = _
            rw [nth_set, if_pos ⟨rfl, by rw [helen]; omega⟩]
          · obtain ⟨hph, hpx⟩ := hashErase_mem hp'
            have hpi : p.2 ≠ i := fun hx =>
              hpx (hinj p hph (x, i) hmemx (by rw [hx]))
            show nth (st.elems.set (st.offset + i) _) (st.offset + p.2) = p.1
            rw [nth_set, if_neg (by intro hx; omega)]
            exact hcoh p hph
        · intro j hj
          replace hj : j < st.size - 1 := hj
          by_cases hji : j = i
          · subst hji
            exact ⟨nth st.elems (st.offset + (st.size - 1)), by
              rw [hashInsert]; exact List.mem_cons_self _ _⟩
          · obtain ⟨k, hk⟩ := hsurj j (by omega)
            have hkx : k ≠ x := by
              intro hx
              have := keys_nodup_eq hkeys _ hk _ hmemx (by rw [hx])
              rw [Prod.mk.injEq] at this
              omega
            have hky0 : k ≠ nth st.elems (st.offset + (st.size - 1)) := by
              rw [hy0]
              intro hx
              have := keys_nodup_eq hkeys _ hk _ hk0 (by rw [hx])
              rw [Prod.mk.injEq] at this
              omega
            exact ⟨k, hashInsert_of_mem (hashErase_of_mem hk hkx) hky0⟩
      · intro y
        by_cases hyx : y = x
        · subst hyx
          rw [if_pos rfl, DemandWheel.Get,
            hashFind_insert_other _ _ _ _ (Ne.symm hy0x), hashFind_erase_self]
        · rw [if_neg hyx]
          by_cases hyy0 : y = nth st.elems (st.offset + (st.size - 1))
          · subst hyy0
            rw [DemandWheel.Get, hashFind_insert_self]
            show nthI (propagateGo (st.offset + (st.size - 1))
              ((propagateGo (st.offset + i)
                (st.weights.set (st.offset + i)
                  (nthI st.weights (st.offset + (st.size - 1))))
                ((st.offset + i) / 2)).set (st.offset + (st.size - 1)) 0)
              ((st.offset + (st.size - 1)) / 2)) (st.offset + i) =
              st.Get (nth st.elems (st.offset + (st.size - 1)))
            rw [hleaf i (by omega), if_neg (by omega), if_pos rfl,
              DemandWheel.Get, hashFind_of_mem hkeys (hy0 ▸ hk0)]
          · rw [DemandWheel.Get, hashFind_insert_other _ _ _ _ hyy0,
              hashFind_erase_other _ _ _ hyx]
            cases hfy : hashFind st.hash y with
            | none =>
              rw [DemandWheel.Get, hfy]
            | some j =>
              have hjmem := hashFind_mem hfy
              have hj : j < st.size := hslots _ hjmem
              have hji : j ≠ i := fun hx =>
                hyx (hinj _ hjmem _ hmemx (by rw [hx]))
              have hjl : j ≠ st.size - 1 := by
                intro hx
                exact hyy0 ((hinj _ hjmem _ hk0 (by rw [hx])).trans hy0.symm)
              rw [DemandWheel.Get, hfy]
              show nthI (propagateGo (st.offset + (st.size - 1))
                ((propagateGo (st.offset + i)
                  (st.weights.set (st.offset + i)
                    (nthI st.weights (st.offset + (st.size - 1))))
                  ((st.offset + i) / 2)).set (st.offset + (st.size - 1)) 0)
                ((st.offset + (st.size - 1)) / 2)) (st.offset + j) =
                nthI st.weights (st.offset + j)
              rw [hleaf j (by omega), if_neg hjl, if_neg hji]

end Wheels

namespace Paths

theorem nth_take (l : List Nat) (t k : Nat) :
    nth (l.take t) k = if k < t then nth l k else 0 := by
  unfold nth
  rw [List.getD_eq_getElem?_getD, List.getD_eq_getElem?_getD,
    List.getElem?_take]
  by_cases h : k < t
  · rw [if_pos h, if_pos h]
  · rw [if_neg h, if_neg h]
    rfl

theorem nth_cons_zero (a : Nat) (l : List Nat) : nth (a :: l) 0 = a := rfl

theorem nth_cons_succ (a : Nat) (l : List Nat) (k : Nat) :
    nth (a :: l) (k + 1) = nth l k := rfl

theorem nodes_length (p : PathVar) (hlp : p.length ≤ p.path.length) :
    p.Nodes.length = p.length := by
  rw [PathVar.Nodes, List.length_take]
  omega

theorem nth_nodes (p : PathVar) (k : Nat) :
    nth p.Nodes k = if k < p.length then p.Node k else 0 := by
  rw [PathVar.Nodes, PathVar.Node, nth_take]

theorem clear_nodes (p : PathVar) (hc : p.CanClear = true)
    (hlp : p.length ≤ p.path.length) :
    (p.Clear).1.Nodes = [p.Node 0, p.Node (p.length - 1)] := by
  rw [PathVar.CanClear] at hc
  have hlen : 2 < p.length := by simpa using hc
  rw [PathVar.Clear, if_neg (by simp [PathVar.CanClear]; omega)]
  apply nth_ext
  · show (((p.path.set 1 (nth p.path (p.length - 1)))).take 2).length = 2
    rw [List.length_take, List.length_set]
    omega
  · intro k
    show nth ((p.path.set 1 (nth p.path (p.length - 1))).take 2) k = _
    rw [nth_take]
    match k with
    | 0 =>
      rw [if_pos (by omega), nth_set, if_neg (by omega), nth_cons_zero,
        PathVar.Node]
    | 1 =>
      rw [if_pos (by omega), nth_set, if_pos ⟨rfl, by omega⟩, nth_cons_succ,
        nth_cons_zero, PathVar.Node]
    | k + 2 =>
      rw [if_neg (by omega)]
      rw [nth_cons_succ, nth_cons_succ, nth_eq_default _ _ (by simp)]

theorem update_nodes (p : PathVar) (pos n : Nat)
    (hc : p.CanUpdate pos n = true) :
    (p.Update pos n).1.Nodes = p.Nodes.set pos n := by
  rw [PathVar.Update, if_neg (by simp [hc])]
  show (p.path.set pos n).take p.length = (p.path.take p.length).set pos n
  exact List.set_take

theorem canUpdate_bounds (p : PathVar) (pos n : Nat)
    (hc : p.CanUpdate pos n = true) : 1 ≤ pos ∧ pos + 1 < p.length := by
  obtain ⟨h1, h2, _⟩ := (canUpdate_iff p pos n).mp hc
  exact ⟨by omega, by omega⟩

theorem canInsert_bounds (p : PathVar) (pos n : Nat)
    (hc : p.CanInsert pos n = true) (hlp : p.length ≤ p.path.length) :
    1 ≤ pos ∧ pos < p.length ∧ p.length < p.path.length := by
  obtain ⟨h0, h1, h2, _⟩ := (canInsert_iff p pos n).mp hc
  exact ⟨h1, h2, by omega⟩

theorem canRemove_bounds (p : PathVar) (pos : Nat)
    (hc : p.CanRemove pos = true) : 1 ≤ pos ∧ pos + 1 < p.length := by
  obtain ⟨h1, h2⟩ := (canRemove_iff p pos).mp hc
  exact ⟨by omega, by omega⟩

end Paths

namespace Paths

theorem insert_nodes (p : PathVar) (pos n : Nat)
    (hc : p.CanInsert pos n = true) (hlp : p.length ≤ p.path.length) :
    (p.Insert pos n).1.Nodes = p.Nodes.take pos ++ n :: p.Nodes.drop pos := by
  obtain ⟨hp1, hp2, hp3⟩ := canInsert_bounds p pos n hc hlp
  rw [PathVar.Insert, if_neg (by simp [hc])]
  have hNlen : p.Nodes.length = p.length := nodes_length p hlp
  apply nth_ext
  · show (((copyLoopDown p.path p.length pos).set pos n).take
      (p.length + 1)).length = _
    rw [List.length_take, List.length_set, copyLoopDown_length,
      List.length_append, List.length_take, List.length_cons,
      List.length_drop, hNlen]
    omega
  · intro k
    show nth (((copyLoopDown p.path p.length pos).set pos n).take
      (p.length + 1)) k = _
    rw [nth_take]
    by_cases hk : k < p.length + 1
    · rw [if_pos hk, nth_set, copyLoopDown_length]
      by_cases hkp : k = pos
      · rw [if_pos ⟨hkp.symm, by omega⟩]
        have h1 := Wheels.nth_append_right (p.Nodes.take pos)
          (n :: p.Nodes.drop pos) 0
        rw [List.length_take, hNlen, min_eq_left (by omega)] at h1
        rw [Nat.add_zero] at h1
        rw [hkp, h1, nth_cons_zero]
      · rw [if_neg (fun hx => hkp hx.1.symm), copyLoopDown_nth _ _ _
          (by omega)]
        by_cases hklt : k < pos
        · rw [if_neg (by omega),
            Wheels.nth_append_left _ _ _ (by rw [List.length_take]; omega),
            nth_take, if_pos (by omega), nth_nodes, if_pos (by omega),
            PathVar.Node]
        · -- pos < k ≤ length
          have hkgt : pos < k := by omega
          rw [if_pos ⟨hkgt, by omega⟩]
          have h1 := Wheels.nth_append_right (p.Nodes.take pos)
            (n :: p.Nodes.drop pos) (k - pos)
          rw [List.length_take, hNlen, min_eq_left (by omega)] at h1
          rw [show pos + (k - pos) = k from by omega] at h1
          rw [h1, show k - pos = (k - pos - 1) + 1 from by omega,
            nth_cons_succ, Wheels.nth_drop, nth_nodes,
            if_pos (by omega), PathVar.Node,
            show pos + (k - pos - 1) = k - 1 from by omega]
    · rw [if_neg hk, nth_eq_default]
      rw [List.length_append, List.length_take, List.length_cons,
        List.length_drop, hNlen]
      omega

theorem remove_nodes (p : PathVar) (pos : Nat)
    (hc : p.CanRemove pos = true) (hlp : p.length ≤ p.path.length) :
    (p.Remove pos).1.Nodes =
      if nth p.path (pos - 1) = nth p.path (pos + 1) then
        p.Nodes.take pos ++ p.Nodes.drop (pos + 2)
      else p.Nodes.take pos ++ p.Nodes.drop (pos + 1) := by
  obtain ⟨hp1, hp2⟩ := canRemove_bounds p pos hc
  rw [PathVar.Remove, if_neg (by simp [hc])]
  have hNlen : p.Nodes.length = p.length := nodes_length p hlp
  by_cases heq : nth p.path (pos - 1) = nth p.path (pos + 1)
  · rw [if_pos heq, if_pos heq]
    apply nth_ext
    · show ((copyLoop p.path pos (p.length - 2) 2).take (p.length - 2)).length
        = _
      rw [List.length_take, copyLoop_length, List.length_append,
        List.length_take, List.length_drop, hNlen]
      omega
    · intro k
      show nth ((copyLoop p.path pos (p.length - 2) 2).take (p.length - 2)) k
        = _
      rw [nth_take]
      by_cases hk : k < p.length - 2
      · rw [if_pos hk, copyLoop_nth _ _ _ _ (by omega)]
        by_cases hklt : k < pos
        · rw [if_neg (by omega),
            Wheels.nth_append_left _ _ _ (by rw [List.length_take]; omega),
            nth_take, if_pos (by omega), nth_nodes, if_pos (by omega),
            PathVar.Node]
        · rw [if_pos ⟨by omega, by omega⟩]
          have h1 := Wheels.nth_append_right (p.Nodes.take pos)
            (p.Nodes.drop (pos + 2)) (k - pos)
          rw [List.length_take, hNlen, min_eq_left (by omega)] at h1
          rw [show pos + (k - pos) = k from by omega] at h1
          rw [h1, Wheels.nth_drop, nth_nodes, if_pos (by omega),
            PathVar.Node, show pos + 2 + (k - pos) = k + 2 from by omega]
      · rw [if_neg hk, nth_eq_default]
        rw [List.length_append, List.length_take, List.length_drop, hNlen]
        omega
  · rw [if_neg heq, if_neg heq]
    apply nth_ext
    · show ((copyLoop p.path pos (p.length - 1) 1).take (p.length - 1)).length
        = _
      rw [List.length_take, copyLoop_length, List.length_append,
        List.length_take, List.length_drop, hNlen]
      omega
    · intro k
      show nth ((copyLoop p.path pos (p.length - 1) 1).take (p.length - 1)) k
        = _
      rw [nth_take]
      by_cases hk : k < p.length - 1
      · rw [if_pos hk, copyLoop_nth _ _ _ _ (by omega)]
        by_cases hklt : k < pos
        · rw [if_neg (by omega),
            Wheels.nth_append_left _ _ _ (by rw [List.length_take]; omega),
            nth_take, if_pos (by omega), nth_nodes, if_pos (by omega),
            PathVar.Node]
        · rw [if_pos ⟨by omega, by omega⟩]
          have h1 := Wheels.nth_append_right (p.Nodes.take pos)
            (p.Nodes.drop (pos + 1)) (k - pos)
          rw [List.length_take, hNlen, min_eq_left (by omega)] at h1
          rw [show pos + (k - pos) = k from by omega] at h1
          rw [h1, Wheels.nth_drop, nth_nodes, if_pos (by omega),
            PathVar.Node, show pos + 1 + (k - pos) = k + 1 from by omega]
      · rw [if_neg hk, nth_eq_default]
        rw [List.length_append, List.length_take, List.length_drop, hNlen]
        omega

end Paths

namespace Srte

/-- The split-load traffic that a list of edge ratios contributes to edge
`e`, for a demand of bandwidth `bw`. -/
def erContrib (ers : List EdgeRatio) (bw : Int) (e : Nat) : Int :=
  (ers.map (fun er => if er.edge = e then SplitLoad bw er.ratio else 0)).sum

/-- The split-load traffic that a demand of bandwidth `bw` routed along the
node sequence `nodes` contributes to edge `e`: one `EdgeRatios` lookup per
consecutive hop. -/
def pathContrib (fg : FGraphs) (bw : Int) (e : Nat) : List Nat → Int
  | [] => 0
  | [_] => 0
  | a :: b :: rest =>
    erContrib (fg.EdgeRatios a b) bw e + pathContrib fg bw e (b :: rest)

theorem pathContrib_cons₂ (fg : FGraphs) (bw : Int) (e : Nat) (a b : Nat)
    (rest : List Nat) :
    pathContrib fg bw e (a :: b :: rest) =
      erContrib (fg.EdgeRatios a b) bw e + pathContrib fg bw e (b :: rest) :=
  rfl

theorem SplitLoad_zero (r : ℚ) : SplitLoad 0 r = 0 := by
  simp [SplitLoad]

theorem erContrib_zero_bw (ers : List EdgeRatio) (e : Nat) :
    erContrib ers 0 e = 0 := by
  rw [erContrib]
  apply List.sum_eq_zero
  intro x hx
  obtain ⟨er, _, rfl⟩ := List.mem_map.mp hx
  by_cases h : er.edge = e
  · rw [if_pos h, SplitLoad_zero]
  · rw [if_neg h]

theorem pathContrib_zero_bw (fg : FGraphs) (e : Nat) :
    ∀ nodes : List Nat, pathContrib fg 0 e nodes = 0 := by
  intro nodes
  match nodes with
  | [] => rfl
  | [_] => rfl
  | a :: b :: rest =>
    rw [pathContrib_cons₂, erContrib_zero_bw, pathContrib_zero_bw fg e (b :: rest)]
    omega

theorem erContrib_out_of_range {ers : List EdgeRatio} {n : Nat}
    (hb : ∀ er ∈ ers, er.edge < n) {e : Nat} (he : n ≤ e) (bw : Int) :
    erContrib ers bw e = 0 := by
  rw [erContrib]
  apply List.sum_eq_zero
  intro x hx
  obtain ⟨er, her, rfl⟩ := List.mem_map.mp hx
  rw [if_neg]
  have := hb er her
  omega

theorem pathContrib_out_of_range {fg : FGraphs} {n : Nat}
    (hb : fg.Bounded n) {e : Nat} (he : n ≤ e) (bw : Int) :
    ∀ nodes : List Nat, pathContrib fg bw e nodes = 0 := by
  intro nodes
  match nodes with
  | [] => rfl
  | [_] => rfl
  | a :: b :: rest =>
    rw [pathContrib_cons₂,
      erContrib_out_of_range (bounded_edgeRatios hb a b) he,
      pathContrib_out_of_range hb he bw (b :: rest)]
    omega

theorem erContrib_nodup_mem {ers : List EdgeRatio}
    (hnd : (ers.map fun er => er.edge).Nodup) {er₀ : EdgeRatio}
    (hmem : er₀ ∈ ers) (bw : Int) :
    erContrib ers bw er₀.edge = SplitLoad bw er₀.ratio := by
  induction ers with
  | nil => simp at hmem
  | cons x rest ih =>
    rw [List.map_cons, List.nodup_cons] at hnd
    rw [erContrib, List.map_cons, List.sum_cons]
    rcases List.mem_cons.mp hmem with rfl | hmem'
    · rw [if_pos rfl]
      have hz : erContrib rest bw er₀.edge = 0 := by
        rw [erContrib]
        apply List.sum_eq_zero
        intro v hv
        obtain ⟨er, her, rfl⟩ := List.mem_map.mp hv
        rw [if_neg]
        intro hx
        exact hnd.1 (hx ▸ List.mem_map_of_mem (fun er => er.edge) her)
      rw [erContrib] at hz
      rw [hz]
      omega
    · have hne : ¬ x.edge = er₀.edge := by
        intro hx
        exact hnd.1 (hx ▸ List.mem_map_of_mem (fun er => er.edge) hmem')
      rw [if_neg hne]
      have hih := ih hnd.2 hmem'
      rw [erContrib] at hih
      rw [hih]
      omega

theorem erContrib_not_mem {ers : List EdgeRatio} {e : Nat}
    (he : e ∉ ers.map fun er => er.edge) (bw : Int) :
    erContrib ers bw e = 0 := by
  rw [erContrib]
  apply List.sum_eq_zero
  intro x hx
  obtain ⟨er, her, rfl⟩ := List.mem_map.mp hx
  rw [if_neg]
  intro hx
  exact he (hx ▸ List.mem_map_of_mem (fun er => er.edge) her)

theorem pathContrib_append (fg : FGraphs) (bw : Int) (e : Nat) :
    ∀ (l1 : List Nat) (a : Nat) (l2 : List Nat),
      pathContrib fg bw e (l1 ++ a :: l2) =
        pathContrib fg bw e (l1 ++ [a]) + pathContrib fg bw e (a :: l2) := by
  intro l1
  induction l1 with
  | nil =>
    intro a l2
    show pathContrib fg bw e (a :: l2) = pathContrib fg bw e [a] + _
    show pathContrib fg bw e (a :: l2) = 0 + _
    omega
  | cons x l1' ih =>
    intro a l2
    cases l1' with
    | nil =>
      show pathContrib fg bw e (x :: a :: l2) =
        pathContrib fg bw e (x :: [a]) + pathContrib fg bw e (a :: l2)
      rw [pathContrib_cons₂, pathContrib_cons₂]
      show _ = erContrib (fg.EdgeRatios x a) bw e + 0 + _
      omega
    | cons y l1'' =>
      show pathContrib fg bw e (x :: y :: (l1'' ++ a :: l2)) =
        pathContrib fg bw e (x :: y :: (l1'' ++ [a])) + _
      rw [pathContrib_cons₂, pathContrib_cons₂]
      have := ih a l2
      show erContrib (fg.EdgeRatios x y) bw e +
        pathContrib fg bw e ((y :: l1'') ++ a :: l2) = _
      rw [this]
      show _ = erContrib (fg.EdgeRatios x y) bw e +
        pathContrib fg bw e ((y :: l1'') ++ [a]) + _
      omega

theorem pathContrib_two (fg : FGraphs) (bw : Int) (e : Nat)
    (X : List Nat) (a b : Nat) (Y : List Nat) :
    pathContrib fg bw e (X ++ a :: b :: Y) =
      pathContrib fg bw e (X ++ [a]) + erContrib (fg.EdgeRatios a b) bw e +
      pathContrib fg bw e (b :: Y) := by
  rw [pathContrib_append fg bw e X a (b :: Y), pathContrib_cons₂]
  omega

theorem pathContrib_three (fg : FGraphs) (bw : Int) (e : Nat)
    (X : List Nat) (a b c : Nat) (Y : List Nat) :
    pathContrib fg bw e (X ++ a :: b :: c :: Y) =
      pathContrib fg bw e (X ++ [a]) + erContrib (fg.EdgeRatios a b) bw e +
      erContrib (fg.EdgeRatios b c) bw e + pathContrib fg bw e (c :: Y) := by
  rw [pathContrib_append fg bw e X a (b :: c :: Y), pathContrib_cons₂,
    pathContrib_cons₂]
  omega

theorem pathContrib_eq_sum (fg : FGraphs) (bw : Int) (e : Nat) :
    ∀ nodes : List Nat,
      pathContrib fg bw e nodes = ((List.range (nodes.length - 1)).map
        (fun j => erContrib (fg.EdgeRatios (nth nodes j) (nth nodes (j + 1)))
          bw e)).sum := by
  intro nodes
  match nodes with
  | [] => rfl
  | [_] => rfl
  | a :: b :: rest =>
    rw [pathContrib_cons₂, pathContrib_eq_sum fg bw e (b :: rest)]
    show _ = ((List.range (rest.length + 1)).map _).sum
    rw [List.range_succ_eq_map, List.map_cons, List.sum_cons, List.map_map]
    have hmap : ∀ j ∈ List.range rest.length,
        ((fun j => erContrib (fg.EdgeRatios (nth (a :: b :: rest) j)
          (nth (a :: b :: rest) (j + 1))) bw e) ∘ (· + 1)) j =
        (fun j => erContrib (fg.EdgeRatios (nth (b :: rest) j)
          (nth (b :: rest) (j + 1))) bw e) j := by
      intro j hj
      show erContrib (fg.EdgeRatios (nth (a :: b :: rest) (j + 1))
        (nth (a :: b :: rest) (j + 1 + 1))) bw e = _
      rw [Paths.nth_cons_succ, Paths.nth_cons_succ]
    rw [List.map_congr_left hmap]
    show erContrib (fg.EdgeRatios a b) bw e + _ =
      erContrib (fg.EdgeRatios (nth (a :: b :: rest) 0)
        (nth (a :: b :: rest) 1)) bw e + _
    rw [Paths.nth_cons_zero]
    show _ = erContrib (fg.EdgeRatios a (nth (a :: b :: rest) 1)) bw e + _
    rw [show nth (a :: b :: rest) 1 = b from rfl]
    simp [List.length_cons]

end Srte

theorem addLoad_loads (s : NetworkState) (edge : Nat) (load : Int) :
    (s.AddLoad edge load).loads =
      s.loads.set edge (nthI s.loads edge + load) := by
  rw [NetworkState.AddLoad]
  by_cases h : nth s.savedAt edge ≠ s.timestamp
  · rw [if_pos h]
    rfl
  · rw [if_neg h]
    rfl

theorem addLoad_delta (s : NetworkState) (edge : Nat) (load : Int)
    (he : edge < s.loads.length) (e : Nat) :
    nthI (s.AddLoad edge load).loads e =
      nthI s.loads e + if edge = e then load else 0 := by
  rw [addLoad_loads, nthI_set]
  by_cases h : edge = e
  · rw [if_pos ⟨h, he⟩, if_pos h]
    subst h
    omega
  · rw [if_neg (fun hc => h hc.1), if_neg h]
    omega

theorem foldl_addLoad_delta (f : Srte.EdgeRatio → Int) :
    ∀ (ers : List Srte.EdgeRatio) (ns : NetworkState),
      (∀ er ∈ ers, er.edge < ns.loads.length) →
      ((ers.foldl (fun st er => st.AddLoad er.edge (f er)) ns).loads.length =
        ns.loads.length ∧
       ∀ e, nthI ((ers.foldl (fun st er => st.AddLoad er.edge (f er)) ns).loads) e =
         nthI ns.loads e +
           (ers.map (fun er => if er.edge = e then f er else 0)).sum) := by
  intro ers
  induction ers with
  | nil =>
    intro ns _
    refine ⟨rfl, ?_⟩
    intro e
    simp
  | cons x rest ih =>
    intro ns hb
    have hx : x.edge < ns.loads.length := hb x (List.mem_cons_self x rest)
    have hlen := addLoad_loads_length ns x.edge (f x)
    have hb' : ∀ er ∈ rest, er.edge < (ns.AddLoad x.edge (f x)).loads.length := by
      intro er her
      rw [hlen]
      exact hb er (List.mem_cons_of_mem x her)
    obtain ⟨ihlen, ihget⟩ := ih (ns.AddLoad x.edge (f x)) hb'
    constructor
    · rw [List.foldl_cons, ihlen, hlen]
    · intro e
      rw [List.foldl_cons, ihget e, addLoad_delta ns x.edge (f x) hx e,
        List.map_cons, List.sum_cons]
      omega

theorem erContrib_cons (x : Srte.EdgeRatio) (rest : List Srte.EdgeRatio)
    (bw : Int) (e : Nat) :
    Srte.erContrib (x :: rest) bw e =
      (if x.edge = e then Srte.SplitLoad bw x.ratio else 0) +
        Srte.erContrib rest bw e := by
  rw [Srte.erContrib, Srte.erContrib, List.map_cons, List.sum_cons]

theorem erContrib_neg (ers : List Srte.EdgeRatio) (bw : Int) (e : Nat) :
    (ers.map (fun er =>
      if er.edge = e then -(Srte.SplitLoad bw er.ratio) else 0)).sum =
      - Srte.erContrib ers bw e := by
  induction ers with
  | nil => simp [Srte.erContrib]
  | cons x rest ih =>
    rw [List.map_cons, List.sum_cons, ih, erContrib_cons]
    by_cases h : x.edge = e
    · rw [if_pos h, if_pos h]
      ring
    · rw [if_neg h, if_neg h]
      ring

theorem addLoad_srte_delta (s : Srte.SRTE) (a b : Nat) (bw : Int)
    (hb : ∀ er ∈ s.fgraphs.EdgeRatios a b, er.edge < s.state.loads.length) :
    (s.addLoad a b bw).state.loads.length = s.state.loads.length ∧
    ∀ e, nthI (s.addLoad a b bw).state.loads e =
      nthI s.state.loads e + Srte.erContrib (s.fgraphs.EdgeRatios a b) bw e := by
  have h := foldl_addLoad_delta (fun er => Srte.SplitLoad bw er.ratio)
    (s.fgraphs.EdgeRatios a b) s.state hb
  refine ⟨h.1, ?_⟩
  intro e
  calc nthI (s.addLoad a b bw).state.loads e
      = nthI s.state.loads e + ((s.fgraphs.EdgeRatios a b).map
          (fun er => if er.edge = e then Srte.SplitLoad bw er.ratio else 0)).sum :=
        h.2 e
    _ = _ := by rw [Srte.erContrib]

theorem removeLoad_srte_delta (s : Srte.SRTE) (a b : Nat) (bw : Int)
    (hb : ∀ er ∈ s.fgraphs.EdgeRatios a b, er.edge < s.state.loads.length) :
    (s.removeLoad a b bw).state.loads.length = s.state.loads.length ∧
    ∀ e, nthI (s.removeLoad a b bw).state.loads e =
      nthI s.state.loads e - Srte.erContrib (s.fgraphs.EdgeRatios a b) bw e := by
  have h := foldl_addLoad_delta (fun er => -(Srte.SplitLoad bw er.ratio))
    (s.fgraphs.EdgeRatios a b) s.state hb
  refine ⟨h.1, ?_⟩
  intro e
  calc nthI (s.removeLoad a b bw).state.loads e
      = nthI s.state.loads e + ((s.fgraphs.EdgeRatios a b).map
          (fun er => if er.edge = e then -(Srte.SplitLoad bw er.ratio) else 0)).sum :=
        h.2 e
    _ = _ := by rw [erContrib_neg]; omega

theorem take_succ_nth (l : List Nat) (k : Nat) (h : k < l.length) :
    l.take (k + 1) = l.take k ++ [nth l k] := by
  rw [List.take_succ, List.getElem?_eq_getElem h]
  unfold nth
  rw [List.getD_eq_getElem _ _ h]
  rfl

theorem drop_eq_nth_cons (l : List Nat) (k : Nat) (h : k < l.length) :
    l.drop k = nth l k :: l.drop (k + 1) := by
  unfold nth
  rw [List.getD_eq_getElem _ _ h]
  exact List.drop_eq_getElem_cons h

theorem list_decomp₂ (l : List Nat) (k : Nat) (h : k + 1 < l.length) :
    l = l.take k ++ nth l k :: nth l (k + 1) :: l.drop (k + 2) := by
  conv_lhs => rw [← List.take_append_drop k l]
  rw [drop_eq_nth_cons l k (by omega), drop_eq_nth_cons l (k + 1) (by omega)]

theorem list_decomp₃ (l : List Nat) (k : Nat) (h : k + 2 < l.length) :
    l = l.take k ++
      nth l k :: nth l (k + 1) :: nth l (k + 2) :: l.drop (k + 3) := by
  conv_lhs => rw [← List.take_append_drop k l]
  rw [drop_eq_nth_cons l k (by omega), drop_eq_nth_cons l (k + 1) (by omega),
    drop_eq_nth_cons l (k + 2) (by omega)]

namespace Srte

/-- No forwarding graph routes a node to itself over a nonempty edge-ratio
list (`EdgeRatios a a` is empty for every node `a`). -/
def FGraphs.NoSelf (fg : FGraphs) : Prop := ∀ a, fg.EdgeRatios a a = []

theorem noSelf_iff_bounded (fg : FGraphs) :
    (∀ a < fg.edgesRatios.length, fg.EdgeRatios a a = []) ↔ fg.NoSelf := by
  constructor
  · intro h a
    by_cases ha : a < fg.edgesRatios.length
    · exact h a ha
    · rw [FGraphs.EdgeRatios, List.getD_eq_default fg.edgesRatios _ (by omega)]
      rfl
  · intro h a _
    exact h a

instance (fg : FGraphs) : Decidable fg.NoSelf :=
  decidable_of_iff _ (noSelf_iff_bounded fg)

theorem pathContrib_pair (fg : FGraphs) (bw : Int) (e : Nat) (a b : Nat) :
    pathContrib fg bw e [a, b] = erContrib (fg.EdgeRatios a b) bw e := by
  rw [pathContrib_cons₂]
  show _ + (0 : Int) = _
  omega

theorem foldl_removeLoad_idx_delta (fg : FGraphs) (bw : Int)
    (nodes : List Nat) :
    ∀ (idxs : List Nat) (s : SRTE), s.fgraphs = fg →
      fg.Bounded s.state.loads.length →
      ((idxs.foldl (fun st i =>
          st.removeLoad (nth nodes (i - 1)) (nth nodes i) bw) s).fgraphs = fg ∧
       (idxs.foldl (fun st i =>
          st.removeLoad (nth nodes (i - 1)) (nth nodes i) bw) s).pathVar =
         s.pathVar ∧
       (idxs.foldl (fun st i =>
          st.removeLoad (nth nodes (i - 1)) (nth nodes i) bw) s).inst =
         s.inst ∧
       (idxs.foldl (fun st i =>
          st.removeLoad (nth nodes (i - 1)) (nth nodes i) bw)
           s).state.loads.length = s.state.loads.length ∧
       ∀ e, nthI (idxs.foldl (fun st i =>
          st.removeLoad (nth nodes (i - 1)) (nth nodes i) bw) s).state.loads e =
         nthI s.state.loads e - (idxs.map (fun i =>
           erContrib (fg.EdgeRatios (nth nodes (i - 1)) (nth nodes i))
             bw e)).sum) := by
  intro idxs
  induction idxs with
  | nil =>
    intro s hfg _
    exact ⟨hfg, rfl, rfl, rfl, fun e => by simp⟩
  | cons i rest ih =>
    intro s hfg hb
    have hbe : ∀ er ∈ s.fgraphs.EdgeRatios (nth nodes (i - 1)) (nth nodes i),
        er.edge < s.state.loads.length := by
      rw [hfg]
      exact bounded_edgeRatios hb _ _
    obtain ⟨hlen1, hdel1⟩ :=
      removeLoad_srte_delta s (nth nodes (i - 1)) (nth nodes i) bw hbe
    have hfg1 :
        (s.removeLoad (nth nodes (i - 1)) (nth nodes i) bw).fgraphs = fg := hfg
    have hb1 : fg.Bounded
        (s.removeLoad (nth nodes (i - 1)) (nth nodes i) bw).state.loads.length := by
      rw [hlen1]
      exact hb
    obtain ⟨h1, h2, h3, h4, h5⟩ :=
      ih (s.removeLoad (nth nodes (i - 1)) (nth nodes i) bw) hfg1 hb1
    refine ⟨h1, h2, h3, h4.trans hlen1, ?_⟩
    intro e
    show nthI (rest.foldl (fun st i =>
        st.removeLoad (nth nodes (i - 1)) (nth nodes i) bw)
        (s.removeLoad (nth nodes (i - 1)) (nth nodes i) bw)).state.loads e = _
    rw [h5 e, hdel1 e, List.map_cons, List.sum_cons]
    have hfgr : s.fgraphs = fg := hfg
    rw [hfgr]
    omega

end Srte

namespace Srte

theorem erContrib_nil (bw : Int) (e : Nat) : erContrib [] bw e = 0 := rfl

theorem insert_loads_delta (s : SRTE) (demand pos n : Nat)
    (hb : s.fgraphs.Bounded s.state.loads.length)
    (hc : (s.pathVar.getD demand default).CanInsert pos n = true)
    (hlp : (s.pathVar.getD demand default).length ≤
      (s.pathVar.getD demand default).path.length) :
    (s.Insert demand pos n).2 = true ∧
    (s.Insert demand pos n).1.fgraphs = s.fgraphs ∧
    (s.Insert demand pos n).1.pathVar = s.pathVar ∧
    (s.Insert demand pos n).1.inst = s.inst ∧
    (s.Insert demand pos n).1.state.loads.length = s.state.loads.length ∧
    ∀ e, nthI (s.Insert demand pos n).1.state.loads e =
      nthI s.state.loads e +
      (pathContrib s.fgraphs (s.inst.demands.getD demand default).bandwidth e
        (((s.pathVar.getD demand default).Insert pos n).1.Nodes) -
       pathContrib s.fgraphs (s.inst.demands.getD demand default).bandwidth e
        ((s.pathVar.getD demand default).Nodes)) := by
  rw [SRTE.Insert]
  simp only [hc, Bool.not_true, Bool.false_eq_true, if_false]
  set p := s.pathVar.getD demand default with hp
  set bw := (s.inst.demands.getD demand default).bandwidth with hbw
  obtain ⟨hp1, hp2, hp3⟩ := Paths.canInsert_bounds p pos n hc hlp
  obtain ⟨k, rfl⟩ : ∃ k, pos = k + 1 := ⟨pos - 1, by omega⟩
  simp only [Nat.add_sub_cancel] at *
  set s1 := s.removeLoad (p.Node k) (p.Node (k + 1)) bw with hs1
  set s2 := s1.addLoad (p.Node k) n bw with hs2
  set s3 := s2.addLoad n (p.Node (k + 1)) bw with hs3
  obtain ⟨hL1, hd1⟩ := removeLoad_srte_delta s (p.Node k) (p.Node (k + 1)) bw
    (bounded_edgeRatios hb _ _)
  have hL1' : s1.state.loads.length = s.state.loads.length := hL1
  have hd1' : ∀ e, nthI s1.state.loads e = nthI s.state.loads e -
      erContrib (s.fgraphs.EdgeRatios (p.Node k) (p.Node (k + 1))) bw e := hd1
  have hbe2 : ∀ er ∈ s1.fgraphs.EdgeRatios (p.Node k) n,
      er.edge < s1.state.loads.length := by
    rw [hL1']
    exact bounded_edgeRatios hb _ _
  obtain ⟨hL2, hd2⟩ := addLoad_srte_delta s1 (p.Node k) n bw hbe2
  have hL2' : s2.state.loads.length = s1.state.loads.length := hL2
  have hd2' : ∀ e, nthI s2.state.loads e = nthI s1.state.loads e +
      erContrib (s.fgraphs.EdgeRatios (p.Node k) n) bw e := hd2
  have hbe3 : ∀ er ∈ s2.fgraphs.EdgeRatios n (p.Node (k + 1)),
      er.edge < s2.state.loads.length := by
    rw [hL2', hL1']
    exact bounded_edgeRatios hb _ _
  obtain ⟨hL3, hd3⟩ := addLoad_srte_delta s2 n (p.Node (k + 1)) bw hbe3
  have hL3' : s3.state.loads.length = s2.state.loads.length := hL3
  have hd3' : ∀ e, nthI s3.state.loads e = nthI s2.state.loads e +
      erContrib (s.fgraphs.EdgeRatios n (p.Node (k + 1))) bw e := hd3
  refine ⟨trivial, rfl, rfl, rfl, hL3'.trans (hL2'.trans hL1'), ?_⟩
  intro e
  rw [hd3' e, hd2' e, hd1' e]
  have hNlen : p.Nodes.length = p.length := Paths.nodes_length p hlp
  have hnthk : nth p.Nodes k = p.Node k := by
    rw [Paths.nth_nodes, if_pos (by omega)]
  have hnthk1 : nth p.Nodes (k + 1) = p.Node (k + 1) := by
    rw [Paths.nth_nodes, if_pos (by omega)]
  have hold : p.Nodes = p.Nodes.take k ++
      p.Node k :: p.Node (k + 1) :: p.Nodes.drop (k + 2) := by
    conv_lhs => rw [list_decomp₂ p.Nodes k (by omega)]
    rw [hnthk, hnthk1]
  have hnew : ((p.Insert (k + 1) n).1.Nodes) = p.Nodes.take k ++
      p.Node k :: n :: p.Node (k + 1) :: p.Nodes.drop (k + 2) := by
    rw [Paths.insert_nodes p (k + 1) n hc hlp,
      take_succ_nth p.Nodes k (by omega), hnthk,
      drop_eq_nth_cons p.Nodes (k + 1) (by omega), hnthk1,
      List.append_assoc]
    rfl
  have hpcold : pathContrib s.fgraphs bw e p.Nodes =
      pathContrib s.fgraphs bw e (p.Nodes.take k ++ [p.Node k]) +
      erContrib (s.fgraphs.EdgeRatios (p.Node k) (p.Node (k + 1))) bw e +
      pathContrib s.fgraphs bw e (p.Node (k + 1) :: p.Nodes.drop (k + 2)) := by
    conv_lhs => rw [hold]
    rw [pathContrib_two]
  have hpcnew : pathContrib s.fgraphs bw e ((p.Insert (k + 1) n).1.Nodes) =
      pathContrib s.fgraphs bw e (p.Nodes.take k ++ [p.Node k]) +
      erContrib (s.fgraphs.EdgeRatios (p.Node k) n) bw e +
      erContrib (s.fgraphs.EdgeRatios n (p.Node (k + 1))) bw e +
      pathContrib s.fgraphs bw e (p.Node (k + 1) :: p.Nodes.drop (k + 2)) := by
    rw [hnew, pathContrib_three]
  rw [hpcold, hpcnew]
  omega

end Srte

namespace Srte

theorem update_loads_delta (s : SRTE) (demand pos n : Nat)
    (hb : s.fgraphs.Bounded s.state.loads.length)
    (hc : (s.pathVar.getD demand default).CanUpdate pos n = true)
    (hlp : (s.pathVar.getD demand default).length ≤
      (s.pathVar.getD demand default).path.length) :
    (s.Update demand pos n).2 = true ∧
    (s.Update demand pos n).1.fgraphs = s.fgraphs ∧
    (s.Update demand pos n).1.pathVar = s.pathVar ∧
    (s.Update demand pos n).1.inst = s.inst ∧
    (s.Update demand pos n).1.state.loads.length = s.state.loads.length ∧
    ∀ e, nthI (s.Update demand pos n).1.state.loads e =
      nthI s.state.loads e +
      (pathContrib s.fgraphs (s.inst.demands.getD demand default).bandwidth e
        (((s.pathVar.getD demand default).Update pos n).1.Nodes) -
       pathContrib s.fgraphs (s.inst.demands.getD demand default).bandwidth e
        ((s.pathVar.getD demand default).Nodes)) := by
  rw [SRTE.Update]
  simp only [hc, Bool.not_true, Bool.false_eq_true, if_false]
  set p := s.pathVar.getD demand default with hp
  set bw := (s.inst.demands.getD demand default).bandwidth with hbw
  obtain ⟨hp1, hp2⟩ := Paths.canUpdate_bounds p pos n hc
  obtain ⟨k, rfl⟩ : ∃ k, pos = k + 1 := ⟨pos - 1, by omega⟩
  simp only [Nat.add_sub_cancel] at *
  set s1 := s.removeLoad (p.Node k) (p.Node (k + 1)) bw with hs1
  set s2 := s1.removeLoad (p.Node (k + 1)) (p.Node (k + 1 + 1)) bw with hs2
  set s3 := s2.addLoad (p.Node k) n bw with hs3
  set s4 := s3.addLoad n (p.Node (k + 1 + 1)) bw with hs4
  obtain ⟨hL1, hd1⟩ := removeLoad_srte_delta s (p.Node k) (p.Node (k + 1)) bw
    (bounded_edgeRatios hb _ _)
  have hL1' : s1.state.loads.length = s.state.loads.length := hL1
  have hd1' : ∀ e, nthI s1.state.loads e = nthI s.state.loads e -
      erContrib (s.fgraphs.EdgeRatios (p.Node k) (p.Node (k + 1))) bw e := hd1
  have hbe2 : ∀ er ∈ s1.fgraphs.EdgeRatios (p.Node (k + 1)) (p.Node (k + 1 + 1)),
      er.edge < s1.state.loads.length := by
    rw [hL1']
    exact bounded_edgeRatios hb _ _
  obtain ⟨hL2, hd2⟩ := removeLoad_srte_delta s1 (p.Node (k + 1))
    (p.Node (k + 1 + 1)) bw hbe2
  have hL2' : s2.state.loads.length = s1.state.loads.length := hL2
  have hd2' : ∀ e, nthI s2.state.loads e = nthI s1.state.loads e -
      erContrib (s.fgraphs.EdgeRatios (p.Node (k + 1)) (p.Node (k + 1 + 1)))
        bw e := hd2
  have hbe3 : ∀ er ∈ s2.fgraphs.EdgeRatios (p.Node k) n,
      er.edge < s2.state.loads.length := by
    rw [hL2', hL1']
    exact bounded_edgeRatios hb _ _
  obtain ⟨hL3, hd3⟩ := addLoad_srte_delta s2 (p.Node k) n bw hbe3
  have hL3' : s3.state.loads.length = s2.state.loads.length := hL3
  have hd3' : ∀ e, nthI s3.state.loads e = nthI s2.state.loads e +
      erContrib (s.fgraphs.EdgeRatios (p.Node k) n) bw e := hd3
  have hbe4 : ∀ er ∈ s3.fgraphs.EdgeRatios n (p.Node (k + 1 + 1)),
      er.edge < s3.state.loads.length := by
    rw [hL3', hL2', hL1']
    exact bounded_edgeRatios hb _ _
  obtain ⟨hL4, hd4⟩ := addLoad_srte_delta s3 n (p.Node (k + 1 + 1)) bw hbe4
  have hL4' : s4.state.loads.length = s3.state.loads.length := hL4
  have hd4' : ∀ e, nthI s4.state.loads e = nthI s3.state.loads e +
      erContrib (s.fgraphs.EdgeRatios n (p.Node (k + 1 + 1))) bw e := hd4
  refine ⟨trivial, rfl, rfl, rfl,
    hL4'.trans (hL3'.trans (hL2'.trans hL1')), ?_⟩
  intro e
  rw [hd4' e, hd3' e, hd2' e, hd1' e]
  have hNlen : p.Nodes.length = p.length := Paths.nodes_length p hlp
  have hnthk : nth p.Nodes k = p.Node k := by
    rw [Paths.nth_nodes, if_pos (by omega)]
  have hnthk1 : nth p.Nodes (k + 1) = p.Node (k + 1) := by
    rw [Paths.nth_nodes, if_pos (by omega)]
  have hnthk2 : nth p.Nodes (k + 2) = p.Node (k + 2) := by
    rw [Paths.nth_nodes, if_pos (by omega)]
  have hold : p.Nodes = p.Nodes.take k ++
      p.Node k :: p.Node (k + 1) :: p.Node (k + 2) :: p.Nodes.drop (k + 3) := by
    conv_lhs => rw [list_decomp₃ p.Nodes k (by omega)]
    rw [hnthk, hnthk1, hnthk2]
  have hnew : ((p.Update (k + 1) n).1.Nodes) = p.Nodes.take k ++
      p.Node k :: n :: p.Node (k + 2) :: p.Nodes.drop (k + 3) := by
    rw [Paths.update_nodes p (k + 1) n hc, List.set_eq_take_append_cons_drop,
      if_pos (show k + 1 < p.Nodes.length by omega),
      take_succ_nth p.Nodes k (by omega), hnthk,
      drop_eq_nth_cons p.Nodes (k + 2) (by omega), hnthk2,
      List.append_assoc]
    rfl
  have hpcold : pathContrib s.fgraphs bw e p.Nodes =
      pathContrib s.fgraphs bw e (p.Nodes.take k ++ [p.Node k]) +
      erContrib (s.fgraphs.EdgeRatios (p.Node k) (p.Node (k + 1))) bw e +
      erContrib (s.fgraphs.EdgeRatios (p.Node (k + 1)) (p.Node (k + 2))) bw e +
      pathContrib s.fgraphs bw e (p.Node (k + 2) :: p.Nodes.drop (k + 3)) := by
    conv_lhs => rw [hold]
    rw [pathContrib_three]
  have hpcnew : pathContrib s.fgraphs bw e ((p.Update (k + 1) n).1.Nodes) =
      pathContrib s.fgraphs bw e (p.Nodes.take k ++ [p.Node k]) +
      erContrib (s.fgraphs.EdgeRatios (p.Node k) n) bw e +
      erContrib (s.fgraphs.EdgeRatios n (p.Node (k + 2))) bw e +
      pathContrib s.fgraphs bw e (p.Node (k + 2) :: p.Nodes.drop (k + 3)) := by
    rw [hnew, pathContrib_three]
  rw [hpcold, hpcnew]
  have hidx : k + 1 + 1 = k + 2 := rfl
  rw [hidx]
  omega

end Srte

namespace Srte

theorem remove_loads_delta (s : SRTE) (demand pos : Nat)
    (hb : s.fgraphs.Bounded s.state.loads.length)
    (hns : s.fgraphs.NoSelf)
    (hc : (s.pathVar.getD demand default).CanRemove pos = true)
    (hlp : (s.pathVar.getD demand default).length ≤
      (s.pathVar.getD demand default).path.length) :
    (s.Remove demand pos).2 = true ∧
    (s.Remove demand pos).1.fgraphs = s.fgraphs ∧
    (s.Remove demand pos).1.pathVar = s.pathVar ∧
    (s.Remove demand pos).1.inst = s.inst ∧
    (s.Remove demand pos).1.state.loads.length = s.state.loads.length ∧
    ∀ e, nthI (s.Remove demand pos).1.state.loads e =
      nthI s.state.loads e +
      (pathContrib s.fgraphs (s.inst.demands.getD demand default).bandwidth e
        (((s.pathVar.getD demand default).Remove pos).1.Nodes) -
       pathContrib s.fgraphs (s.inst.demands.getD demand default).bandwidth e
        ((s.pathVar.getD demand default).Nodes)) := by
  rw [SRTE.Remove]
  simp only [hc, Bool.not_true, Bool.false_eq_true, if_false]
  set p := s.pathVar.getD demand default with hp
  set bw := (s.inst.demands.getD demand default).bandwidth with hbw
  obtain ⟨hp1, hp2⟩ := Paths.canRemove_bounds p pos hc
  obtain ⟨k, rfl⟩ : ∃ k, pos = k + 1 := ⟨pos - 1, by omega⟩
  simp only [Nat.add_sub_cancel] at *
  set s1 := s.removeLoad (p.Node k) (p.Node (k + 1)) bw with hs1
  set s2 := s1.removeLoad (p.Node (k + 1)) (p.Node (k + 1 + 1)) bw with hs2
  set s3 := s2.addLoad (p.Node k) (p.Node (k + 1 + 1)) bw with hs3
  obtain ⟨hL1, hd1⟩ := removeLoad_srte_delta s (p.Node k) (p.Node (k + 1)) bw
    (bounded_edgeRatios hb _ _)
  have hL1' : s1.state.loads.length = s.state.loads.length := hL1
  have hd1' : ∀ e, nthI s1.state.loads e = nthI s.state.loads e -
      erContrib (s.fgraphs.EdgeRatios (p.Node k) (p.Node (k + 1))) bw e := hd1
  have hbe2 : ∀ er ∈ s1.fgraphs.EdgeRatios (p.Node (k + 1)) (p.Node (k + 1 + 1)),
      er.edge < s1.state.loads.length := by
    rw [hL1']
    exact bounded_edgeRatios hb _ _
  obtain ⟨hL2, hd2⟩ := removeLoad_srte_delta s1 (p.Node (k + 1))
    (p.Node (k + 1 + 1)) bw hbe2
  have hL2' : s2.state.loads.length = s1.state.loads.length := hL2
  have hd2' : ∀ e, nthI s2.state.loads e = nthI s1.state.loads e -
      erContrib (s.fgraphs.EdgeRatios (p.Node (k + 1)) (p.Node (k + 1 + 1)))
        bw e := hd2
  have hbe3 : ∀ er ∈ s2.fgraphs.EdgeRatios (p.Node k) (p.Node (k + 1 + 1)),
      er.edge < s2.state.loads.length := by
    rw [hL2', hL1']
    exact bounded_edgeRatios hb _ _
  obtain ⟨hL3, hd3⟩ := addLoad_srte_delta s2 (p.Node k) (p.Node (k + 1 + 1))
    bw hbe3
  have hL3' : s3.state.loads.length = s2.state.loads.length := hL3
  have hd3' : ∀ e, nthI s3.state.loads e = nthI s2.state.loads e +
      erContrib (s.fgraphs.EdgeRatios (p.Node k) (p.Node (k + 1 + 1))) bw e :=
    hd3
  refine ⟨trivial, rfl, rfl, rfl, hL3'.trans (hL2'.trans hL1'), ?_⟩
  intro e
  rw [hd3' e, hd2' e, hd1' e]
  have hNlen : p.Nodes.length = p.length := Paths.nodes_length p hlp
  have hnthk : nth p.Nodes k = p.Node k := by
    rw [Paths.nth_nodes, if_pos (by omega)]
  have hnthk1 : nth p.Nodes (k + 1) = p.Node (k + 1) := by
    rw [Paths.nth_nodes, if_pos (by omega)]
  have hnthk2 : nth p.Nodes (k + 2) = p.Node (k + 2) := by
    rw [Paths.nth_nodes, if_pos (by omega)]
  have hold : p.Nodes = p.Nodes.take k ++
      p.Node k :: p.Node (k + 1) :: p.Node (k + 2) :: p.Nodes.drop (k + 3) := by
    conv_lhs => rw [list_decomp₃ p.Nodes k (by omega)]
    rw [hnthk, hnthk1, hnthk2]
  have hpcold : pathContrib s.fgraphs bw e p.Nodes =
      pathContrib s.fgraphs bw e (p.Nodes.take k ++ [p.Node k]) +
      erContrib (s.fgraphs.EdgeRatios (p.Node k) (p.Node (k + 1))) bw e +
      erContrib (s.fgraphs.EdgeRatios (p.Node (k + 1)) (p.Node (k + 2))) bw e +
      pathContrib s.fgraphs bw e (p.Node (k + 2) :: p.Nodes.drop (k + 3)) := by
    conv_lhs => rw [hold]
    rw [pathContrib_three]
  have hrn := Paths.remove_nodes p (k + 1) hc hlp
  simp only [Nat.add_sub_cancel] at hrn
  have hidx : k + 1 + 1 = k + 2 := rfl
  rw [hidx]
  by_cases heq : nth p.path k = nth p.path (k + 1 + 1)
  · rw [if_pos heq] at hrn
    have heq' : p.Node k = p.Node (k + 2) := heq
    have hnew : ((p.Remove (k + 1)).1.Nodes) = p.Nodes.take k ++
        p.Node k :: p.Nodes.drop (k + 3) := by
      rw [hrn, take_succ_nth p.Nodes k (by omega), hnthk, List.append_assoc]
      rfl
    have hpcnew : pathContrib s.fgraphs bw e ((p.Remove (k + 1)).1.Nodes) =
        pathContrib s.fgraphs bw e (p.Nodes.take k ++ [p.Node k]) +
        pathContrib s.fgraphs bw e (p.Node k :: p.Nodes.drop (k + 3)) := by
      rw [hnew, pathContrib_append]
    rw [hpcold, hpcnew]
    rw [← heq']
    have hz : erContrib (s.fgraphs.EdgeRatios (p.Node k) (p.Node k)) bw e = 0 := by
      rw [hns (p.Node k)]
      exact erContrib_nil bw e
    rw [hz]
    omega
  · rw [if_neg heq] at hrn
    have hnew : ((p.Remove (k + 1)).1.Nodes) = p.Nodes.take k ++
        p.Node k :: p.Node (k + 2) :: p.Nodes.drop (k + 3) := by
      rw [hrn, take_succ_nth p.Nodes k (by omega), hnthk,
        drop_eq_nth_cons p.Nodes (k + 2) (by omega), hnthk2,
        List.append_assoc]
      rfl
    have hpcnew : pathContrib s.fgraphs bw e ((p.Remove (k + 1)).1.Nodes) =
        pathContrib s.fgraphs bw e (p.Nodes.take k ++ [p.Node k]) +
        erContrib (s.fgraphs.EdgeRatios (p.Node k) (p.Node (k + 2))) bw e +
        pathContrib s.fgraphs bw e (p.Node (k + 2) :: p.Nodes.drop (k + 3)) := by
      rw [hnew, pathContrib_two]
    rw [hpcold, hpcnew]
    omega

end Srte

namespace Srte

theorem clear_loads_delta (s : SRTE) (demand : Nat)
    (hb : s.fgraphs.Bounded s.state.loads.length)
    (hc : (s.pathVar.getD demand default).CanClear = true)
    (hlp : (s.pathVar.getD demand default).length ≤
      (s.pathVar.getD demand default).path.length) :
    (s.Clear demand).2 = true ∧
    (s.Clear demand).1.fgraphs = s.fgraphs ∧
    (s.Clear demand).1.pathVar = s.pathVar ∧
    (s.Clear demand).1.inst = s.inst ∧
    (s.Clear demand).1.state.loads.length = s.state.loads.length ∧
    ∀ e, nthI (s.Clear demand).1.state.loads e =
      nthI s.state.loads e +
      (pathContrib s.fgraphs (s.inst.demands.getD demand default).bandwidth e
        (((s.pathVar.getD demand default).Clear).1.Nodes) -
       pathContrib s.fgraphs (s.inst.demands.getD demand default).bandwidth e
        ((s.pathVar.getD demand default).Nodes)) := by
  rw [SRTE.Clear]
  simp only [hc, Bool.not_true, Bool.false_eq_true, if_false]
  set p := s.pathVar.getD demand default with hp
  set bw := (s.inst.demands.getD demand default).bandwidth with hbw
  have hlen2 : 2 < p.length := by
    rw [Paths.PathVar.CanClear] at hc
    simpa using hc
  have hNlen : p.Nodes.length = p.length := Paths.nodes_length p hlp
  obtain ⟨hf1, hf2, hf3, hf4, hf5⟩ :=
    foldl_removeLoad_idx_delta s.fgraphs bw p.Nodes
      (List.range' 1 (p.Nodes.length - 1)) s rfl hb
  set sf := (List.range' 1 (p.Nodes.length - 1)).foldl
    (fun st i => st.removeLoad (nth p.Nodes (i - 1)) (nth p.Nodes i) bw) s
    with hsf
  have hbe : ∀ er ∈ sf.fgraphs.EdgeRatios (nth p.Nodes 0)
      (nth p.Nodes (p.Nodes.length - 1)), er.edge < sf.state.loads.length := by
    rw [hf4]
    have hfg0 : sf.fgraphs = s.fgraphs := hf1
    rw [hfg0]
    exact bounded_edgeRatios hb _ _
  obtain ⟨hL2, hd2⟩ := addLoad_srte_delta sf (nth p.Nodes 0)
    (nth p.Nodes (p.Nodes.length - 1)) bw hbe
  refine ⟨trivial, hf1, hf2, hf3, hL2.trans hf4, ?_⟩
  intro e
  rw [hd2 e, hf5 e]
  have hfg : sf.fgraphs = s.fgraphs := hf1
  rw [hfg]
  have hpcold : pathContrib s.fgraphs bw e p.Nodes =
      ((List.range' 1 (p.Nodes.length - 1)).map (fun i =>
        erContrib (s.fgraphs.EdgeRatios (nth p.Nodes (i - 1)) (nth p.Nodes i))
          bw e)).sum := by
    rw [pathContrib_eq_sum, List.range'_eq_map_range, List.map_map]
    apply congrArg List.sum
    apply List.map_congr_left
    intro j hj
    show erContrib (s.fgraphs.EdgeRatios (nth p.Nodes j) (nth p.Nodes (j + 1)))
        bw e =
      erContrib (s.fgraphs.EdgeRatios (nth p.Nodes (1 + j - 1))
        (nth p.Nodes (1 + j))) bw e
    rw [show 1 + j - 1 = j by omega, show 1 + j = j + 1 by omega]
  have hclear : ((p.Clear).1.Nodes) = [p.Node 0, p.Node (p.length - 1)] :=
    Paths.clear_nodes p hc hlp
  have hpcnew : pathContrib s.fgraphs bw e ((p.Clear).1.Nodes) =
      erContrib (s.fgraphs.EdgeRatios (nth p.Nodes 0)
        (nth p.Nodes (p.Nodes.length - 1))) bw e := by
    rw [hclear, pathContrib_pair]
    have h0 : nth p.Nodes 0 = p.Node 0 := by
      rw [Paths.nth_nodes, if_pos (by omega)]
    have h1 : nth p.Nodes (p.Nodes.length - 1) = p.Node (p.length - 1) := by
      rw [hNlen, Paths.nth_nodes, if_pos (by omega)]
    rw [h0, h1]
  rw [hpcold, hpcnew]
  omega

end Srte

namespace Srte

/-- The split-load traffic demand `d` currently contributes to edge `e`:
the sum of `SplitLoad(bandwidth, ratio)` over the per-hop edge ratios of the
demand's current path that name `e`. -/
def contribution (s : SRTE) (d e : Nat) : Int :=
  pathContrib s.fgraphs (s.inst.demands.getD d default).bandwidth e
    ((s.pathVar.getD d default).Nodes)

/-- Every path variable's logical length fits its backing buffer. -/
def PathsWF (s : SRTE) : Prop :=
  ∀ pv ∈ s.pathVar, pv.length ≤ pv.path.length

instance (s : SRTE) : Decidable (PathsWF s) := by
  unfold PathsWF; infer_instance

end Srte

namespace Solver

/-- The demand-wheel invariant (claim C5): one wheel per edge, all wheels
well-formed, and the weight stored for any demand on any edge equals the raw
split-load traffic the demand's current path contributes to that edge. -/
def WheelsOK (lgs : LinkGuidedSolver) : Prop :=
  lgs.demandWheels.length = lgs.state.inst.graph.Edges.length ∧
  (∀ w ∈ lgs.demandWheels, Wheels.WF w) ∧
  ∀ e, e < lgs.demandWheels.length → ∀ d,
    (lgs.demandWheels.getD e default).Get d = Srte.contribution lgs.state d e

end Solver

theorem nth_replicate_zero (n e : Nat) : nth (List.replicate n 0) e = 0 := by
  rcases getD_mem (List.replicate n 0) e 0 with h | h
  · exact h
  · exact List.eq_of_mem_replicate h

theorem tracks_persist_clean {L0 : List Int} {s : NetworkState}
    (h : Tracks L0 s) : Clean s.PersistChanges := by
  obtain ⟨hl, hs, hiff, hle, hnd, hprev, hun⟩ := h
  rw [NetworkState.PersistChanges, NetworkState.incrTimestamp]
  by_cases hts : s.timestamp ≠ UMAX
  · rw [if_pos hts]
    refine ⟨rfl, by rw [hs, hl], ?_⟩
    intro e he
    show nth s.savedAt e < s.timestamp + 1
    have := hle e (by rw [← hl]; exact he)
    omega
  · rw [if_neg hts]
    refine ⟨rfl, by simp [hs, hl], ?_⟩
    intro e he
    show nth (List.replicate s.savedAt.length 0) e < 1
    rw [nth_replicate_zero]
    omega

theorem wheel_get_new (k d : Nat) : (Wheels.NewDemandWheel k).Get d = 0 := by
  rw [Wheels.DemandWheel.Get]
  have : Wheels.hashFind (Wheels.NewDemandWheel k).hash d = none := rfl
  rw [this]

namespace Paths

theorem clear_length_le (p : PathVar) (hlp : p.length ≤ p.path.length) :
    (p.Clear).1.length ≤ (p.Clear).1.path.length := by
  cases hcc : p.CanClear with
  | false =>
    rw [PathVar.Clear, hcc]
    exact hlp
  | true =>
    rw [PathVar.Clear, hcc]
    simp only [Bool.not_true, Bool.false_eq_true, if_false]
    show 2 ≤ (p.path.set 1 (nth p.path (p.length - 1))).length
    rw [List.length_set]
    have h2 : 2 < p.length := by
      rw [PathVar.CanClear] at hcc
      simpa using hcc
    omega

theorem update_length_le (p : PathVar) (pos n : Nat)
    (hlp : p.length ≤ p.path.length) :
    (p.Update pos n).1.length ≤ (p.Update pos n).1.path.length := by
  cases hcc : p.CanUpdate pos n with
  | false =>
    rw [PathVar.Update, hcc]
    exact hlp
  | true =>
    rw [PathVar.Update, hcc]
    simp only [Bool.not_true, Bool.false_eq_true, if_false]
    show p.length ≤ (p.path.set pos n).length
    rw [List.length_set]
    exact hlp

theorem insert_length_le (p : PathVar) (pos n : Nat)
    (hlp : p.length ≤ p.path.length) :
    (p.Insert pos n).1.length ≤ (p.Insert pos n).1.path.length := by
  cases hcc : p.CanInsert pos n with
  | false =>
    rw [PathVar.Insert, hcc]
    exact hlp
  | true =>
    obtain ⟨h1, h2, h3⟩ := canInsert_bounds p pos n hcc hlp
    rw [PathVar.Insert, hcc]
    simp only [Bool.not_true, Bool.false_eq_true, if_false]
    show p.length + 1 ≤ ((copyLoopDown p.path p.length pos).set pos n).length
    rw [List.length_set, copyLoopDown_length]
    omega

theorem remove_length_le (p : PathVar) (pos : Nat)
    (hlp : p.length ≤ p.path.length) :
    (p.Remove pos).1.length ≤ (p.Remove pos).1.path.length := by
  cases hcc : p.CanRemove pos with
  | false =>
    rw [PathVar.Remove, hcc]
    exact hlp
  | true =>
    rw [PathVar.Remove, hcc]
    simp only [Bool.not_true, Bool.false_eq_true, if_false]
    show p.length - _ ≤ (copyLoop p.path pos _ _).length
    rw [copyLoop_length]
    omega

end Paths

namespace Solver

/-- Walking the change log with `updateWheels` turns wheels holding the old
per-demand contributions (`C0fn`) into wheels holding the new ones (`C1fn`),
provided the load delta of each changed edge is the moved demand's
contribution delta, other demands' contributions are unchanged, and edges off
the change log have no contribution change. -/
theorem foldl_updateWheels_wheels (pw : ℚ → ℚ → ℚ) (mv : Srte.Move)
    (N : Nat) (C1fn : Nat → Nat → Int) :
    ∀ (cs : List LoadChange) (l : LinkGuidedSolver) (C0fn : Nat → Nat → Int),
      (∀ d, d ≠ mv.demand → ∀ e, C0fn d e = C1fn d e) →
      (cs.map LoadChange.edge).Nodup →
      (∀ lc ∈ cs, lc.edge < N) →
      (∀ lc ∈ cs, l.state.Load lc.edge - lc.previousLoad =
        C1fn mv.demand lc.edge - C0fn mv.demand lc.edge) →
      l.demandWheels.length = N →
      (∀ w ∈ l.demandWheels, Wheels.WF w) →
      (∀ e, e < N → ∀ d,
        (l.demandWheels.getD e default).Get d = C0fn d e) →
      (∀ e, e < N → e ∉ cs.map LoadChange.edge → ∀ d, C0fn d e = C1fn d e) →
      ((cs.foldl (updateWheels pw mv) l).demandWheels.length = N ∧
       (∀ w ∈ (cs.foldl (updateWheels pw mv) l).demandWheels, Wheels.WF w) ∧
       ∀ e, e < N → ∀ d,
         ((cs.foldl (updateWheels pw mv) l).demandWheels.getD e
           default).Get d = C1fn d e) := by
  intro cs
  induction cs with
  | nil =>
    intro l C0fn hother hnd hbe hdelta hlen hwf hget hout
    exact ⟨hlen, hwf,
      fun e he d => (hget e he d).trans (hout e he (by simp) d)⟩
  | cons lc rest ih =>
    intro l C0fn hother hnd hbe hdelta hlen hwf hget hout
    rw [List.map_cons, List.nodup_cons] at hnd
    obtain ⟨hhead, hndrest⟩ := hnd
    have hlce : lc.edge < N := hbe lc (List.mem_cons_self lc rest)
    have hlce' : lc.edge < l.demandWheels.length := by omega
    have hwfW : Wheels.WF (l.demandWheels.getD lc.edge default) := by
      rcases getD_mem l.demandWheels lc.edge default with h | h
      · rw [h]
        exact Wheels.WF_new 0
      · exact hwf _ h
    have hnt : (l.demandWheels.getD lc.edge default).Get mv.demand +
        (l.state.Load lc.edge - lc.previousLoad) = C1fn mv.demand lc.edge := by
      rw [hget lc.edge hlce mv.demand, hdelta lc (List.mem_cons_self lc rest)]
      ring
    have hdw : (updateWheels pw mv l lc).demandWheels =
        if (l.demandWheels.getD lc.edge default).Get mv.demand +
            (l.state.Load lc.edge - lc.previousLoad) = 0 then
          l.demandWheels.set lc.edge
            ((l.demandWheels.getD lc.edge default).Remove mv.demand)
        else
          l.demandWheels.set lc.edge
            ((l.demandWheels.getD lc.edge default).Put mv.demand
              ((l.demandWheels.getD lc.edge default).Get mv.demand +
                (l.state.Load lc.edge - lc.previousLoad))) := rfl
    rw [hnt] at hdw
    have hnewget : ∀ d, ((updateWheels pw mv l lc).demandWheels.getD lc.edge
        default).Get d = if d = mv.demand then C1fn mv.demand lc.edge
          else C0fn d lc.edge := by
      intro d
      by_cases hz : C1fn mv.demand lc.edge = 0
      · rw [hdw, if_pos hz, getD_set, if_pos ⟨rfl, hlce'⟩,
          (Wheels.remove_spec hwfW mv.demand).2 d]
        by_cases hd : d = mv.demand
        · rw [if_pos hd, if_pos hd, hz]
        · rw [if_neg hd, if_neg hd, hget lc.edge hlce d]
      · rw [hdw, if_neg hz, getD_set, if_pos ⟨rfl, hlce'⟩,
          (Wheels.put_spec hwfW mv.demand _).2 d]
        by_cases hd : d = mv.demand
        · rw [if_pos hd, if_pos hd]
        · rw [if_neg hd, if_neg hd, hget lc.edge hlce d]
    have hnewwf : ∀ w ∈ (updateWheels pw mv l lc).demandWheels,
        Wheels.WF w := by
      intro w hw
      by_cases hz : C1fn mv.demand lc.edge = 0
      · rw [hdw, if_pos hz] at hw
        rcases List.mem_or_eq_of_mem_set hw with h | rfl
        · exact hwf _ h
        · exact (Wheels.remove_spec hwfW mv.demand).1
      · rw [hdw, if_neg hz] at hw
        rcases List.mem_or_eq_of_mem_set hw with h | rfl
        · exact hwf _ h
        · exact (Wheels.put_spec hwfW mv.demand _).1
    have hnewlen : (updateWheels pw mv l lc).demandWheels.length = N := by
      by_cases hz : C1fn mv.demand lc.edge = 0
      · rw [hdw, if_pos hz, List.length_set]
        exact hlen
      · rw [hdw, if_neg hz, List.length_set]
        exact hlen
    have hnewother : ∀ e, e ≠ lc.edge →
        (updateWheels pw mv l lc).demandWheels.getD e default =
          l.demandWheels.getD e default := by
      intro e he
      by_cases hz : C1fn mv.demand lc.edge = 0
      · rw [hdw, if_pos hz, getD_set, if_neg (fun hx => he hx.1.symm)]
      · rw [hdw, if_neg hz, getD_set, if_neg (fun hx => he hx.1.symm)]
    rw [List.foldl_cons]
    apply ih (updateWheels pw mv l lc)
      (fun d e => if e = lc.edge then C1fn d e else C0fn d e)
    · intro d hd e
      show (if e = lc.edge then C1fn d e else C0fn d e) = C1fn d e
      by_cases he : e = lc.edge
      · rw [if_pos he]
      · rw [if_neg he]
        exact hother d hd e
    · exact hndrest
    · intro x hx
      exact hbe x (List.mem_cons_of_mem lc hx)
    · intro x hx
      have hxe : x.edge ≠ lc.edge := by
        intro hq
        exact hhead (hq ▸ List.mem_map_of_mem LoadChange.edge hx)
      show l.state.Load x.edge - x.previousLoad = C1fn mv.demand x.edge -
        (if x.edge = lc.edge then C1fn mv.demand x.edge
          else C0fn mv.demand x.edge)
      rw [if_neg hxe]
      exact hdelta x (List.mem_cons_of_mem lc hx)
    · exact hnewlen
    · exact hnewwf
    · intro e he d
      show ((updateWheels pw mv l lc).demandWheels.getD e default).Get d =
        if e = lc.edge then C1fn d e else C0fn d e
      by_cases hee : e = lc.edge
      · subst hee
        rw [hnewget d, if_pos rfl]
        by_cases hd : d = mv.demand
        · rw [if_pos hd, hd]
        · rw [if_neg hd]
          exact hother d hd lc.edge
      · rw [hnewother e hee, if_neg hee]
        exact hget e he d
    · intro e he hemem d
      show (if e = lc.edge then C1fn d e else C0fn d e) = C1fn d e
      by_cases hee : e = lc.edge
      · rw [if_pos hee]
      · rw [if_neg hee]
        refine hout e he ?_ d
        rw [List.map_cons]
        intro hx
        rcases List.mem_cons.mp hx with h | h
        · exact hee h
        · exact hemem h

end Solver

theorem newLGS_state (state : Srte.SRTE) (cfg : Solver.Config)
    (pw : ℚ → ℚ → ℚ) :
    (Solver.NewLinkGuidedSolver state cfg pw).state = state := by
  rw [Solver.NewLinkGuidedSolver]
  exact foldl_pres (fun l : Solver.LinkGuidedSolver => l.state = state)
    (fun l p => (state.fgraphs.EdgeRatios p.2.dFrom p.2.dTo).foldl
      (Solver.registerStep p.1 p.2.bandwidth) l)
    (fun b q hb =>
      foldl_pres (fun l : Solver.LinkGuidedSolver => l.state = state)
        (Solver.registerStep q.1 q.2.bandwidth) (fun b' x hb' => hb') _ b hb)
    state.inst.demands.enum _
    (foldl_pres (fun l : Solver.LinkGuidedSolver => l.state = state)
      (Solver.initEdgeStep pw) (fun b x hb => hb)
      (List.range state.inst.graph.Edges.length)
      { state := state, cfg := cfg,
        edgeWheel := Wheels.NewStaticWheel state.inst.graph.Edges.length,
        edgesByUtil := ⟨[]⟩,
        demandWheels := List.replicate state.inst.graph.Edges.length
          (Wheels.NewDemandWheel 16) }
      rfl)

theorem newLGS_demandWheels (state : Srte.SRTE) (cfg : Solver.Config)
    (pw : ℚ → ℚ → ℚ) :
    (Solver.NewLinkGuidedSolver state cfg pw).demandWheels =
      state.inst.demands.enum.foldl
        (fun W q => (state.fgraphs.EdgeRatios q.2.dFrom q.2.dTo).foldl
          (Solver.wheelPut q.1 q.2.bandwidth) W)
        (List.replicate state.inst.graph.Edges.length
          (Wheels.NewDemandWheel 16)) := by
  rw [Solver.NewLinkGuidedSolver, Solver.foldl_register_outer]
  congr 1
  exact Solver.foldl_initEdgeStep_demandWheels pw
    state.inst.graph.Edges.length
    (List.range state.inst.graph.Edges.length) _ rfl

/-- Initialization establishes the demand-wheel invariant: with in-range
forwarding edges, no repeated edge in any demand's ratio list, and every
demand's path still the fresh two-node `[from, to]` path, the freshly built
solver's wheels hold exactly each demand's raw traffic contribution. -/
theorem wheelsOK_init (state : Srte.SRTE) (cfg : Solver.Config)
    (pw : ℚ → ℚ → ℚ)
    (hb : state.fgraphs.Bounded state.inst.graph.Edges.length)
    (hnd : ∀ d ∈ state.inst.demands,
      (((state.fgraphs.EdgeRatios d.dFrom d.dTo).map fun er => er.edge).Nodup))
    (hplen : state.pathVar.length = state.inst.demands.length)
    (hfresh : ∀ i, i < state.inst.demands.length →
      (state.pathVar.getD i default).Nodes =
        [(state.inst.demands.getD i default).dFrom,
         (state.inst.demands.getD i default).dTo]) :
    Solver.WheelsOK (Solver.NewLinkGuidedSolver state cfg pw) := by
  have hstate := newLGS_state state cfg pw
  have hdw := newLGS_demandWheels state cfg pw
  have hW : ∀ w ∈ List.replicate state.inst.graph.Edges.length
      (Wheels.NewDemandWheel 16), Wheels.WF w := by
    intro w hw
    rw [List.eq_of_mem_replicate hw]
    exact Wheels.WF_new 16
  have hbnd : ∀ p ∈ state.inst.demands.enum,
      ∀ e ∈ state.fgraphs.EdgeRatios p.2.dFrom p.2.dTo,
        e.edge < (List.replicate state.inst.graph.Edges.length
          (Wheels.NewDemandWheel 16)).length := by
    intro p hp e hep
    rw [List.length_replicate]
    exact Srte.bounded_edgeRatios hb _ _ e hep
  have hndp : ∀ p ∈ state.inst.demands.enum,
      (((state.fgraphs.EdgeRatios p.2.dFrom p.2.dTo).map
        fun er => er.edge).Nodup) := by
    intro p hp
    apply hnd
    have hsnd := List.enumFrom_map_snd 0 state.inst.demands
    rw [← hsnd]
    exact List.mem_map_of_mem Prod.snd hp
  have hkeys : (state.inst.demands.enum.map Prod.fst).Nodup := by
    show (List.map Prod.fst (List.enumFrom 0 state.inst.demands)).Nodup
    rw [List.enumFrom_map_fst]
    exact List.nodup_range' 0 state.inst.demands.length
  obtain ⟨oget, okey, ooff, owf, olen⟩ := Solver.outer_register state.fgraphs
    state.inst.demands.enum _ hW hbnd hndp hkeys
  have hW0get : ∀ e d, ((List.replicate state.inst.graph.Edges.length
      (Wheels.NewDemandWheel 16)).getD e default).Get d = 0 := by
    intro e d
    rcases getD_mem (List.replicate state.inst.graph.Edges.length
      (Wheels.NewDemandWheel 16)) e default with h | h
    · rw [h]
      exact wheel_get_new 0 d
    · rw [List.eq_of_mem_replicate h]
      exact wheel_get_new 16 d
  refine ⟨?_, ?_, ?_⟩
  · rw [hdw, olen, List.length_replicate, hstate]
  · rw [hdw]
    exact owf
  · intro e he d
    rw [hstate, hdw]
    by_cases hd : d < state.inst.demands.length
    · have hdm : state.inst.demands.getD d default ∈ state.inst.demands := by
        rw [List.getD_eq_getElem state.inst.demands default hd]
        exact List.getElem_mem hd
      have hmem : (d, state.inst.demands.getD d default) ∈
          state.inst.demands.enum := by
        rw [List.mk_mem_enum_iff_getElem?, List.getElem?_eq_getElem hd]
        rw [List.getD_eq_getElem state.inst.demands default hd]
      by_cases hein : e ∈ (state.fgraphs.EdgeRatios
          (state.inst.demands.getD d default).dFrom
          (state.inst.demands.getD d default).dTo).map fun er => er.edge
      · obtain ⟨er, her, herE⟩ := List.mem_map.mp hein
        have hog := oget (d, state.inst.demands.getD d default) hmem er her
        rw [← herE]
        have hc : Srte.contribution state d er.edge =
            Srte.SplitLoad (state.inst.demands.getD d default).bandwidth
              er.ratio := by
          rw [Srte.contribution, hfresh d hd, Srte.pathContrib_pair]
          exact Srte.erContrib_nodup_mem (hnd _ hdm) her _
        rw [hc]
        exact hog
      · have hoo := ooff (d, state.inst.demands.getD d default) hmem e hein
        have hz : Srte.contribution state d e = 0 := by
          rw [Srte.contribution, hfresh d hd, Srte.pathContrib_pair]
          exact Srte.erContrib_not_mem hein _
        rw [hz]
        exact hoo.trans (hW0get e d)
    · have hdk : d ∉ state.inst.demands.enum.map Prod.fst := by
        show d ∉ List.map Prod.fst (List.enumFrom 0 state.inst.demands)
        rw [List.enumFrom_map_fst]
        intro hx
        obtain ⟨i, hi, hieq⟩ := List.mem_range'.mp hx
        omega
      have hok := okey d hdk e
      have hz : Srte.contribution state d e = 0 := by
        rw [Srte.contribution,
          List.getD_eq_default state.pathVar _ (by omega)]
        rfl
      rw [hz]
      exact hok.trans (hW0get e d)

namespace Srte

/-- The PathVar mirror of a move: the `p2` that `ApplyMove` writes back into
`pathVar[m.demand]` on success. -/
def pathMutation (p : Paths.PathVar) (m : Move) : Paths.PathVar :=
  match m.moveType with
  | .clear => (p.Clear).1
  | .remove => (p.Remove m.position).1
  | .update => (p.Update m.position m.node).1
  | .insert => (p.Insert m.position m.node).1
  | .unknown => p

/-- A successful tentative mutation changes each edge's load by exactly the
moved demand's contribution delta (new path contribution minus old), keeps
every other SRTE field, forces the demand index in range, and keeps the
mutated PathVar well-formed. -/
theorem mutation_loads_delta (s : SRTE) (m : Move)
    (hb : s.fgraphs.Bounded s.state.loads.length)
    (hns : s.fgraphs.NoSelf)
    (hpwf : PathsWF s)
    (hsucc : (moveMutation s m).2 = true) :
    (moveMutation s m).1.fgraphs = s.fgraphs ∧
    (moveMutation s m).1.pathVar = s.pathVar ∧
    (moveMutation s m).1.inst = s.inst ∧
    (moveMutation s m).1.state.loads.length = s.state.loads.length ∧
    m.demand < s.pathVar.length ∧
    (pathMutation (s.pathVar.getD m.demand default) m).length ≤
      (pathMutation (s.pathVar.getD m.demand default) m).path.length ∧
    ∀ e, nthI (moveMutation s m).1.state.loads e = nthI s.state.loads e +
      (pathContrib s.fgraphs (s.inst.demands.getD m.demand default).bandwidth e
        ((pathMutation (s.pathVar.getD m.demand default) m).Nodes) -
       pathContrib s.fgraphs (s.inst.demands.getD m.demand default).bandwidth e
        ((s.pathVar.getD m.demand default).Nodes)) := by
  have hdl0 : (default : Paths.PathVar).length = 0 := rfl
  have hpl0 : (default : Paths.PathVar).path.length = 0 := rfl
  cases hmt : m.moveType with
  | unknown =>
    rw [moveMutation, hmt] at hsucc
    simp at hsucc
  | clear =>
    have hmm : moveMutation s m = s.Clear m.demand := by rw [moveMutation, hmt]
    have hpm : ∀ p : Paths.PathVar, pathMutation p m = (p.Clear).1 := by
      intro p
      rw [pathMutation, hmt]
    rw [hmm] at hsucc
    rw [hmm, hpm]
    cases hcx : (s.pathVar.getD m.demand default).CanClear with
    | false =>
      rw [SRTE.Clear] at hsucc
      simp only [hcx, Bool.not_false, if_true] at hsucc
      simp at hsucc
    | true =>
      have hdlt : m.demand < s.pathVar.length := by
        by_contra hx
        rw [List.getD_eq_default s.pathVar _ (by omega),
          Paths.PathVar.CanClear, hdl0] at hcx
        simp at hcx
      have hpmem : s.pathVar.getD m.demand default ∈ s.pathVar := by
        rw [List.getD_eq_getElem s.pathVar default hdlt]
        exact List.getElem_mem hdlt
      have hlp := hpwf _ hpmem
      obtain ⟨_, hfg, hpv, hinst, hlen, hdel⟩ :=
        clear_loads_delta s m.demand hb hcx hlp
      exact ⟨hfg, hpv, hinst, hlen, hdlt, Paths.clear_length_le _ hlp, hdel⟩
  | remove =>
    have hmm : moveMutation s m = s.Remove m.demand m.position := by
      rw [moveMutation, hmt]
    have hpm : ∀ p : Paths.PathVar,
        pathMutation p m = (p.Remove m.position).1 := by
      intro p
      rw [pathMutation, hmt]
    rw [hmm] at hsucc
    rw [hmm, hpm]
    cases hcx : (s.pathVar.getD m.demand default).CanRemove m.position with
    | false =>
      rw [SRTE.Remove] at hsucc
      simp only [hcx, Bool.not_false, if_true] at hsucc
      simp at hsucc
    | true =>
      have hdlt : m.demand < s.pathVar.length := by
        by_contra hx
        rw [List.getD_eq_default s.pathVar _ (by omega)] at hcx
        obtain ⟨hb1, hb2⟩ := Paths.canRemove_bounds default m.position hcx
        rw [hdl0] at hb2
        omega
      have hpmem : s.pathVar.getD m.demand default ∈ s.pathVar := by
        rw [List.getD_eq_getElem s.pathVar default hdlt]
        exact List.getElem_mem hdlt
      have hlp := hpwf _ hpmem
      obtain ⟨_, hfg, hpv, hinst, hlen, hdel⟩ :=
        remove_loads_delta s m.demand m.position hb hns hcx hlp
      exact ⟨hfg, hpv, hinst, hlen, hdlt, Paths.remove_length_le _ _ hlp, hdel⟩
  | update =>
    have hmm : moveMutation s m = s.Update m.demand m.position m.node := by
      rw [moveMutation, hmt]
    have hpm : ∀ p : Paths.PathVar,
        pathMutation p m = (p.Update m.position m.node).1 := by
      intro p
      rw [pathMutation, hmt]
    rw [hmm] at hsucc
    rw [hmm, hpm]
    cases hcx : (s.pathVar.getD m.demand default).CanUpdate m.position
        m.node with
    | false =>
      rw [SRTE.Update] at hsucc
      simp only [hcx, Bool.not_false, if_true] at hsucc
      simp at hsucc
    | true =>
      have hdlt : m.demand < s.pathVar.length := by
        by_contra hx
        rw [List.getD_eq_default s.pathVar _ (by omega)] at hcx
        obtain ⟨hb1, hb2⟩ := Paths.canUpdate_bounds default m.position
          m.node hcx
        rw [hdl0] at hb2
        omega
      have hpmem : s.pathVar.getD m.demand default ∈ s.pathVar := by
        rw [List.getD_eq_getElem s.pathVar default hdlt]
        exact List.getElem_mem hdlt
      have hlp := hpwf _ hpmem
      obtain ⟨_, hfg, hpv, hinst, hlen, hdel⟩ :=
        update_loads_delta s m.demand m.position m.node hb hcx hlp
      exact ⟨hfg, hpv, hinst, hlen, hdlt, Paths.update_length_le _ _ _ hlp,
        hdel⟩
  | insert =>
    have hmm : moveMutation s m = s.Insert m.demand m.position m.node := by
      rw [moveMutation, hmt]
    have hpm : ∀ p : Paths.PathVar,
        pathMutation p m = (p.Insert m.position m.node).1 := by
      intro p
      rw [pathMutation, hmt]
    rw [hmm] at hsucc
    rw [hmm, hpm]
    cases hcx : (s.pathVar.getD m.demand default).CanInsert m.position
        m.node with
    | false =>
      rw [SRTE.Insert] at hsucc
      simp only [hcx, Bool.not_false, if_true] at hsucc
      simp at hsucc
    | true =>
      have hdlt : m.demand < s.pathVar.length := by
        by_contra hx
        rw [List.getD_eq_default s.pathVar _ (by omega)] at hcx
        obtain ⟨hb1, hb2, hb3⟩ := Paths.canInsert_bounds default m.position
          m.node hcx (Nat.le_refl 0)
        rw [hdl0] at hb2
        omega
      have hpmem : s.pathVar.getD m.demand default ∈ s.pathVar := by
        rw [List.getD_eq_getElem s.pathVar default hdlt]
        exact List.getElem_mem hdlt
      have hlp := hpwf _ hpmem
      obtain ⟨_, hfg, hpv, hinst, hlen, hdel⟩ :=
        insert_loads_delta s m.demand m.position m.node hb hcx hlp
      exact ⟨hfg, hpv, hinst, hlen, hdlt, Paths.insert_length_le _ _ _ hlp,
        hdel⟩

end Srte

namespace Srte

/-- Structure of a successful `ApplyMove` without persisting: the tentative
mutation ran from the undone state and reported true, and the result is that
mutation with the demand's PathVar mirror written back. -/
theorem srte_applyMove_true_struct {s : SRTE} {m : Move} {s1 : SRTE}
    (h : s.ApplyMove m false = some (s1, true)) :
    (moveMutation s.undoState m).2 = true ∧
    s1 = { (moveMutation s.undoState m).1 with
           pathVar := (moveMutation s.undoState m).1.pathVar.set m.demand
             (pathMutation ((moveMutation s.undoState m).1.pathVar.getD
               m.demand default) m) } := by
  cases hmt : m.moveType
  case unknown =>
    simp only [SRTE.ApplyMove, hmt] at h
    simp at h
  all_goals
    simp only [SRTE.ApplyMove, hmt, moveMutation, pathMutation] at h ⊢
  case clear =>
    by_cases hap : (s.undoState.Clear m.demand).2 = true
    · simp only [hap, Bool.not_true, Bool.false_eq_true, if_false,
        Option.some_inj] at h
      exact ⟨hap, (congrArg Prod.fst h).symm⟩
    · simp only [Bool.not_eq_true] at hap
      simp only [hap, Bool.not_false, if_true, Option.some_inj] at h
      have h2 := congrArg Prod.snd h
      simp at h2
  case remove =>
    by_cases hap : (s.undoState.Remove m.demand m.position).2 = true
    · simp only [hap, Bool.not_true, Bool.false_eq_true, if_false,
        Option.some_inj] at h
      exact ⟨hap, (congrArg Prod.fst h).symm⟩
    · simp only [Bool.not_eq_true] at hap
      simp only [hap, Bool.not_false, if_true, Option.some_inj] at h
      have h2 := congrArg Prod.snd h
      simp at h2
  case update =>
    by_cases hap : (s.undoState.Update m.demand m.position m.node).2 = true
    · simp only [hap, Bool.not_true, Bool.false_eq_true, if_false,
        Option.some_inj] at h
      exact ⟨hap, (congrArg Prod.fst h).symm⟩
    · simp only [Bool.not_eq_true] at hap
      simp only [hap, Bool.not_false, if_true, Option.some_inj] at h
      have h2 := congrArg Prod.snd h
      simp at h2
  case insert =>
    by_cases hap : (s.undoState.Insert m.demand m.position m.node).2 = true
    · simp only [hap, Bool.not_true, Bool.false_eq_true, if_false,
        Option.some_inj] at h
      exact ⟨hap, (congrArg Prod.fst h).symm⟩
    · simp only [Bool.not_eq_true] at hap
      simp only [hap, Bool.not_false, if_true, Option.some_inj] at h
      have h2 := congrArg Prod.snd h
      simp at h2

end Srte

namespace Solver

/-- One accepted solver move preserves the demand-wheel invariant (claim C5's
maintenance half), along with the cleanliness and path well-formedness needed
to keep iterating. -/
theorem wheelsOK_step (lgs : LinkGuidedSolver) (pw : ℚ → ℚ → ℚ)
    (m : Srte.Move)
    (hok : WheelsOK lgs)
    (hclean : Clean lgs.state.state)
    (hpwf : Srte.PathsWF lgs.state)
    (hb : lgs.state.fgraphs.Bounded lgs.state.state.loads.length)
    (hns : lgs.state.fgraphs.NoSelf)
    (hle : lgs.state.state.loads.length = lgs.state.inst.graph.Edges.length) :
    ∀ lgs2 : LinkGuidedSolver,
      lgs.ApplyMove pw m = some (lgs2, true) →
      WheelsOK lgs2 ∧ Clean lgs2.state.state ∧ Srte.PathsWF lgs2.state ∧
      lgs2.state.fgraphs = lgs.state.fgraphs ∧
      lgs2.state.inst = lgs.state.inst ∧
      lgs2.state.state.loads.length = lgs.state.state.loads.length := by
  intro lgs2 happ
  cases hA : lgs.state.ApplyMove m false with
  | none =>
    rw [LinkGuidedSolver.ApplyMove, hA] at happ
    exact absurd happ (by simp)
  | some q =>
    obtain ⟨s1, applied⟩ := q
    rw [LinkGuidedSolver.ApplyMove, hA] at happ
    cases applied with
    | false =>
      simp only [Bool.not_false, if_true, Option.some_inj] at happ
      have h2 := congrArg Prod.snd happ
      simp at h2
    | true =>
      simp only [Bool.not_true, Bool.false_eq_true, if_false,
        Option.some_inj] at happ
      have hlgs2 : lgs2 =
          { (s1.Changes.foldl (updateWheels pw m) { lgs with state := s1 }) with
            state := (s1.Changes.foldl (updateWheels pw m)
              { lgs with state := s1 }).state.PersistChanges } :=
        (congrArg Prod.fst happ).symm
      obtain ⟨hs2, hs1eq⟩ := Srte.srte_applyMove_true_struct hA
      have htr0 : Tracks lgs.state.state.loads lgs.state.state :=
        clean_tracks hclean
      obtain ⟨hul, huch, hucl⟩ := tracks_undo htr0
      have hundoLoads : lgs.state.undoState.state.loads =
          lgs.state.state.loads := hul
      have hb0 : lgs.state.undoState.fgraphs.Bounded
          lgs.state.undoState.state.loads.length := by
        show lgs.state.fgraphs.Bounded lgs.state.state.UndoChanges.loads.length
        rw [hul]
        exact hb
      obtain ⟨hfg, hpv, hinst, hlen, hdlt, hp2le, hdel⟩ :=
        Srte.mutation_loads_delta lgs.state.undoState m hb0 hns hpwf hs2
      have hundoPv : lgs.state.undoState.pathVar = lgs.state.pathVar := rfl
      have hundoFg : lgs.state.undoState.fgraphs = lgs.state.fgraphs := rfl
      have hundoInst : lgs.state.undoState.inst = lgs.state.inst := rfl
      rw [hundoPv] at hpv hdlt hp2le hdel
      rw [hundoFg] at hfg hdel
      rw [hundoInst] at hinst hdel
      rw [hundoLoads] at hlen hdel
      have hg0 : Srte.Good lgs.state.undoState lgs.state.state.loads
          lgs.state.undoState :=
        Srte.good_refl ⟨hucl, hundoLoads⟩
      have hbL0 : lgs.state.undoState.fgraphs.Bounded
          lgs.state.state.loads.length := hb
      have htrOp : Tracks lgs.state.state.loads
          (Srte.moveMutation lgs.state.undoState m).1.state :=
        (Srte.good_mutation hg0 hbL0 m).2
      have hchange : s1.Changes =
          ((Srte.moveMutation lgs.state.undoState m).1.state.changes).reverse := by
        rw [hs1eq]
        rfl
      obtain ⟨hokLen, hokWF, hokGet⟩ := hok
      have hs1fg : s1.fgraphs = lgs.state.fgraphs := by
        rw [hs1eq]
        exact hfg
      have hs1inst : s1.inst = lgs.state.inst := by
        rw [hs1eq]
        exact hinst
      have hs1state : s1.state =
          (Srte.moveMutation lgs.state.undoState m).1.state := by
        rw [hs1eq]
      have hs1pv : s1.pathVar = lgs.state.pathVar.set m.demand
          (Srte.pathMutation (lgs.state.pathVar.getD m.demand default) m) := by
        rw [hs1eq, hpv]
      have hst2 : lgs2.state = Srte.SRTE.PersistChanges s1 := by
        rw [hlgs2]
        show (s1.Changes.foldl (updateWheels pw m)
          { lgs with state := s1 }).state.PersistChanges = _
        rw [foldl_updateWheels_state]
      have hl2fg : lgs2.state.fgraphs = lgs.state.fgraphs := by
        rw [hst2]
        exact hs1fg
      have hl2inst : lgs2.state.inst = lgs.state.inst := by
        rw [hst2]
        exact hs1inst
      have hl2pv : lgs2.state.pathVar = lgs.state.pathVar.set m.demand
          (Srte.pathMutation (lgs.state.pathVar.getD m.demand default) m) := by
        rw [hst2]
        exact hs1pv
      have hl2loads : lgs2.state.state.loads = s1.state.loads := by
        rw [hst2]
        show s1.state.PersistChanges.loads = s1.state.loads
        rw [NetworkState.PersistChanges, incrTimestamp_loads]
      have hC1 : ∀ d e, Srte.contribution lgs2.state d e =
          if d = m.demand then
            Srte.pathContrib lgs.state.fgraphs
              (lgs.state.inst.demands.getD d default).bandwidth e
              ((Srte.pathMutation (lgs.state.pathVar.getD m.demand default)
                m).Nodes)
          else Srte.contribution lgs.state d e := by
        intro d e
        rw [Srte.contribution, hl2fg, hl2inst, hl2pv, getD_set]
        by_cases hd : d = m.demand
        · rw [if_pos ⟨hd.symm, hdlt⟩, if_pos hd]
        · rw [if_neg (fun hx => hd hx.1.symm), if_neg hd, Srte.contribution]
      have hkey := foldl_updateWheels_wheels pw m lgs.demandWheels.length
        (fun d e => Srte.contribution lgs2.state d e)
        s1.Changes { lgs with state := s1 }
        (fun d e => Srte.contribution lgs.state d e)
        ?hother ?hnd ?hbe ?hdelta ?hwlen ?hwwf ?hwget ?hwout
      case hother =>
        intro d hd e
        show Srte.contribution lgs.state d e = Srte.contribution lgs2.state d e
        rw [hC1 d e, if_neg hd]
      case hnd =>
        rw [hchange, List.map_reverse, List.nodup_reverse]
        exact htrOp.2.2.2.2.1
      case hbe =>
        intro lc hlc
        rw [hchange, List.mem_reverse] at hlc
        have hlt := (htrOp.2.2.2.2.2.1 lc hlc).1
        omega
      case hdelta =>
        intro lc hlc
        rw [hchange, List.mem_reverse] at hlc
        obtain ⟨hedge, hprevL⟩ := htrOp.2.2.2.2.2.1 lc hlc
        show nthI s1.state.loads lc.edge - lc.previousLoad =
          Srte.contribution lgs2.state m.demand lc.edge -
          Srte.contribution lgs.state m.demand lc.edge
        rw [hprevL, hs1state, hdel lc.edge, hC1 m.demand lc.edge, if_pos rfl,
          Srte.contribution]
        ring
      case hwlen =>
        rfl
      case hwwf =>
        exact hokWF
      case hwget =>
        exact fun e he d => hokGet e he d
      case hwout =>
        intro e he hnm d
        rw [hchange, List.map_reverse] at hnm
        rw [List.mem_reverse] at hnm
        show Srte.contribution lgs.state d e = Srte.contribution lgs2.state d e
        rw [hC1 d e]
        by_cases hd : d = m.demand
        · rw [if_pos hd]
          subst hd
          have h7 := htrOp.2.2.2.2.2.2 e hnm
          have h8 := hdel e
          rw [Srte.contribution]
          omega
        · rw [if_neg hd]
      obtain ⟨fLen, fWF, fGet⟩ := hkey
      have hw2 : lgs2.demandWheels =
          (s1.Changes.foldl (updateWheels pw m)
            { lgs with state := s1 }).demandWheels := by
        rw [hlgs2]
      refine ⟨⟨?_, ?_, ?_⟩, ?_, ?_, hl2fg, hl2inst, ?_⟩
      · rw [hw2, fLen, hokLen, ← hl2inst]
      · rw [hw2]
        exact fWF
      · intro e he d
        rw [hw2] at he ⊢
        rw [fLen] at he
        exact fGet e he d
      · rw [hst2]
        show Clean (s1.state.PersistChanges)
        rw [hs1state]
        exact tracks_persist_clean htrOp
      · intro pv hpv2
        rw [hl2pv] at hpv2
        rcases List.mem_or_eq_of_mem_set hpv2 with h | rfl
        · exact hpwf _ h
        · exact hp2le
      · rw [hl2loads, hs1state]
        exact hlen

end Solver

/-- C5 (amended): the demand wheels store each demand's raw split-load
traffic, not `(load/capacity)^Beta`, and this holds both after solver
initialization and after every `ApplyMove` that returns true. Initialization
(first conjunct): with in-range forwarding edges, no repeated edge in a
demand's ratio list, and fresh two-node paths, `NewLinkGuidedSolver`
establishes `WheelsOK` — for every edge `e` and demand `d`, the weight
stored in `demand_wheel[e]` for `d` is exactly the raw integer traffic `d`'s
current path contributes to `e` (the sum of `SplitLoad(bandwidth, ratio)`
over the path's per-hop ratios naming `e`; absent demands weigh 0).
Maintenance (second conjunct): from any solver state satisfying `WheelsOK`
with a persisted network state, well-formed paths, in-range forwarding edges,
no self-loop ratio lists, and one wheel per edge, every `ApplyMove` returning
true yields a state that again satisfies `WheelsOK` (plus a persisted network
state and well-formed paths, so accepted moves can keep iterating). -/
theorem c5_demand_wheel_weights :
    (∀ (state : Srte.SRTE) (cfg : Solver.Config) (pw : ℚ → ℚ → ℚ),
      state.fgraphs.Bounded state.inst.graph.Edges.length →
      (∀ d ∈ state.inst.demands,
        (((state.fgraphs.EdgeRatios d.dFrom d.dTo).map
          fun er => er.edge).Nodup)) →
      state.pathVar.length = state.inst.demands.length →
      (∀ i, i < state.inst.demands.length →
        (state.pathVar.getD i default).Nodes =
          [(state.inst.demands.getD i default).dFrom,
           (state.inst.demands.getD i default).dTo]) →
      Solver.WheelsOK (Solver.NewLinkGuidedSolver state cfg pw)) ∧
    (∀ (lgs : Solver.LinkGuidedSolver) (pw : ℚ → ℚ → ℚ) (m : Srte.Move),
      Solver.WheelsOK lgs → Clean lgs.state.state → Srte.PathsWF lgs.state →
      lgs.state.fgraphs.Bounded lgs.state.state.loads.length →
      lgs.state.fgraphs.NoSelf →
      lgs.state.state.loads.length = lgs.state.inst.graph.Edges.length →
      ∀ lgs2 : Solver.LinkGuidedSolver,
        lgs.ApplyMove pw m = some (lgs2, true) →
        Solver.WheelsOK lgs2 ∧ Clean lgs2.state.state ∧
          Srte.PathsWF lgs2.state) :=
  ⟨fun state cfg pw hb hnd hplen hfresh =>
      wheelsOK_init state cfg pw hb hnd hplen hfresh,
   fun lgs pw m hok hclean hpwf hb hns hle lgs2 happ =>
      let h := Solver.wheelsOK_step lgs pw m hok hclean hpwf hb hns hle
        lgs2 happ
      ⟨h.1, h.2.1, h.2.2.1⟩⟩

/-- Witness for `c5_demand_wheel_weights` on the one-edge instance `c5SRTE`:
the initialization half applied with every hypothesis discharged, and the
maintenance half instantiated at the freshly built solver (its `WheelsOK`
obtained from the initialization half) for an accepted Insert move. -/
theorem c5_demand_wheel_weights_witness :
    Solver.WheelsOK (Solver.NewLinkGuidedSolver c5SRTE
      { Alpha := 1, Beta := 2 } (fun a _ => a)) ∧
    (∀ lgs2 : Solver.LinkGuidedSolver,
      (Solver.NewLinkGuidedSolver c5SRTE { Alpha := 1, Beta := 2 }
          (fun a _ => a)).ApplyMove (fun a _ => a)
          { moveType := Srte.MoveType.insert, position := 1, node := 2,
            demand := 0 } = some (lgs2, true) →
      Solver.WheelsOK lgs2 ∧ Clean lgs2.state.state ∧
        Srte.PathsWF lgs2.state) := by
  have hinit := c5_demand_wheel_weights.1 c5SRTE { Alpha := 1, Beta := 2 }
    (fun a _ => a) (by decide) (by decide) (by decide) (by decide)
  refine ⟨hinit, ?_⟩
  intro lgs2 happ
  exact c5_demand_wheel_weights.2
    (Solver.NewLinkGuidedSolver c5SRTE { Alpha := 1, Beta := 2 }
      (fun a _ => a))
    (fun a _ => a)
    { moveType := Srte.MoveType.insert, position := 1, node := 2, demand := 0 }
    hinit
    (by rw [newLGS_state]; decide)
    (by rw [newLGS_state]; decide)
    (by rw [newLGS_state]; decide)
    (by rw [newLGS_state]; decide)
    (by rw [newLGS_state]; decide)
    lgs2 happ
